import Mathlib

/-!
# A shallow embedding of the clox bytecode compiler and virtual machine

This file embeds the C sources of the clox interpreter (scanner.c,
compiler.c, chunk.c, table.c, object.c, value.c, vm.c, main.c) as
executable Lean definitions and proves properties of that embedding.

Modelling conventions:
* C `uint8_t` / `int` values become `Nat` (or `Int` where the source uses
  negative sentinels), with explicit `% 256` / `% 2^32` where C overflow
  semantics matter.
* C pointers into the heap become indices (`Nat`) into an explicit heap
  (`List HObj`); pointers into the operand stack become indices into an
  explicit stack (`List Value`, bottom first).
* IEEE-754 doubles are modelled by `Dbl`: a rational extended with
  infinities and a NaN, enough to express the checks and the
  division-by-zero behaviour the source relies on.  (Rounding of decimal
  literals and `%g` formatting are modelled best-effort; no claim in this
  file depends on them.)
* Functions whose C termination relies on data invariants (hash-table
  probing, the parser loops, the VM loop) take explicit fuel; running out
  of fuel models divergence.
-/

set_option maxRecDepth 40000

namespace Clox

/-! ## Token kinds (scanner.h) -/

/-- Token kinds, mirroring the `TokenType` enum in scanner.h.  The enum
also declares `TOKEN_BREAK` and `TOKEN_CONTINUE`, which the scanner never
produces; they are kept for fidelity. -/
inductive TokenType where
  | leftParen | rightParen | leftBrace | rightBrace
  | comma | dot | minus | plus | semicolon | slash | star
  | bang | bangEqual | equal | equalEqual
  | greater | greaterEqual | less | lessEqual
  | identifier | string | number
  | kwAnd | kwClass | kwElse | kwFalse | kwFor | kwFun | kwIf | kwNil
  | kwOr | kwPrint | kwReturn | kwSuper | kwThis | kwTrue | kwVar | kwWhile
  | kwBreak | kwContinue
  | error | eof
deriving DecidableEq, Repr

/-- A scanned token: kind, lexeme (the source slice the C token points at)
and line number. -/
structure Token where
  type : TokenType
  lexeme : List Char
  line : Nat
deriving DecidableEq, Repr

/-- The token the parser state holds before the first `advance`, and the
token `scanToken` keeps returning at the end of input. -/
def eofTok : Token := ⟨.eof, [], 0⟩

/-! ## Scanner (scanner.c)

The C scanner keeps `start`/`current` pointers into the source; here the
scanner state is the remaining character list plus the current line, and a
token's lexeme is the consumed slice. -/

structure Scanner where
  src : List Char
  line : Nat
deriving DecidableEq, Repr

def isAlphaCh (c : Char) : Bool :=
  ('a' ≤ c && c ≤ 'z') || ('A' ≤ c && c ≤ 'Z') || c = '_'

def isDigitCh (c : Char) : Bool :=
  '0' ≤ c && c ≤ '9'

/-- `skipWhitespace`: spaces, tabs, carriage returns, newlines (counting
lines) and `//` comments.  Fueled: every iteration consumes a character. -/
def skipWs : Nat → List Char → Nat → (List Char × Nat)
  | 0, src, line => (src, line)
  | fuel + 1, src, line =>
    match src with
    | ' ' :: rest => skipWs fuel rest line
    | '\r' :: rest => skipWs fuel rest line
    | '\t' :: rest => skipWs fuel rest line
    | '\n' :: rest => skipWs fuel rest (line + 1)
    | '/' :: '/' :: rest =>
      -- comment to end of line; the newline itself is left for the next
      -- iteration (it increments `line` there)
      skipWs fuel (rest.dropWhile (fun c => ¬ c = '\n')) line
    | _ => (src, line)

/-- `checkKeyword`: the lexeme equals a known keyword. -/
def checkKeyword (lex : List Char) (start : Nat) (rest : List Char)
    (t : TokenType) : TokenType :=
  if lex.length = start + rest.length ∧ lex.drop start = rest then t
  else .identifier

/-- The hand-rolled keyword trie of `identifierType`. -/
def identifierType (lex : List Char) : TokenType :=
  match lex with
  | 'a' :: _ => checkKeyword lex 1 ['n', 'd'] .kwAnd
  | 'c' :: _ => checkKeyword lex 1 ['l', 'a', 's', 's'] .kwClass
  | 'e' :: _ => checkKeyword lex 1 ['l', 's', 'e'] .kwElse
  | 'f' :: 'a' :: _ => checkKeyword lex 2 ['l', 's', 'e'] .kwFalse
  | 'f' :: 'o' :: _ => checkKeyword lex 2 ['r'] .kwFor
  | 'f' :: 'u' :: _ => checkKeyword lex 2 ['n'] .kwFun
  | 'i' :: _ => checkKeyword lex 1 ['f'] .kwIf
  | 'n' :: _ => checkKeyword lex 1 ['i', 'l'] .kwNil
  | 'o' :: _ => checkKeyword lex 1 ['r'] .kwOr
  | 'p' :: _ => checkKeyword lex 1 ['r', 'i', 'n', 't'] .kwPrint
  | 'r' :: _ => checkKeyword lex 1 ['e', 't', 'u', 'r', 'n'] .kwReturn
  | 's' :: _ => checkKeyword lex 1 ['u', 'p', 'e', 'r'] .kwSuper
  | 't' :: 'h' :: _ => checkKeyword lex 2 ['i', 's'] .kwThis
  | 't' :: 'r' :: _ => checkKeyword lex 2 ['u', 'e'] .kwTrue
  | 'v' :: _ => checkKeyword lex 1 ['a', 'r'] .kwVar
  | 'w' :: _ => checkKeyword lex 1 ['h', 'i', 'l', 'e'] .kwWhile
  | _ => .identifier

/-- Scan the remainder of a string literal (opening quote consumed),
returning (consumed chars including closing quote, rest, line, terminated).
Structural recursion on the character list. -/
def scanStr : List Char → Nat → (List Char × List Char × Nat × Bool)
  | [], line => ([], [], line, false)
  | c :: rest, line =>
    if c = '"' then ([c], rest, line, true)
    else
      let line := if c = '\n' then line + 1 else line
      let (taken, rem, line, term) := scanStr rest line
      (c :: taken, rem, line, term)

/-- Scan one token (`scanToken`). -/
def scanToken (sc : Scanner) : Token × Scanner :=
  let (src, line) := skipWs (sc.src.length + 1) sc.src sc.line
  match src with
  | [] => (⟨.eof, [], line⟩, ⟨[], line⟩)
  | c :: rest =>
    if isAlphaCh c then
      let lex := c :: rest.takeWhile (fun d => isAlphaCh d || isDigitCh d)
      let rem := rest.dropWhile (fun d => isAlphaCh d || isDigitCh d)
      (⟨identifierType lex, lex, line⟩, ⟨rem, line⟩)
    else if isDigitCh c then
      let intDigits := c :: rest.takeWhile isDigitCh
      let rest1 := rest.dropWhile isDigitCh
      match rest1 with
      | '.' :: d :: _ =>
        if isDigitCh d then
          let fracDigits := (rest1.drop 1).takeWhile isDigitCh
          let rem := (rest1.drop 1).dropWhile isDigitCh
          (⟨.number, intDigits ++ '.' :: fracDigits, line⟩, ⟨rem, line⟩)
        else (⟨.number, intDigits, line⟩, ⟨rest1, line⟩)
      | _ => (⟨.number, intDigits, line⟩, ⟨rest1, line⟩)
    else
      match c with
      | '(' => (⟨.leftParen, [c], line⟩, ⟨rest, line⟩)
      | ')' => (⟨.rightParen, [c], line⟩, ⟨rest, line⟩)
      | '{' => (⟨.leftBrace, [c], line⟩, ⟨rest, line⟩)
      | '}' => (⟨.rightBrace, [c], line⟩, ⟨rest, line⟩)
      | ';' => (⟨.semicolon, [c], line⟩, ⟨rest, line⟩)
      | ',' => (⟨.comma, [c], line⟩, ⟨rest, line⟩)
      | '.' => (⟨.dot, [c], line⟩, ⟨rest, line⟩)
      | '-' => (⟨.minus, [c], line⟩, ⟨rest, line⟩)
      | '+' => (⟨.plus, [c], line⟩, ⟨rest, line⟩)
      | '/' => (⟨.slash, [c], line⟩, ⟨rest, line⟩)
      | '*' => (⟨.star, [c], line⟩, ⟨rest, line⟩)
      | '!' =>
        match rest with
        | '=' :: rest2 => (⟨.bangEqual, ['!', '='], line⟩, ⟨rest2, line⟩)
        | _ => (⟨.bang, [c], line⟩, ⟨rest, line⟩)
      | '=' =>
        match rest with
        | '=' :: rest2 => (⟨.equalEqual, ['=', '='], line⟩, ⟨rest2, line⟩)
        | _ => (⟨.equal, [c], line⟩, ⟨rest, line⟩)
      | '<' =>
        match rest with
        | '=' :: rest2 => (⟨.lessEqual, ['<', '='], line⟩, ⟨rest2, line⟩)
        | _ => (⟨.less, [c], line⟩, ⟨rest, line⟩)
      | '>' =>
        match rest with
        | '=' :: rest2 => (⟨.greaterEqual, ['>', '='], line⟩, ⟨rest2, line⟩)
        | _ => (⟨.greater, [c], line⟩, ⟨rest, line⟩)
      | '"' =>
        let (taken, rem, line2, term) := scanStr rest line
        if term then (⟨.string, '"' :: taken, line2⟩, ⟨rem, line2⟩)
        else (⟨.error, "Unterminated string.".toList, line2⟩, ⟨rem, line2⟩)
      | _ => (⟨.error, "Unexpected character.".toList, line⟩, ⟨rest, line⟩)

/-- Scan a whole source into its token list, ending with the EOF token.
Fueled by the source length: each non-EOF token consumes at least one
character. -/
def scanTokensGo : Nat → Scanner → List Token
  | 0, _ => []
  | fuel + 1, sc =>
    let (t, sc') := scanToken sc
    if t.type = .eof then [t]
    else t :: scanTokensGo fuel sc'

/-- The token stream of a source string (the sequence of `scanToken`
results an interleaved parser would observe). -/
def scanTokens (src : String) : List Token :=
  scanTokensGo (src.toList.length + 1) ⟨src.toList, 1⟩

/-! ## Doubles

The C sources compute on IEEE-754 doubles.  `Dbl` models them as a
rational extended with the two infinities and a NaN: enough to state that
arithmetic checks only value *tags* and that division by zero produces an
infinity or NaN rather than an error.  (Signed zero is not representable,
so `x / 0` with `x < 0` yields `ninf` as if the zero were positive;
no theorem below depends on that corner.) -/

inductive Dbl where
  | finite (q : ℚ)
  | inf
  | ninf
  | nan
deriving DecidableEq, Repr

namespace Dbl

def add : Dbl → Dbl → Dbl
  | finite a, finite b => finite (a + b)
  | nan, _ => nan
  | _, nan => nan
  | inf, ninf => nan
  | ninf, inf => nan
  | inf, _ => inf
  | _, inf => inf
  | ninf, _ => ninf
  | _, ninf => ninf

def sub : Dbl → Dbl → Dbl
  | finite a, finite b => finite (a - b)
  | nan, _ => nan
  | _, nan => nan
  | inf, inf => nan
  | ninf, ninf => nan
  | inf, _ => inf
  | ninf, _ => ninf
  | _, inf => ninf
  | _, ninf => inf

def mul : Dbl → Dbl → Dbl
  | finite a, finite b => finite (a * b)
  | nan, _ => nan
  | _, nan => nan
  | inf, finite b => if b = 0 then nan else if 0 < b then inf else ninf
  | finite a, inf => if a = 0 then nan else if 0 < a then inf else ninf
  | ninf, finite b => if b = 0 then nan else if 0 < b then ninf else inf
  | finite a, ninf => if a = 0 then nan else if 0 < a then ninf else inf
  | inf, inf => inf
  | ninf, ninf => inf
  | inf, ninf => ninf
  | ninf, inf => ninf

/-- IEEE division: a zero divisor yields an infinity (or NaN for 0/0)
rather than any kind of error. -/
def div : Dbl → Dbl → Dbl
  | finite a, finite b =>
    if b = 0 then (if a = 0 then nan else if 0 < a then inf else ninf)
    else finite (a / b)
  | nan, _ => nan
  | _, nan => nan
  | inf, inf => nan
  | inf, ninf => nan
  | ninf, inf => nan
  | ninf, ninf => nan
  | inf, finite b => if 0 ≤ b then inf else ninf
  | ninf, finite b => if 0 ≤ b then ninf else inf
  | finite _, inf => finite 0
  | finite _, ninf => finite 0

def neg : Dbl → Dbl
  | finite a => finite (-a)
  | inf => ninf
  | ninf => inf
  | nan => nan

/-- IEEE `<` (false whenever a NaN is involved). -/
def ltb : Dbl → Dbl → Bool
  | finite a, finite b => a < b
  | nan, _ => false
  | _, nan => false
  | inf, _ => false
  | _, inf => true
  | ninf, ninf => false
  | ninf, _ => true
  | _, ninf => false

/-- IEEE `>`. -/
def gtb (a b : Dbl) : Bool := ltb b a

/-- IEEE `==` (`NaN == NaN` is false), used by `valuesEqual`. -/
def eqb : Dbl → Dbl → Bool
  | finite a, finite b => a = b
  | inf, inf => true
  | ninf, ninf => true
  | _, _ => false

end Dbl

/-- `strtod` on a scanned number lexeme (digits with an optional fraction).
Decimal-to-double rounding is modelled as exact rational conversion. -/
def strtodModel (lex : List Char) : Dbl :=
  let intPart := lex.takeWhile isDigitCh
  let rest := lex.dropWhile isDigitCh
  let fracPart := (rest.drop 1).takeWhile isDigitCh
  let iv : Nat := intPart.foldl (fun a c => a * 10 + (c.toNat - 48)) 0
  let fv : Nat := fracPart.foldl (fun a c => a * 10 + (c.toNat - 48)) 0
  .finite ((iv : ℚ) + (fv : ℚ) / ((10 : ℚ) ^ fracPart.length))

/-! ## Values and heap objects (value.h, object.h)

Heap pointers are indices into an explicit `Heap`.  The `Value` tag union
of value.h (this snapshot of value.h predates `VAL_OBJ`, but value.c,
object.c and vm.c all use it; it is embedded as used by the code). -/

/-- A runtime value: nil, boolean, number, or heap-object reference. -/
inductive Value where
  | nil
  | bool (b : Bool)
  | num (d : Dbl)
  | obj (r : Nat)
deriving DecidableEq, Repr

/-- A hash-table entry (table.h): interned-string key (by reference) and a
value.  `key = none` with `val = nil` is truly empty; `key = none` with
`val = bool true` is a tombstone. -/
structure Entry where
  key : Option Nat
  val : Value
deriving DecidableEq, Repr

/-- An open-addressed table (table.h).  The C struct carries `capacity`
alongside the entry array; here the capacity is the array length. -/
structure Table where
  count : Nat
  entries : List Entry
deriving DecidableEq, Repr

def Table.capacity (t : Table) : Nat := t.entries.length

def emptyTable : Table := ⟨0, []⟩

/-- Where an upvalue's `location` pointer points: a stack slot while open,
its own `closed` cell after `closeUpvalues`. -/
inductive UpLoc where
  | stackIdx (i : Nat)
  | ownClosed
deriving DecidableEq, Repr

/-- A compiled code unit (chunk.h): opcode/operand bytes, parallel line
numbers, and the constant pool. -/
structure Chunk where
  code : List Nat
  lines : List Nat
  constants : List Value
deriving DecidableEq, Repr

def emptyChunk : Chunk := ⟨[], [], []⟩

/-- Heap objects.  `str`, `fn`, `native`, `closure`, `upvalue` follow
object.h.

Modelled from the spec: this snapshot's object.h lacks the
`ObjClass`/`ObjInstance`/`ObjBoundMethod` declarations that vm.c uses;
`cls`, `inst` and `boundMethod` follow spec §3 (CLASS: name and method
table; INSTANCE: class and field table; BOUND_METHOD: receiver and
closure). -/
inductive HObj where
  | str (chars : List Char) (hash : Nat)
  | fn (arity : Nat) (upvalueCount : Nat) (chunk : Chunk) (name : Option Nat)
  | native
  | closure (function : Nat) (upvalues : List Nat)
  | upvalue (location : UpLoc) (closed : Value)
  | cls (name : Nat) (methods : Table)
  | inst (klass : Nat) (fields : Table)
  | boundMethod (receiver : Value) (method : Nat)
deriving DecidableEq, Repr

abbrev Heap := List HObj

/-- Allocate: objects are appended to the heap (the VM's intrusive
`objects` list, used only by the GC sweep, is not modelled). -/
def allocObj (h : Heap) (o : HObj) : Nat × Heap := (h.length, h ++ [o])

/-- The `hash` field of the string object at `r` (the model of
dereferencing an `ObjString*` key). Non-string references never occur as
table keys in well-formed states. -/
def strHash (h : Heap) (r : Nat) : Nat :=
  match h.get? r with
  | some (.str _ hh) => hh
  | _ => 0

/-- The character content of the string object at `r`. -/
def strChars (h : Heap) (r : Nat) : List Char :=
  match h.get? r with
  | some (.str cs _) => cs
  | _ => []

def isStrRef (h : Heap) (r : Nat) : Bool :=
  match h.get? r with
  | some (.str _ _) => true
  | _ => false

/-- FNV-1a (`hashString`), on 32-bit arithmetic.  Characters are taken as
their code points; the embedded sources are ASCII, where this coincides
with the C byte-wise reading. -/
def hashString (chars : List Char) : Nat :=
  chars.foldl (fun h c => ((h ^^^ c.toNat) * 16777619) % 4294967296) 2166136261

/-- `valuesEqual` (value.c): same tag required; objects compare by
reference; numbers by IEEE `==`. -/
def valuesEqual : Value → Value → Bool
  | .bool a, .bool b => a = b
  | .nil, .nil => true
  | .num a, .num b => a.eqb b
  | .obj a, .obj b => a = b
  | _, _ => false

/-! ## Hash table operations (table.c)

`findEntry` probes linearly from `hash % capacity`.  In C it loops until
it finds a matching key, a reusable tombstone backed by a later empty
slot, or an empty slot; termination relies on the load-factor invariant.
Here the probe is fueled by the capacity and returns `none` when no stop
is found within one full cycle — a state in which the C loop would never
terminate.  Total wrappers below fall back to leaving the table unchanged
in that (well-formedness-excluded) case. -/

def findEntryAux (entries : List Entry) (key : Nat) :
    Nat → Nat → Option Nat → Option Nat
  | 0, _, _ => none
  | fuel + 1, index, tomb =>
    match entries.get? index with
    | none => none
    | some e =>
      match e.key with
      | none =>
        if e.val = .nil then some (tomb.getD index)
        else findEntryAux entries key fuel ((index + 1) % entries.length)
          (some (tomb.getD index))
      | some k =>
        if k = key then some index
        else findEntryAux entries key fuel ((index + 1) % entries.length) tomb

def findEntry (entries : List Entry) (key : Nat) (hash : Nat) : Option Nat :=
  findEntryAux entries key entries.length (hash % entries.length) none

/-- `tableGet`.  `hf` dereferences a key to its hash (see `strHash`). -/
def tableGet (hf : Nat → Nat) (t : Table) (key : Nat) : Option Value :=
  if t.count = 0 then none
  else
    match findEntry t.entries key (hf key) with
    | none => none
    | some i =>
      match t.entries.get? i with
      | some ⟨some _, v⟩ => some v
      | _ => none

/-- `GROW_CAPACITY` (memory.h). -/
def growCapacity (c : Nat) : Nat := if c < 8 then 8 else c * 2

/-- `adjustCapacity`: rebuild into a fresh array of the given capacity,
skipping tombstones and recounting. -/
def adjustCapacity (hf : Nat → Nat) (t : Table) (cap : Nat) : Table :=
  t.entries.foldl
    (fun acc e =>
      match e.key with
      | none => acc
      | some k =>
        match findEntry acc.entries k (hf k) with
        | none => acc
        | some i =>
          ⟨acc.count + 1, acc.entries.set i ⟨some k, e.val⟩⟩)
    ⟨0, List.replicate cap ⟨none, .nil⟩⟩

/-- `tableSet`: grow at load factor 3/4 (the C check
`count + 1 > capacity * 0.75` is exact in integers as
`4 * (count + 1) > 3 * capacity`), then insert; returns whether the key
was new. -/
def tableSet (hf : Nat → Nat) (t : Table) (key : Nat) (v : Value) :
    Table × Bool :=
  let t := if 4 * (t.count + 1) > 3 * t.capacity
    then adjustCapacity hf t (growCapacity t.capacity) else t
  match findEntry t.entries key (hf key) with
  | none => (t, false)
  | some i =>
    match t.entries.get? i with
    | none => (t, false)
    | some e =>
      let isNew := e.key.isNone
      let cnt := if isNew ∧ e.val = .nil then t.count + 1 else t.count
      (⟨cnt, t.entries.set i ⟨some key, v⟩⟩, isNew)

/-- `tableDelete`: overwrite the entry with a tombstone
(`key = NULL, value = true`); `count` is not decremented. -/
def tableDelete (hf : Nat → Nat) (t : Table) (key : Nat) : Table × Bool :=
  if t.count = 0 then (t, false)
  else
    match findEntry t.entries key (hf key) with
    | none => (t, false)
    | some i =>
      match t.entries.get? i with
      | some ⟨some _, _⟩ =>
        (⟨t.count, t.entries.set i ⟨none, .bool true⟩⟩, true)
      | _ => (t, false)

/-- `tableAddAll` (used by OP_INHERIT). -/
def tableAddAll (hf : Nat → Nat) (src dst : Table) : Table :=
  src.entries.foldl
    (fun acc e =>
      match e.key with
      | some k => (tableSet hf acc k e.val).1
      | none => acc)
    dst

/-- `tableFindString`: the content-keyed lookup used only for interning;
compares length, hash, then bytes. -/
def tableFindStringAux (heap : Heap) (entries : List Entry)
    (chars : List Char) (hash : Nat) : Nat → Nat → Option Nat
  | 0, _ => none
  | fuel + 1, index =>
    match entries.get? index with
    | none => none
    | some e =>
      match e.key with
      | none =>
        if e.val = .nil then none
        else tableFindStringAux heap entries chars hash fuel
          ((index + 1) % entries.length)
      | some k =>
        if (strChars heap k).length = chars.length ∧ strHash heap k = hash ∧
            strChars heap k = chars then some k
        else tableFindStringAux heap entries chars hash fuel
          ((index + 1) % entries.length)

def tableFindString (heap : Heap) (t : Table) (chars : List Char)
    (hash : Nat) : Option Nat :=
  if t.count = 0 then none
  else tableFindStringAux heap t.entries chars hash t.entries.length
    (hash % t.entries.length)

/-! ## String interning (object.c) -/

/-- `allocateString`: allocate the object and register it in the intern
table (`vm.strings`). -/
def allocateString (heap : Heap) (strings : Table) (chars : List Char)
    (hash : Nat) : Nat × Heap × Table :=
  let (r, heap) := allocObj heap (.str chars hash)
  let (strings, _) := tableSet (strHash heap) strings r .nil
  (r, heap, strings)

/-- `copyString`: hash, look up in the intern table, return the existing
object on a hit, allocate and register on a miss. -/
def copyString (heap : Heap) (strings : Table) (chars : List Char) :
    Nat × Heap × Table :=
  let hash := hashString chars
  match tableFindString heap strings chars hash with
  | some r => (r, heap, strings)
  | none => allocateString heap strings chars hash

/-- `takeString` is `copyString` modulo buffer ownership (the C version
frees the passed buffer on an intern hit — a memory-management detail with
no observable counterpart here). -/
def takeString (heap : Heap) (strings : Table) (chars : List Char) :
    Nat × Heap × Table :=
  copyString heap strings chars

/-! ## Opcodes (chunk.h), numbered by enum position. -/

def opConstant : Nat := 0
def opNil : Nat := 1
def opTrue : Nat := 2
def opFalse : Nat := 3
def opPop : Nat := 4
def opGetLocal : Nat := 5
def opSetLocal : Nat := 6
def opGetGlobal : Nat := 7
def opDefineGlobal : Nat := 8
def opSetGlobal : Nat := 9
def opGetUpvalue : Nat := 10
def opSetUpvalue : Nat := 11
def opGetProperty : Nat := 12
def opSetProperty : Nat := 13
def opEqual : Nat := 14
def opGetSuper : Nat := 15
def opGreater : Nat := 16
def opLess : Nat := 17
def opAdd : Nat := 18
def opSubtract : Nat := 19
def opMultiply : Nat := 20
def opDivide : Nat := 21
def opNot : Nat := 22
def opNegate : Nat := 23
def opPrint : Nat := 24
def opJump : Nat := 25
def opJumpIfFalse : Nat := 26
def opLoop : Nat := 27
def opCall : Nat := 28
def opInvoke : Nat := 29
def opSuperInvoke : Nat := 30
def opClosure : Nat := 31
def opCloseUpvalue : Nat := 32
def opReturn : Nat := 33
def opClass : Nat := 34
def opInherit : Nat := 35
def opMethod : Nat := 36

/-! ## Pratt-parser tables (compiler.c) -/

/-- Precedence levels (enum `Precedence`), as naturals so the source's
`rule->precedence + 1` and `≤` comparisons carry over. -/
abbrev Prec := Nat
def precNone : Prec := 0
def precAssignment : Prec := 1
def precOr : Prec := 2
def precAnd : Prec := 3
def precEquality : Prec := 4
def precComparison : Prec := 5
def precTerm : Prec := 6
def precFactor : Prec := 7
def precUnary : Prec := 8
def precCall : Prec := 9
def precPrimary : Prec := 10

/-- Tags for the `ParseFn` function pointers stored in the rule table.
(`variable`, `string`, `and_`, `or_` get Lean-compatible names.) -/
inductive PFn where
  | grouping | unary | binary | number | stringFn | literal
  | variableFn | andFn | orFn | call
deriving DecidableEq, Repr

/-- A parse rule: prefix function, infix function, precedence.  The C
fields are named `prefix`/`infix` (reserved words in Lean). -/
structure ParseRule where
  pfn : Option PFn
  ifn : Option PFn
  prec : Prec
deriving DecidableEq, Repr

/-- The `rules[]` table.  Entries absent from the designated initializer
(`TOKEN_BREAK`, `TOKEN_CONTINUE`) are zero-initialized in C:
no rules, `PREC_NONE`. -/
def rules : TokenType → ParseRule
  | .leftParen => ⟨some .grouping, some .call, precCall⟩
  | .rightParen => ⟨none, none, precNone⟩
  | .leftBrace => ⟨none, none, precNone⟩
  | .rightBrace => ⟨none, none, precNone⟩
  | .comma => ⟨none, none, precNone⟩
  | .dot => ⟨none, none, precNone⟩
  | .minus => ⟨some .unary, some .binary, precTerm⟩
  | .plus => ⟨none, some .binary, precTerm⟩
  | .semicolon => ⟨none, none, precNone⟩
  | .slash => ⟨none, some .binary, precFactor⟩
  | .star => ⟨none, some .binary, precFactor⟩
  | .bang => ⟨some .unary, none, precNone⟩
  | .bangEqual => ⟨none, some .binary, precEquality⟩
  | .equal => ⟨none, none, precNone⟩
  | .equalEqual => ⟨none, some .binary, precEquality⟩
  | .greater => ⟨none, some .binary, precComparison⟩
  | .greaterEqual => ⟨none, some .binary, precComparison⟩
  | .less => ⟨none, some .binary, precComparison⟩
  | .lessEqual => ⟨none, some .binary, precComparison⟩
  | .identifier => ⟨some .variableFn, none, precNone⟩
  | .string => ⟨some .stringFn, none, precNone⟩
  | .number => ⟨some .number, none, precNone⟩
  | .kwAnd => ⟨none, some .andFn, precAnd⟩
  | .kwClass => ⟨none, none, precNone⟩
  | .kwElse => ⟨none, none, precNone⟩
  | .kwFalse => ⟨some .literal, none, precNone⟩
  | .kwFor => ⟨none, none, precNone⟩
  | .kwFun => ⟨none, none, precNone⟩
  | .kwIf => ⟨none, none, precNone⟩
  | .kwNil => ⟨some .literal, none, precNone⟩
  | .kwOr => ⟨none, some .orFn, precOr⟩
  | .kwPrint => ⟨none, none, precNone⟩
  | .kwReturn => ⟨none, none, precNone⟩
  | .kwSuper => ⟨none, none, precNone⟩
  | .kwThis => ⟨none, none, precNone⟩
  | .kwTrue => ⟨some .literal, none, precNone⟩
  | .kwVar => ⟨none, none, precNone⟩
  | .kwWhile => ⟨none, none, precNone⟩
  | .kwBreak => ⟨none, none, precNone⟩
  | .kwContinue => ⟨none, none, precNone⟩
  | .error => ⟨none, none, precNone⟩
  | .eof => ⟨none, none, precNone⟩

/-! ## Compiler state (compiler.c) -/

/-- A local-variable record.  `depth = -1` marks a declared but not yet
initialized local. -/
structure LocalV where
  name : Token
  depth : Int
  isCaptured : Bool
deriving DecidableEq, Repr

/-- A compile-time upvalue record. -/
structure UpvalueC where
  index : Nat
  isLocal : Bool
deriving DecidableEq, Repr

/-- `FunctionType`. -/
inductive FunType where
  | function
  | script
deriving DecidableEq, Repr

/-- One `Compiler` record.  The in-progress `ObjFunction` (arity, upvalue
count, name, chunk) is kept inline here and allocated on the heap at
`endCompiler` — in C it is heap-allocated up front and mutated in place,
which is observationally the same for everything modelled. -/
structure Comp where
  ftype : FunType
  fnArity : Nat
  fnUpvalueCount : Nat
  fnName : Option Nat
  chunk : Chunk
  locals : List LocalV
  upvalues : List UpvalueC
  scopeDepth : Int
deriving DecidableEq, Repr

/-- The full compile-time state: the VM heap and intern table (the
compiler allocates strings and functions), the compiler chain (head =
`current`, the innermost), and the `Parser` fields.  `curTok` is
`parser.current`; `toks` the tokens not yet scanned. -/
structure CState where
  heap : Heap
  strings : Table
  comps : List Comp
  prev : Token
  curTok : Token
  toks : List Token
  hadError : Bool
  panicMode : Bool
deriving DecidableEq, Repr

/-- `errorAt` / `error` / `errorAtCurrent`: in panic mode the diagnostic
is suppressed; otherwise enter panic mode and set `hadError`.  (Diagnostic
text goes to stderr and is not modelled; call sites note the message.) -/
def errorP (s : CState) : CState :=
  if s.panicMode then s else { s with panicMode := true, hadError := true }

/-- The token-pulling loop inside `advance`: skip ERROR tokens, reporting
each via `errorAtCurrent`. -/
def pullTok : List Token → Bool → Bool → Token × List Token × Bool × Bool
  | [], he, pm => (eofTok, [], he, pm)
  | t :: rest, he, pm =>
    if t.type = .error then
      if pm then pullTok rest he pm
      else pullTok rest true true
    else (t, rest, he, pm)

/-- `advance`. -/
def advanceP (s : CState) : CState :=
  let (c, toks, he, pm) := pullTok s.toks s.hadError s.panicMode
  { s with prev := s.curTok, curTok := c, toks := toks,
           hadError := he, panicMode := pm }

/-- `check`. -/
def check (s : CState) (t : TokenType) : Bool := s.curTok.type = t

/-- `consume`. -/
def consume (s : CState) (t : TokenType) : CState :=
  if check s t then advanceP s else errorP s

/-- `match` (a Lean keyword, hence `matchTok`): returns whether the token
was consumed. -/
def matchTok (s : CState) (t : TokenType) : Bool × CState :=
  if check s t then (true, advanceP s) else (false, s)

/-- Apply a function to the current (innermost) compiler. -/
def withComp (s : CState) (f : Comp → Comp) : CState :=
  { s with comps := match s.comps with
    | [] => []
    | c :: r => f c :: r }

/-- The current chunk's code (`currentChunk()->code`). -/
def curCode (s : CState) : List Nat :=
  match s.comps with
  | c :: _ => c.chunk.code
  | [] => []

/-- The current chunk's constant pool. -/
def curPool (s : CState) : List Value :=
  match s.comps with
  | c :: _ => c.chunk.constants
  | [] => []

/-- `emitByte` (`writeChunk` with `parser.previous.line`). -/
def emitByte (s : CState) (b : Nat) : CState :=
  withComp s fun c =>
    { c with chunk := { c.chunk with
        code := c.chunk.code ++ [b],
        lines := c.chunk.lines ++ [s.prev.line] } }

/-- `emitBytes`. -/
def emitBytes (s : CState) (b1 b2 : Nat) : CState :=
  emitByte (emitByte s b1) b2

/-- `emitLoop`: OP_LOOP plus a 16-bit backward distance; overflow is the
"Loop body too large." compile error. -/
def emitLoop (s : CState) (loopStart : Nat) : CState :=
  let s := emitByte s opLoop
  let offset := (curCode s).length - loopStart + 2
  let s := if offset > 65535 then errorP s else s
  emitByte (emitByte s ((offset >>> 8) &&& 255)) (offset &&& 255)

/-- `emitJump`: the opcode plus two `0xff` placeholder bytes; returns the
offset of the first placeholder. -/
def emitJump (s : CState) (instruction : Nat) : Nat × CState :=
  let s := emitByte (emitByte (emitByte s instruction) 255) 255
  ((curCode s).length - 2, s)

/-- `emitReturn`: every function body ends with an implicit `return nil`. -/
def emitReturn (s : CState) : CState :=
  emitByte (emitByte s opNil) opReturn

/-- `makeConstant` / `addConstant`: append to the pool; more than 256
constants in one chunk is the "Too many constants in one chunk." error
(the oversized pool entry is still appended, as in C). -/
def makeConstant (s : CState) (v : Value) : Nat × CState :=
  let idx := (curPool s).length
  let s := withComp s fun c =>
    { c with chunk := { c.chunk with constants := c.chunk.constants ++ [v] } }
  if idx > 255 then (0, errorP s) else (idx, s)

/-- `emitConstant`. -/
def emitConstant (s : CState) (v : Value) : CState :=
  let (k, s) := makeConstant s v
  emitBytes s opConstant k

/-- `patchJump`: store `count - offset - 2` into the two placeholder
bytes, high byte first; a distance above 16 bits is the "Too much code to
jump over." error (the truncated bytes are still written, as in C). -/
def patchJump (s : CState) (offset : Nat) : CState :=
  let jump := (curCode s).length - offset - 2
  let s := if jump > 65535 then errorP s else s
  withComp s fun c =>
    { c with chunk := { c.chunk with
        code := (c.chunk.code.set offset ((jump >>> 8) &&& 255)).set
          (offset + 1) (jump &&& 255) } }

/-- `initCompiler`: push a fresh compiler; named functions copy their name
from `parser.previous`; slot 0 is reserved for the VM (empty name,
depth 0). -/
def initCompiler (s : CState) (ftype : FunType) : CState :=
  let (nameRef, heap, strings) :=
    match ftype with
    | .script => (none, s.heap, s.strings)
    | .function =>
      let (r, h, st) := copyString s.heap s.strings s.prev.lexeme
      (some r, h, st)
  let comp : Comp :=
    { ftype := ftype, fnArity := 0, fnUpvalueCount := 0, fnName := nameRef,
      chunk := emptyChunk,
      locals := [⟨⟨.identifier, [], 0⟩, 0, false⟩],
      upvalues := [], scopeDepth := 0 }
  { s with heap := heap, strings := strings, comps := comp :: s.comps }

/-- `endCompiler`: emit the implicit return, pop the compiler, produce the
`ObjFunction` (allocated here; see `Comp`). -/
def endCompiler (s : CState) : Nat × CState :=
  let s := emitReturn s
  match s.comps with
  | [] => (0, s)
  | c :: rest =>
    let (r, heap) := allocObj s.heap
      (.fn c.fnArity c.fnUpvalueCount c.chunk c.fnName)
    (r, { s with heap := heap, comps := rest })

/-- `beginScope`. -/
def beginScope (s : CState) : CState :=
  withComp s fun c => { c with scopeDepth := c.scopeDepth + 1 }

/-- The pop-locals loop of `endScope`: captured locals are closed with
OP_CLOSE_UPVALUE, others popped. -/
def endScopeLoop : Nat → CState → CState
  | 0, s => s
  | fuel + 1, s =>
    match s.comps with
    | [] => s
    | c :: _ =>
      match c.locals.getLast? with
      | none => s
      | some l =>
        if l.depth > c.scopeDepth then
          let s := emitByte s (if l.isCaptured then opCloseUpvalue else opPop)
          let s := withComp s fun c => { c with locals := c.locals.dropLast }
          endScopeLoop fuel s
        else s

/-- `endScope`. -/
def endScope (s : CState) : CState :=
  let s := withComp s fun c => { c with scopeDepth := c.scopeDepth - 1 }
  match s.comps with
  | c :: _ => endScopeLoop c.locals.length s
  | [] => s

/-- `identifierConstant`: intern the name and add it to the constant pool
(every occurrence appends a fresh pool slot; `addConstant` does not
deduplicate). -/
def identifierConstant (s : CState) (name : Token) : Nat × CState :=
  let (r, heap, strings) := copyString s.heap s.strings name.lexeme
  makeConstant { s with heap := heap, strings := strings } (.obj r)

/-- `identifiersEqual`: length plus bytes. -/
def identifiersEqual (a b : Token) : Bool := a.lexeme = b.lexeme

/-- The scan of `resolveLocal`, over the locals from innermost (highest
slot) down.  Returns the slot index if found, plus whether the
"Can't read local variable in its own initializer." error fired
(`depth = -1`). -/
def resolveLocalGo (name : Token) : List LocalV → Nat → Option Nat × Bool
  | [], _ => (none, false)
  | l :: rest, i =>
    if identifiersEqual name l.name then (some i, l.depth = -1)
    else resolveLocalGo name rest (i - 1)

/-- `resolveLocal`. -/
def resolveLocal (c : Comp) (name : Token) : Option Nat × Bool :=
  resolveLocalGo name c.locals.reverse (c.locals.length - 1)

/-- `addUpvalue`: deduplicate by `(index, isLocal)`; otherwise append and
bump the function's upvalue count.  (This snapshot has no
too-many-upvalues check.) -/
def addUpvalue (c : Comp) (index : Nat) (isLocal : Bool) : Nat × Comp :=
  match c.upvalues.findIdx? (fun u => u.index = index && u.isLocal = isLocal) with
  | some i => (i, c)
  | none =>
    (c.fnUpvalueCount,
     { c with upvalues := c.upvalues ++ [⟨index, isLocal⟩],
              fnUpvalueCount := c.fnUpvalueCount + 1 })

/-- Mark the local at `li` of compiler `c` captured. -/
def setCaptured (c : Comp) (li : Nat) : Comp :=
  match c.locals.get? li with
  | some l => { c with locals := c.locals.set li { l with isCaptured := true } }
  | none => c

/-- `resolveUpvalue`, walking the enclosing-compiler chain (the list tail).
Returns the upvalue index, the updated chain (outer locals may be marked
captured, outer upvalue arrays may grow), and whether some inner
`resolveLocal` reported the own-initializer error. -/
def resolveUpvalue : List Comp → Token → Option Nat × List Comp × Bool
  | [], _ => (none, [], false)
  | [c], _ => (none, [c], false)
  | c :: e :: rest, name =>
    match resolveLocal e name with
    | (some li, lerr) =>
      let e := setCaptured e li
      let (ui, c) := addUpvalue c li true
      (some ui, c :: e :: rest, lerr)
    | (none, _) =>
      match resolveUpvalue (e :: rest) name with
      | (some oi, chain, oerr) =>
        let (ui, c) := addUpvalue c oi false
        (some ui, c :: chain, oerr)
      | (none, chain, oerr) => (none, c :: chain, oerr)

/-- `addLocal`: cap of 256 locals ("Too many local variables in
function."), inserted with depth −1. -/
def addLocal (s : CState) (name : Token) : CState :=
  match s.comps with
  | [] => s
  | c :: _ =>
    if c.locals.length = 256 then errorP s
    else withComp s fun c =>
      { c with locals := c.locals ++ [⟨name, -1, false⟩] }

/-- The duplicate-name scan of `declareVariable` (from innermost local
down, stopping at an initialized local of an enclosing scope). -/
def declClash (sd : Int) (name : Token) : List LocalV → Bool
  | [] => false
  | l :: rest =>
    if l.depth ≠ -1 ∧ l.depth < sd then false
    else if identifiersEqual name l.name then true
    else declClash sd name rest

/-- `declareVariable`: globals are skipped; a same-scope redeclaration is
the "Already a variable with this name in this scope." error. -/
def declareVariable (s : CState) : CState :=
  match s.comps with
  | [] => s
  | c :: _ =>
    if c.scopeDepth = 0 then s
    else
      let s := if declClash c.scopeDepth s.prev c.locals.reverse
        then errorP s else s
      addLocal s s.prev

/-- `parseVariable`: consume the identifier, declare it; locals yield
constant index 0, globals an interned-name constant. -/
def parseVariable (s : CState) : Nat × CState :=
  let s := consume s .identifier
  let s := declareVariable s
  match s.comps with
  | c :: _ =>
    if c.scopeDepth > 0 then (0, s) else identifierConstant s s.prev
  | [] => (0, s)

/-- `markInitialized`. -/
def markInitialized (s : CState) : CState :=
  match s.comps with
  | c :: _ =>
    if c.scopeDepth = 0 then s
    else withComp s fun c =>
      { c with locals :=
          match c.locals.getLast? with
          | some l => c.locals.dropLast ++ [{ l with depth := c.scopeDepth }]
          | none => c.locals }
  | [] => s

/-- `defineVariable`: locals are just marked initialized (their value is
the stack residue of the initializer); globals emit OP_DEFINE_GLOBAL. -/
def defineVariable (s : CState) (global : Nat) : CState :=
  match s.comps with
  | c :: _ =>
    if c.scopeDepth > 0 then markInitialized s
    else emitBytes s opDefineGlobal global
  | [] => s

/-- The `synchronize` skip loop (fueled by the remaining tokens). -/
def syncLoop : Nat → CState → CState
  | 0, s => s
  | fuel + 1, s =>
    if s.curTok.type = .eof then s
    else if s.prev.type = .semicolon then s
    else
      match s.curTok.type with
      | .kwClass | .kwFun | .kwVar | .kwFor
      | .kwIf | .kwWhile | .kwPrint | .kwReturn => s
      | _ => syncLoop fuel (advanceP s)

/-- `synchronize`: leave panic mode, skip to a statement boundary. -/
def synchronize (s : CState) : CState :=
  syncLoop (s.toks.length + 1) { s with panicMode := false }

/-- Fuel exhaustion models nontermination of the parser; it poisons the
state so an out-of-fuel parse is never mistaken for a successful
compile. -/
def fuelFail (s : CState) : CState := { s with hadError := true }

/-- `number`: the literal via `strtod` into the constant pool. -/
def numberFn (s : CState) : CState :=
  emitConstant s (.num (strtodModel s.prev.lexeme))

/-- `string`: the lexeme minus its surrounding quotes, interned. -/
def stringFn (s : CState) : CState :=
  let chars := (s.prev.lexeme.drop 1).dropLast
  let (r, heap, strings) := copyString s.heap s.strings chars
  emitConstant { s with heap := heap, strings := strings } (.obj r)

/-- `literal`. -/
def literalFn (s : CState) : CState :=
  match s.prev.type with
  | .kwFalse => emitByte s opFalse
  | .kwNil => emitByte s opNil
  | .kwTrue => emitByte s opTrue
  | _ => s

/-! The parsing functions of compiler.c form one mutual recursion; fuel
(decremented on every call within the group) makes it structural.  The C
`while`/`do-while` loops (`parsePrecedence`'s infix loop, `block`,
argument and parameter lists, `compile`'s declaration loop) become the
fueled loop functions of the group. -/

mutual

/-- `parsePrecedence`. -/
def parsePrecedence : Nat → Prec → CState → CState
  | 0, _, s => fuelFail s
  | fuel + 1, prec, s =>
    let s := advanceP s
    match (rules s.prev.type).pfn with
    | none => errorP s  -- "Expect expression."
    | some pf =>
      let canAssign : Bool := prec ≤ precAssignment
      let s := applyRule fuel pf canAssign s
      let s := infixLoop fuel prec canAssign s
      -- an unconsumed trailing '=': "Invalid assignment target."
      if canAssign then
        let (m, s) := matchTok s .equal
        if m then errorP s else s
      else s

/-- The `while (precedence <= getRule(parser.current.type)->precedence)`
loop of `parsePrecedence`. -/
def infixLoop : Nat → Prec → Bool → CState → CState
  | 0, _, _, s => fuelFail s
  | fuel + 1, prec, canAssign, s =>
    if prec ≤ (rules s.curTok.type).prec then
      let s := advanceP s
      let s :=
        match (rules s.prev.type).ifn with
        | some g => applyRule fuel g canAssign s
        | none => s  -- unreachable: positive precedence implies an infix rule
      infixLoop fuel prec canAssign s
    else s

/-- Dispatch through a `ParseFn` function pointer of the rule table. -/
def applyRule : Nat → PFn → Bool → CState → CState
  | 0, _, _, s => fuelFail s
  | fuel + 1, pf, canAssign, s =>
    match pf with
    | .grouping => grouping fuel canAssign s
    | .unary => unary fuel canAssign s
    | .binary => binary fuel canAssign s
    | .number => numberFn s
    | .stringFn => stringFn s
    | .literal => literalFn s
    | .variableFn => variableFn fuel canAssign s
    | .andFn => and_ fuel canAssign s
    | .orFn => or_ fuel canAssign s
    | .call => call fuel canAssign s

/-- `grouping`. -/
def grouping : Nat → Bool → CState → CState
  | 0, _, s => fuelFail s
  | fuel + 1, _, s =>
    let s := expression fuel s
    consume s .rightParen  -- "Expect ')' after expression."

/-- `unary`. -/
def unary : Nat → Bool → CState → CState
  | 0, _, s => fuelFail s
  | fuel + 1, _, s =>
    let operatorType := s.prev.type
    let s := parsePrecedence fuel precUnary s
    match operatorType with
    | .bang => emitByte s opNot
    | .minus => emitByte s opNegate
    | _ => s

/-- `binary`: parse the right operand one level tighter, then emit
(`!=`, `>=`, `<=` are EQUAL/LESS/GREATER followed by NOT). -/
def binary : Nat → Bool → CState → CState
  | 0, _, s => fuelFail s
  | fuel + 1, _, s =>
    let operatorType := s.prev.type
    let rule := rules operatorType
    let s := parsePrecedence fuel (rule.prec + 1) s
    match operatorType with
    | .bangEqual => emitBytes s opEqual opNot
    | .equalEqual => emitByte s opEqual
    | .greater => emitByte s opGreater
    | .greaterEqual => emitBytes s opLess opNot
    | .less => emitByte s opLess
    | .lessEqual => emitBytes s opGreater opNot
    | .plus => emitByte s opAdd
    | .minus => emitByte s opSubtract
    | .star => emitByte s opMultiply
    | .slash => emitByte s opDivide
    | _ => s

/-- `call`. -/
def call : Nat → Bool → CState → CState
  | 0, _, s => fuelFail s
  | fuel + 1, _, s =>
    let (argc, s) := argumentList fuel s
    emitBytes s opCall argc

/-- `argumentList`: returns the argument count. -/
def argumentList : Nat → CState → Nat × CState
  | 0, s => (0, fuelFail s)
  | fuel + 1, s =>
    if check s .rightParen then
      (0, consume s .rightParen)  -- "Expect ')' after arguments."
    else
      let (argc, s) := argLoop fuel 0 s
      (argc, consume s .rightParen)

/-- The argument `do … while (match(TOKEN_COMMA))` loop.  `argCount` is a
C `uint8_t`: the 256th argument wraps it to 0 (after the
"Can't have more than 255 arguments." error). -/
def argLoop : Nat → Nat → CState → Nat × CState
  | 0, argc, s => (argc, fuelFail s)
  | fuel + 1, argc, s =>
    let s := expression fuel s
    let s := if argc = 255 then errorP s else s
    let argc := (argc + 1) % 256
    let (m, s) := matchTok s .comma
    if m then argLoop fuel argc s else (argc, s)

/-- `and_`: short-circuit via OP_JUMP_IF_FALSE over the right side. -/
def and_ : Nat → Bool → CState → CState
  | 0, _, s => fuelFail s
  | fuel + 1, _, s =>
    let (endJump, s) := emitJump s opJumpIfFalse
    let s := emitByte s opPop
    let s := parsePrecedence fuel precAnd s
    patchJump s endJump

/-- `or_`: a conditional jump over an unconditional jump. -/
def or_ : Nat → Bool → CState → CState
  | 0, _, s => fuelFail s
  | fuel + 1, _, s =>
    let (elseJump, s) := emitJump s opJumpIfFalse
    let (endJump, s) := emitJump s opJump
    let s := patchJump s elseJump
    let s := emitByte s opPop
    let s := parsePrecedence fuel precOr s
    patchJump s endJump

/-- `variable`. -/
def variableFn : Nat → Bool → CState → CState
  | 0, _, s => fuelFail s
  | fuel + 1, canAssign, s => namedVariable fuel s.prev canAssign s

/-- `namedVariable`: resolve as local, then upvalue, then global; emit a
set on `canAssign && match('=')`, otherwise a get. -/
def namedVariable : Nat → Token → Bool → CState → CState
  | 0, _, _, s => fuelFail s
  | fuel + 1, name, canAssign, s =>
    match s.comps with
    | [] => s
    | c :: _ =>
      let (argOps, s) :=
        match resolveLocal c name with
        | (some i, lerr) =>
          ((i, opGetLocal, opSetLocal), if lerr then errorP s else s)
        | (none, _) =>
          match resolveUpvalue s.comps name with
          | (some i, comps, uerr) =>
            ((i, opGetUpvalue, opSetUpvalue),
             if uerr then errorP { s with comps := comps }
             else { s with comps := comps })
          | (none, comps, _) =>
            let (k, s) := identifierConstant { s with comps := comps } name
            ((k, opGetGlobal, opSetGlobal), s)
      let (arg, getOp, setOp) := argOps
      if canAssign then
        let (m, s) := matchTok s .equal
        if m then
          let s := expression fuel s
          emitBytes s setOp arg
        else emitBytes s getOp arg
      else emitBytes s getOp arg

/-- `expression`. -/
def expression : Nat → CState → CState
  | 0, s => fuelFail s
  | fuel + 1, s => parsePrecedence fuel precAssignment s

/-- The declaration loop of `block`. -/
def blockLoop : Nat → CState → CState
  | 0, s => fuelFail s
  | fuel + 1, s =>
    if ¬ check s .rightBrace ∧ ¬ check s .eof then
      blockLoop fuel (declaration fuel s)
    else s

/-- `block`. -/
def block : Nat → CState → CState
  | 0, s => fuelFail s
  | fuel + 1, s => consume (blockLoop fuel s) .rightBrace

/-- `function`: compile one function body under a fresh compiler, then
emit OP_CLOSURE with one `(isLocal, index)` byte pair per upvalue. -/
def function_ : Nat → FunType → CState → CState
  | 0, _, s => fuelFail s
  | fuel + 1, ftype, s =>
    let s := initCompiler s ftype
    let s := beginScope s
    let s := consume s .leftParen  -- "Expect '(' after function name."
    let s := if ¬ check s .rightParen then paramLoop fuel s else s
    let s := consume s .rightParen  -- "Expect ')' after parameters."
    let s := consume s .leftBrace  -- "Expect '{' before function body."
    let s := block fuel s
    let ups := match s.comps with
      | c :: _ => c.upvalues
      | [] => []
    let (fnRef, s) := endCompiler s
    let (k, s) := makeConstant s (.obj fnRef)
    let s := emitBytes s opClosure k
    ups.foldl
      (fun s u => emitBytes s (if u.isLocal then 1 else 0) u.index) s

/-- The parameter `do … while (match(TOKEN_COMMA))` loop: bump the arity
(more than 255 parameters is an error), declare and define each. -/
def paramLoop : Nat → CState → CState
  | 0, s => fuelFail s
  | fuel + 1, s =>
    let s := withComp s fun c => { c with fnArity := c.fnArity + 1 }
    let s := match s.comps with
      | c :: _ => if c.fnArity > 255 then errorP s else s
      | [] => s
    let (k, s) := parseVariable s  -- "Expect parameter name."
    let s := defineVariable s k
    let (m, s) := matchTok s .comma
    if m then paramLoop fuel s else s

/-- `funDeclaration`. -/
def funDeclaration : Nat → CState → CState
  | 0, s => fuelFail s
  | fuel + 1, s =>
    let (g, s) := parseVariable s  -- "Expect function name."
    let s := markInitialized s
    let s := function_ fuel .function s
    defineVariable s g

/-- `varDeclaration`. -/
def varDeclaration : Nat → CState → CState
  | 0, s => fuelFail s
  | fuel + 1, s =>
    let (g, s) := parseVariable s  -- "Expect variable name."
    let (m, s) := matchTok s .equal
    let s := if m then expression fuel s else emitByte s opNil
    let s := consume s .semicolon  -- "Expect ';' after variable declaration."
    defineVariable s g

/-- `expressionStatement`. -/
def expressionStatement : Nat → CState → CState
  | 0, s => fuelFail s
  | fuel + 1, s =>
    let s := expression fuel s
    let s := consume s .semicolon  -- "Expect ';' after expression."
    emitByte s opPop

/-- `printStatement`. -/
def printStatement : Nat → CState → CState
  | 0, s => fuelFail s
  | fuel + 1, s =>
    let s := expression fuel s
    let s := consume s .semicolon  -- "Expect ';' after value."
    emitByte s opPrint

/-- `returnStatement`: `return` at top level is a compile error. -/
def returnStatement : Nat → CState → CState
  | 0, s => fuelFail s
  | fuel + 1, s =>
    let s := match s.comps with
      | c :: _ =>
        if c.ftype = .script then errorP s else s
        -- "Can't return from top-level code."
      | [] => s
    let (m, s) := matchTok s .semicolon
    if m then emitReturn s
    else
      let s := expression fuel s
      let s := consume s .semicolon  -- "Expect ';' after return value."
      emitByte s opReturn

/-- `ifStatement`. -/
def ifStatement : Nat → CState → CState
  | 0, s => fuelFail s
  | fuel + 1, s =>
    let s := consume s .leftParen  -- "Expect '(' after 'if'."
    let s := expression fuel s
    let s := consume s .rightParen  -- "Expect ')' after condition."
    let (thenJump, s) := emitJump s opJumpIfFalse
    let s := emitByte s opPop
    let s := statement fuel s
    let (elseJump, s) := emitJump s opJump
    let s := patchJump s thenJump
    let s := emitByte s opPop
    let (m, s) := matchTok s .kwElse
    let s := if m then statement fuel s else s
    patchJump s elseJump

/-- `whileStatement`. -/
def whileStatement : Nat → CState → CState
  | 0, s => fuelFail s
  | fuel + 1, s =>
    let loopStart := (curCode s).length
    let s := consume s .leftParen  -- "Expect '(' after 'while'."
    let s := expression fuel s
    let s := consume s .rightParen  -- "Expect ')' after condition."
    let (exitJump, s) := emitJump s opJumpIfFalse
    let s := emitByte s opPop
    let s := statement fuel s
    let s := emitLoop s loopStart
    let s := patchJump s exitJump
    emitByte s opPop

/-- `forStatement`: initializer clause, optional condition with exit jump,
optional increment reached by a loop back from the body. -/
def forStatement : Nat → CState → CState
  | 0, s => fuelFail s
  | fuel + 1, s =>
    let s := beginScope s
    let s := consume s .leftParen  -- "Expect '(' after 'for'."
    let s :=
      let (m, s) := matchTok s .semicolon
      if m then s
      else
        let (m, s) := matchTok s .kwVar
        if m then varDeclaration fuel s
        else expressionStatement fuel s
    let loopStart := (curCode s).length
    let (exitJump, s) :=
      let (m, s) := matchTok s .semicolon
      if m then (none, s)
      else
        let s := expression fuel s
        let s := consume s .semicolon  -- "Expect ';' after loop condition."
        let (ej, s) := emitJump s opJumpIfFalse
        (some ej, emitByte s opPop)
    let (loopStart, s) :=
      let (m, s) := matchTok s .rightParen
      if m then (loopStart, s)
      else
        let (bodyJump, s) := emitJump s opJump
        let incrementStart := (curCode s).length
        let s := expression fuel s
        let s := emitByte s opPop
        let s := consume s .rightParen  -- "Expect ')' after for clauses."
        let s := emitLoop s loopStart
        (incrementStart, patchJump s bodyJump)
    let s := statement fuel s
    let s := emitLoop s loopStart
    let s :=
      match exitJump with
      | some ej => emitByte (patchJump s ej) opPop
      | none => s
    endScope s

/-- `statement`. -/
def statement : Nat → CState → CState
  | 0, s => fuelFail s
  | fuel + 1, s =>
    let (m, s) := matchTok s .kwPrint
    if m then printStatement fuel s else
    let (m, s) := matchTok s .kwIf
    if m then ifStatement fuel s else
    let (m, s) := matchTok s .kwWhile
    if m then whileStatement fuel s else
    let (m, s) := matchTok s .kwFor
    if m then forStatement fuel s else
    let (m, s) := matchTok s .kwReturn
    if m then returnStatement fuel s else
    let (m, s) := matchTok s .leftBrace
    if m then endScope (block fuel (beginScope s))
    else expressionStatement fuel s

/-- `declaration`: fun / var / statement, then synchronize on panic. -/
def declaration : Nat → CState → CState
  | 0, s => fuelFail s
  | fuel + 1, s =>
    let s :=
      let (m, s) := matchTok s .kwFun
      if m then funDeclaration fuel s
      else
        let (m, s) := matchTok s .kwVar
        if m then varDeclaration fuel s
        else statement fuel s
    if s.panicMode then synchronize s else s

/-- The `while (!match(TOKEN_EOF))` loop of `compile`. -/
def declLoop : Nat → CState → CState
  | 0, s => fuelFail s
  | fuel + 1, s =>
    let (m, s) := matchTok s .eof
    if m then s else declLoop fuel (declaration fuel s)

end

/-- `compile`: returns the top-level `ObjFunction` reference, or `none`
when any error was reported.  The heap and intern table thread through
compilation (the compiler allocates strings and functions). -/
def compileLox (fuel : Nat) (heap : Heap) (strings : Table)
    (toks : List Token) : Option Nat × CState :=
  let s : CState :=
    { heap := heap, strings := strings, comps := [], prev := eofTok,
      curTok := eofTok, toks := toks, hadError := false, panicMode := false }
  let s := initCompiler s .script
  let s := advanceP s
  let s := declLoop fuel s
  let (fnRef, s) := endCompiler s
  (if s.hadError then none else some fnRef, s)

/-! ## C2: the compiler never emits a class-related opcode -/

def classOps : List Nat := [opGetProperty, opSetProperty, opGetSuper,
  opInvoke, opSuperInvoke, opClass, opInherit, opMethod]

def simpleOps : List Nat := [opNil, opTrue, opFalse, opPop, opEqual,
  opGreater, opLess, opAdd, opSubtract, opMultiply, opDivide, opNot,
  opNegate, opPrint, opCloseUpvalue, opReturn]

def oneArgOps : List Nat := [opConstant, opGetLocal, opSetLocal,
  opGetGlobal, opDefineGlobal, opSetGlobal, opGetUpvalue, opSetUpvalue,
  opCall]

def jumpOps : List Nat := [opJump, opJumpIfFalse, opLoop]

/-- One compiler-emitted instruction: a non-class opcode with its operand
bytes.  Jump operands are patched in place later; OP_CLOSURE is followed
by the per-upvalue flag/index byte pairs. -/
inductive BlockOk : List Nat → Prop
  | simple (op : Nat) (h : op ∈ simpleOps) : BlockOk [op]
  | oneArg (op a : Nat) (h : op ∈ oneArgOps) : BlockOk [op, a]
  | jmp (op a b : Nat) (h : op ∈ jumpOps) : BlockOk [op, a, b]
  | clos (k : Nat) (pairs : List Nat) : BlockOk (opClosure :: k :: pairs)

/-- Code as the compiler produces it: a concatenation of instructions,
none of them class-related. -/
def CodeOk (code : List Nat) : Prop :=
  ∃ blocks : List (List Nat), code = blocks.join ∧ ∀ b ∈ blocks, BlockOk b

theorem BlockOk_no_class {blk : List Nat} (hb : BlockOk blk) (op : Nat)
    (hop : op ∈ classOps) : blk.head? ≠ some op := by
  intro hh
  rcases hb with ⟨op2, h2⟩ | ⟨op2, a, h2⟩ | ⟨op2, a, b, h2⟩ | ⟨k, pairs⟩
  all_goals simp only [List.head?] at hh
  all_goals injection hh with hh
  · rw [← hh] at hop
    simp [simpleOps, classOps, opNil, opTrue, opFalse, opPop, opEqual,
      opGreater, opLess, opAdd, opSubtract, opMultiply, opDivide, opNot,
      opNegate, opPrint, opCloseUpvalue, opReturn, opGetProperty,
      opSetProperty, opGetSuper, opInvoke, opSuperInvoke, opClass,
      opInherit, opMethod] at h2 hop
    omega
  · rw [← hh] at hop
    simp [oneArgOps, classOps, opConstant, opGetLocal, opSetLocal,
      opGetGlobal, opDefineGlobal, opSetGlobal, opGetUpvalue,
      opSetUpvalue, opCall, opGetProperty, opSetProperty, opGetSuper,
      opInvoke, opSuperInvoke, opClass, opInherit, opMethod] at h2 hop
    omega
  · rw [← hh] at hop
    simp [jumpOps, classOps, opJump, opJumpIfFalse, opLoop,
      opGetProperty, opSetProperty, opGetSuper, opInvoke, opSuperInvoke,
      opClass, opInherit, opMethod] at h2 hop
    omega
  · rw [← hh] at hop
    simp [classOps, opClosure, opGetProperty, opSetProperty, opGetSuper,
      opInvoke, opSuperInvoke, opClass, opInherit, opMethod] at hop

theorem CodeOk_nil : CodeOk [] := ⟨[], rfl, by simp⟩

theorem CodeOk_block {blk : List Nat} (hb : BlockOk blk) : CodeOk blk :=
  ⟨[blk], by simp, by simpa using hb⟩

theorem CodeOk_append {c1 c2 : List Nat} (h1 : CodeOk c1)
    (h2 : CodeOk c2) : CodeOk (c1 ++ c2) := by
  obtain ⟨b1, hb1, ho1⟩ := h1
  obtain ⟨b2, hb2, ho2⟩ := h2
  refine ⟨b1 ++ b2, ?_, ?_⟩
  · rw [hb1, hb2]
    exact (List.join_append b1 b2).symm
  · intro b hb
    rcases List.mem_append.mp hb with h | h
    · exact ho1 b h
    · exact ho2 b h

/-- Every instruction of `CodeOk` code starts with a non-class opcode. -/
theorem CodeOk_no_class {code : List Nat} (hc : CodeOk code) :
    ∃ blocks : List (List Nat), code = blocks.join ∧
      ∀ b ∈ blocks, ∀ op ∈ classOps, b.head? ≠ some op := by
  obtain ⟨blocks, hb, ho⟩ := hc
  exact ⟨blocks, hb, fun b hbm op hop => BlockOk_no_class (ho b hbm) op hop⟩

def codesOf (s : CState) : List (List Nat) :=
  s.comps.map (fun c => c.chunk.code)

def HeapOk (h : Heap) : Prop :=
  ∀ r fa fu ch nm, h.get? r = some (HObj.fn fa fu ch nm) → CodeOk ch.code

/-- The compiler-state invariant: every open compiler's chunk and every
function object already on the heap hold `CodeOk` code. -/
def CInv (s : CState) : Prop :=
  (∀ cd ∈ codesOf s, CodeOk cd) ∧ HeapOk s.heap

/-- One parser action as seen from outside: it preserves the invariant,
appends `CodeOk` code to the current chunk (never touching the bytes
already present — patches only land in its own extension), and leaves
the enclosing chunks' code alone. -/
def StepOk (s s1 : CState) : Prop :=
  (CInv s → CInv s1) ∧
  (codesOf s = [] → codesOf s1 = []) ∧
  (∀ h0 t0, codesOf s = h0 :: t0 →
    ∃ ext, codesOf s1 = (h0 ++ ext) :: t0 ∧ CodeOk ext)

theorem StepOk_refl (s : CState) : StepOk s s :=
  ⟨id, id, fun h0 t0 hc => ⟨[], by rw [hc, List.append_nil], CodeOk_nil⟩⟩

theorem StepOk_trans {s1 s2 s3 : CState} (h12 : StepOk s1 s2)
    (h23 : StepOk s2 s3) : StepOk s1 s3 := by
  obtain ⟨hi12, he12, hx12⟩ := h12
  obtain ⟨hi23, he23, hx23⟩ := h23
  refine ⟨fun h => hi23 (hi12 h), fun h => he23 (he12 h), ?_⟩
  intro h0 t0 hc
  obtain ⟨e1, hc2, ho1⟩ := hx12 h0 t0 hc
  obtain ⟨e2, hc3, ho2⟩ := hx23 (h0 ++ e1) t0 hc2
  exact ⟨e1 ++ e2, by rw [hc3, List.append_assoc], CodeOk_append ho1 ho2⟩

theorem StepOk_untouched {s s1 : CState} (hcm : s1.comps = s.comps)
    (hh : s1.heap = s.heap) : StepOk s s1 := by
  have hco : codesOf s1 = codesOf s := by
    unfold codesOf
    rw [hcm]
  refine ⟨?_, ?_, ?_⟩
  · intro ⟨h1, h2⟩
    exact ⟨by rw [hco]; exact h1, by rw [hh]; exact h2⟩
  · intro h
    rw [hco, h]
  · intro h0 t0 hc
    exact ⟨[], by rw [hco, hc, List.append_nil], CodeOk_nil⟩

/-- A step that appends one `CodeOk` piece to the current chunk and only
extends the heap in a `HeapOk`-preserving way. -/
theorem StepOk_of_ext {s s1 : CState} (ext : List Nat)
    (hcodes : codesOf s1 = match codesOf s with
      | [] => []
      | h :: t => (h ++ ext) :: t)
    (hx : CodeOk ext)
    (hh : HeapOk s.heap → HeapOk s1.heap) : StepOk s s1 := by
  refine ⟨?_, ?_, ?_⟩
  · intro ⟨h1, h2⟩
    refine ⟨?_, hh h2⟩
    intro cd hcd
    rw [hcodes] at hcd
    cases hcs : codesOf s with
    | nil =>
      rw [hcs] at hcd
      simp at hcd
    | cons h t =>
      rw [hcs] at hcd
      rcases List.mem_cons.mp hcd with hcd | hcd
      · rw [hcd]
        exact CodeOk_append (h1 h (by rw [hcs]; exact List.mem_cons_self h t)) hx
      · exact h1 cd (by rw [hcs]; exact List.mem_cons_of_mem _ hcd)
  · intro h
    rw [hcodes, h]
  · intro h0 t0 hc
    exact ⟨ext, by rw [hcodes, hc], hx⟩

theorem StepOk_of_codes_heap {s s1 : CState}
    (hco : codesOf s1 = codesOf s)
    (hh : HeapOk s.heap → HeapOk s1.heap) : StepOk s s1 := by
  refine ⟨?_, ?_, ?_⟩
  · intro ⟨h1, h2⟩
    exact ⟨by rw [hco]; exact h1, hh h2⟩
  · intro h
    rw [hco, h]
  · intro h0 t0 hc
    exact ⟨[], by rw [hco, hc, List.append_nil], CodeOk_nil⟩

theorem advanceP_state (s : CState) :
    (advanceP s).comps = s.comps ∧ (advanceP s).heap = s.heap := by
  rcases hp : pullTok s.toks s.hadError s.panicMode with ⟨a, b, c, d⟩
  refine ⟨?_, ?_⟩ <;> simp [advanceP, hp]

theorem errorP_state (s : CState) :
    (errorP s).comps = s.comps ∧ (errorP s).heap = s.heap := by
  unfold errorP
  split <;> exact ⟨rfl, rfl⟩

theorem consume_state (s : CState) (t : TokenType) :
    (consume s t).comps = s.comps ∧ (consume s t).heap = s.heap := by
  unfold consume
  split
  · exact advanceP_state s
  · exact errorP_state s

theorem matchTok_state (s : CState) (t : TokenType) :
    (matchTok s t).2.comps = s.comps ∧ (matchTok s t).2.heap = s.heap := by
  unfold matchTok
  split
  · exact advanceP_state s
  · exact ⟨rfl, rfl⟩

theorem syncLoop_state (n : Nat) :
    ∀ s : CState, (syncLoop n s).comps = s.comps ∧
      (syncLoop n s).heap = s.heap := by
  induction n with
  | zero => intro s; exact ⟨rfl, rfl⟩
  | succ n ih =>
    intro s
    unfold syncLoop
    split
    · exact ⟨rfl, rfl⟩
    split
    · exact ⟨rfl, rfl⟩
    split
    all_goals try exact ⟨rfl, rfl⟩
    obtain ⟨h1, h2⟩ := ih (advanceP s)
    obtain ⟨h3, h4⟩ := advanceP_state s
    exact ⟨h1.trans h3, h2.trans h4⟩

theorem synchronize_state (s : CState) :
    (synchronize s).comps = s.comps ∧ (synchronize s).heap = s.heap := by
  unfold synchronize
  exact syncLoop_state _ _

theorem fuelFail_state (s : CState) :
    (fuelFail s).comps = s.comps ∧ (fuelFail s).heap = s.heap := ⟨rfl, rfl⟩

theorem StepOk_fuelFail (s : CState) : StepOk s (fuelFail s) :=
  StepOk_untouched rfl rfl

theorem codesOf_withComp_chunkless (s : CState) (f : Comp → Comp)
    (hf : ∀ c, (f c).chunk = c.chunk) :
    codesOf (withComp s f) = codesOf s := by
  unfold codesOf withComp
  cases s.comps with
  | nil => rfl
  | cons c r => simp [hf c]

theorem codesOf_emitByte (s : CState) (b : Nat) :
    codesOf (emitByte s b) = match codesOf s with
      | [] => []
      | h :: t => (h ++ [b]) :: t := by
  unfold codesOf emitByte withComp
  cases s.comps with
  | nil => rfl
  | cons c r => simp

theorem emitByte_heap (s : CState) (b : Nat) :
    (emitByte s b).heap = s.heap := rfl

theorem codesOf_emitBytes (s : CState) (b1 b2 : Nat) :
    codesOf (emitBytes s b1 b2) = match codesOf s with
      | [] => []
      | h :: t => (h ++ [b1, b2]) :: t := by
  unfold emitBytes
  rw [codesOf_emitByte, codesOf_emitByte]
  cases codesOf s with
  | nil => rfl
  | cons h t => simp

theorem emitBytes_heap (s : CState) (b1 b2 : Nat) :
    (emitBytes s b1 b2).heap = s.heap := rfl

theorem StepOk_emitSimple (s : CState) (b : Nat) (hb : b ∈ simpleOps) :
    StepOk s (emitByte s b) :=
  StepOk_of_ext [b] (codesOf_emitByte s b)
    (CodeOk_block (BlockOk.simple b hb)) (by rw [emitByte_heap]; exact id)

theorem StepOk_emitArg (s : CState) (b a : Nat) (hb : b ∈ oneArgOps) :
    StepOk s (emitBytes s b a) :=
  StepOk_of_ext [b, a] (codesOf_emitBytes s b a)
    (CodeOk_block (BlockOk.oneArg b a hb))
    (by rw [emitBytes_heap]; exact id)

theorem StepOk_emitTwoSimple (s : CState) (b1 b2 : Nat)
    (h1 : b1 ∈ simpleOps) (h2 : b2 ∈ simpleOps) :
    StepOk s (emitBytes s b1 b2) :=
  StepOk_trans (StepOk_emitSimple s b1 h1)
    (StepOk_emitSimple (emitByte s b1) b2 h2)

theorem StepOk_emitReturn (s : CState) : StepOk s (emitReturn s) :=
  StepOk_emitTwoSimple s opNil opReturn (by simp [simpleOps])
    (by simp [simpleOps])

theorem set_cons_after : ∀ (pre rest : List Nat) (n a : Nat),
    (pre ++ rest).set (pre.length + n) a = pre ++ rest.set n a := by
  intro pre
  induction pre with
  | nil =>
    intro rest n a
    simp
  | cons p tl ih =>
    intro rest n a
    have hidx : (p :: tl).length + n = (tl.length + n) + 1 := by
      simp [List.length_cons]
      omega
    rw [List.cons_append, hidx]
    show p :: ((tl ++ rest).set (tl.length + n) a) = p :: (tl ++ rest.set n a)
    rw [ih]

theorem codesOf_withComp_codeless (s : CState) (f : Comp → Comp)
    (hf : ∀ c, (f c).chunk.code = c.chunk.code) :
    codesOf (withComp s f) = codesOf s := by
  unfold codesOf withComp
  cases s.comps with
  | nil => rfl
  | cons c r => simp [hf c]

theorem makeConstant_spec (s : CState) (v : Value) :
    codesOf (makeConstant s v).2 = codesOf s ∧
    (makeConstant s v).2.heap = s.heap := by
  have hw : codesOf (withComp s fun c =>
      { c with chunk :=
          { c.chunk with constants := c.chunk.constants ++ [v] } }) =
      codesOf s :=
    codesOf_withComp_codeless s _ (fun c => rfl)
  by_cases hc : (curPool s).length > 255
  · have heq : makeConstant s v = (0, errorP (withComp s fun c =>
        { c with chunk :=
            { c.chunk with constants := c.chunk.constants ++ [v] } })) := by
      simp only [makeConstant]
      rw [if_pos hc]
    rw [heq]
    constructor
    · show codesOf (errorP _) = codesOf s
      unfold codesOf
      rw [(errorP_state _).1]
      unfold codesOf at hw
      exact hw
    · show (errorP _).heap = s.heap
      rw [(errorP_state _).2]
      rfl
  · have heq : makeConstant s v = ((curPool s).length,
        withComp s fun c =>
        { c with chunk :=
            { c.chunk with constants := c.chunk.constants ++ [v] } }) := by
      simp only [makeConstant]
      rw [if_neg hc]
    rw [heq]
    exact ⟨hw, rfl⟩

theorem StepOk_makeConstant (s : CState) (v : Value) :
    StepOk s (makeConstant s v).2 :=
  StepOk_of_codes_heap (makeConstant_spec s v).1
    (by rw [(makeConstant_spec s v).2]; exact id)

theorem StepOk_emitConstant (s : CState) (v : Value) :
    StepOk s (emitConstant s v) := by
  unfold emitConstant
  rcases hmk : makeConstant s v with ⟨k, s2⟩
  have h1 : StepOk s s2 := by
    have := StepOk_makeConstant s v
    rw [hmk] at this
    exact this
  exact StepOk_trans h1 (StepOk_emitArg s2 opConstant k
    (by simp [oneArgOps]))

theorem HeapOk_concat (h : Heap) (o : HObj) (ho : HeapOk h)
    (hobj : ∀ fa fu ch nm, o = HObj.fn fa fu ch nm → CodeOk ch.code) :
    HeapOk (h ++ [o]) := by
  intro r fa fu ch nm hg
  by_cases hb : r < h.length
  · rw [List.get?_append hb] at hg
    exact ho r fa fu ch nm hg
  · have hl := (List.get?_eq_some.mp hg).1
    simp only [List.length_append, List.length_cons, List.length_nil] at hl
    have hr : r = h.length := by omega
    subst hr
    rw [List.get?_concat_length] at hg
    injection hg with hg
    exact hobj fa fu ch nm hg

theorem HeapOk_copyString (h : Heap) (t : Table) (c : List Char)
    (ho : HeapOk h) : HeapOk (copyString h t c).2.1 := by
  rcases hf : tableFindString h t c (hashString c) with _ | r
  · obtain ⟨t2, b2, hts⟩ :
        ∃ a b, tableSet (strHash (h ++ [HObj.str c (hashString c)])) t
          h.length Value.nil = (a, b) := ⟨_, _, rfl⟩
    simp only [copyString, hf, allocateString, allocObj, hts]
    exact HeapOk_concat h _ ho (by intro fa fu ch nm hh; cases hh)
  · simp only [copyString, hf]
    exact ho

theorem StepOk_identifierConstant (s : CState) (nm : Token) :
    StepOk s (identifierConstant s nm).2 := by
  unfold identifierConstant
  rcases hcp : copyString s.heap s.strings nm.lexeme with ⟨r, h2, st2⟩
  simp only [hcp]
  have hs2 : StepOk s { s with heap := h2, strings := st2 } := by
    refine StepOk_of_codes_heap rfl ?_
    intro hh
    have := HeapOk_copyString s.heap s.strings nm.lexeme hh
    rw [hcp] at this
    exact this
  exact StepOk_trans hs2 (StepOk_makeConstant _ _)

theorem StepOk_numberFn (s : CState) : StepOk s (numberFn s) :=
  StepOk_emitConstant s _

theorem StepOk_stringFn (s : CState) : StepOk s (stringFn s) := by
  unfold stringFn
  rcases hcp : copyString s.heap s.strings
    ((s.prev.lexeme.drop 1).dropLast) with ⟨r, h2, st2⟩
  simp only [hcp]
  have hs2 : StepOk s { s with heap := h2, strings := st2 } := by
    refine StepOk_of_codes_heap rfl ?_
    intro hh
    have := HeapOk_copyString s.heap s.strings
      ((s.prev.lexeme.drop 1).dropLast) hh
    rw [hcp] at this
    exact this
  exact StepOk_trans hs2 (StepOk_emitConstant _ _)

theorem StepOk_literalFn (s : CState) : StepOk s (literalFn s) := by
  unfold literalFn
  split
  · exact StepOk_emitSimple s opFalse (by simp [simpleOps])
  · exact StepOk_emitSimple s opNil (by simp [simpleOps])
  · exact StepOk_emitSimple s opTrue (by simp [simpleOps])
  · exact StepOk_refl s

theorem codesOf_eq_nil {s : CState} : codesOf s = [] ↔ s.comps = [] := by
  unfold codesOf
  exact List.map_eq_nil

theorem curCode_eq_head (s : CState) (h : List Nat) (t : List (List Nat))
    (hc : codesOf s = h :: t) : curCode s = h := by
  unfold codesOf at hc
  unfold curCode
  cases hcm : s.comps with
  | nil =>
    rw [hcm] at hc
    simp at hc
  | cons c r =>
    rw [hcm] at hc
    simp at hc
    exact hc.1

theorem emitJump_spec (s : CState) (op : Nat) (c : Comp) (r : List Comp)
    (hc : s.comps = c :: r) :
    codesOf (emitJump s op).2 =
      (c.chunk.code ++ [op, 255, 255]) ::
        r.map (fun c => c.chunk.code) ∧
    (emitJump s op).2.heap = s.heap ∧
    (emitJump s op).1 = c.chunk.code.length + 1 := by
  have hcs : codesOf s = c.chunk.code :: r.map (fun c => c.chunk.code) := by
    unfold codesOf
    rw [hc]
    rfl
  have h1 : codesOf (emitByte (emitByte (emitByte s op) 255) 255) =
      (c.chunk.code ++ [op, 255, 255]) ::
        r.map (fun c => c.chunk.code) := by
    rw [codesOf_emitByte, codesOf_emitByte, codesOf_emitByte, hcs]
    simp
  simp only [emitJump]
  refine ⟨h1, rfl, ?_⟩
  rw [curCode_eq_head _ _ _ h1]
  simp [List.length_append]

theorem patchJump_spec (s : CState) (c : Comp) (r : List Comp) (o : Nat)
    (hc : s.comps = c :: r) (A : List Nat) (op x y : Nat) (B : List Nat)
    (hcode : c.chunk.code = A ++ op :: x :: y :: B)
    (ho : o = A.length + 1) :
    ∃ a2 b2, codesOf (patchJump s o) =
      (A ++ op :: a2 :: b2 :: B) :: r.map (fun c => c.chunk.code) ∧
      (patchJump s o).heap = s.heap := by
  simp only [patchJump]
  generalize (((curCode s).length - o - 2) >>> 8) &&& 255 = hi
  generalize ((curCode s).length - o - 2) &&& 255 = lo
  refine ⟨hi, lo, ?_, ?_⟩
  · have hset : ∀ s2 : CState, s2.comps = c :: r →
        codesOf (withComp s2 fun c2 =>
          { c2 with chunk := { c2.chunk with
              code := (c2.chunk.code.set o hi).set (o + 1) lo } }) =
        (A ++ op :: hi :: lo :: B) :: r.map (fun c => c.chunk.code) := by
      intro s2 hc2
      have hcm : (withComp s2 fun c2 =>
          { c2 with chunk := { c2.chunk with
              code := (c2.chunk.code.set o hi).set (o + 1) lo } }).comps =
          ({ c with chunk := { c.chunk with
              code := (c.chunk.code.set o hi).set (o + 1) lo } }) :: r := by
        show (match s2.comps with
          | [] => ([] : List Comp)
          | c2 :: r2 => ({ c2 with chunk := { c2.chunk with
              code := (c2.chunk.code.set o hi).set (o + 1) lo } }) :: r2) =
          _
        rw [hc2]
      unfold codesOf
      rw [hcm, List.map_cons]
      congr 1
      show (c.chunk.code.set o hi).set (o + 1) lo =
        A ++ op :: hi :: lo :: B
      rw [hcode, ho]
      rw [set_cons_after A (op :: x :: y :: B) 1]
      have hA2 : A.length + 1 + 1 = A.length + 2 := by omega
      rw [hA2, set_cons_after A _ 2]
      rfl
    split
    · exact hset (errorP s) ((errorP_state s).1.trans hc)
    · exact hset s hc
  · split
    · show (errorP s).heap = s.heap
      exact (errorP_state s).2
    · rfl

theorem patchJump_nil (s : CState) (o : Nat) (hc : s.comps = []) :
    (patchJump s o).comps = [] ∧ (patchJump s o).heap = s.heap := by
  simp only [patchJump]
  constructor
  · show (withComp _ _).comps = []
    split
    · show (match (errorP s).comps with
        | [] => ([] : List Comp)
        | c :: r => _ :: r) = []
      rw [(errorP_state s).1, hc]
    · show (match s.comps with
        | [] => ([] : List Comp)
        | c :: r => _ :: r) = []
      rw [hc]
  · split
    · show (errorP s).heap = s.heap
      exact (errorP_state s).2
    · rfl

theorem StepOk_emitLoop (s : CState) (ls : Nat) :
    StepOk s (emitLoop s ls) := by
  show StepOk s (emitByte (emitByte
    (if ((curCode (emitByte s opLoop)).length - ls + 2) > 65535
      then errorP (emitByte s opLoop) else emitByte s opLoop)
    ((((curCode (emitByte s opLoop)).length - ls + 2) >>> 8) &&& 255))
    (((curCode (emitByte s opLoop)).length - ls + 2) &&& 255))
  generalize ((curCode (emitByte s opLoop)).length - ls + 2) = off
  have hmid : codesOf (if off > 65535 then errorP (emitByte s opLoop)
      else emitByte s opLoop) = codesOf (emitByte s opLoop) := by
    split
    · unfold codesOf
      rw [(errorP_state _).1]
    · rfl
  have hmidh : (if off > 65535 then errorP (emitByte s opLoop)
      else emitByte s opLoop).heap = s.heap := by
    split
    · rw [(errorP_state _).2]
      rfl
    · rfl
  refine StepOk_of_ext [opLoop, (off >>> 8) &&& 255, off &&& 255] ?_
    (CodeOk_block (BlockOk.jmp _ _ _ (by simp [jumpOps]))) ?_
  · rw [codesOf_emitByte, codesOf_emitByte, hmid, codesOf_emitByte]
    cases codesOf s with
    | nil => rfl
    | cons h t => simp
  · rw [emitByte_heap, emitByte_heap, hmidh]
    exact id

theorem initCompiler_spec (s : CState) (ft : FunType) :
    codesOf (initCompiler s ft) = [] :: codesOf s ∧
    (HeapOk s.heap → HeapOk (initCompiler s ft).heap) ∧
    (s.comps = [] → (initCompiler s ft).comps.length = 1) := by
  cases ft with
  | script =>
    refine ⟨rfl, fun h => h, ?_⟩
    intro h
    show (_ :: s.comps).length = 1
    rw [h]
    rfl
  | function =>
    rcases hcp : copyString s.heap s.strings s.prev.lexeme
      with ⟨r, h2, st2⟩
    constructor
    · show codesOf { s with heap := h2, strings := st2, comps := _ } =
        [] :: codesOf s
      · simp only [initCompiler, hcp]
        rfl
    constructor
    · intro hh
      show HeapOk (initCompiler s .function).heap
      simp only [initCompiler, hcp]
      have := HeapOk_copyString s.heap s.strings s.prev.lexeme hh
      rw [hcp] at this
      exact this
    · intro h
      show (initCompiler s .function).comps.length = 1
      simp only [initCompiler, hcp]
      show (_ :: s.comps).length = 1
      rw [h]
      rfl

theorem emitByte_comps (s : CState) (b : Nat) (c : Comp) (r : List Comp)
    (hc : s.comps = c :: r) :
    (emitByte s b).comps = ({ c with chunk := { c.chunk with
      code := c.chunk.code ++ [b],
      lines := c.chunk.lines ++ [s.prev.line] } }) :: r := by
  show (match s.comps with
    | [] => ([] : List Comp)
    | c2 :: r2 => ({ c2 with chunk := { c2.chunk with
        code := c2.chunk.code ++ [b],
        lines := c2.chunk.lines ++ [s.prev.line] } }) :: r2) = _
  rw [hc]

theorem endCompiler_spec (s : CState) (c : Comp) (r : List Comp)
    (hc : s.comps = c :: r) :
    codesOf (endCompiler s).2 = r.map (fun c => c.chunk.code) ∧
    (CInv s → CInv (endCompiler s).2) := by
  have h1 := emitByte_comps s opNil c r hc
  have h2 := emitByte_comps (emitByte s opNil) opReturn _ r h1
  have hheap2 : (emitByte (emitByte s opNil) opReturn).heap = s.heap := rfl
  simp only [endCompiler, emitReturn, h2, allocObj]
  constructor
  · unfold codesOf
    simp
  · intro ⟨hcodes, hheap⟩
    have hhead : CodeOk c.chunk.code := by
      refine hcodes c.chunk.code ?_
      unfold codesOf
      rw [hc]
      simp only [List.map]
      exact List.mem_cons_self _ _
    constructor
    · intro cd hcd
      have hcd2 : cd ∈ List.map (fun c => c.chunk.code) r := hcd
      refine hcodes cd ?_
      unfold codesOf
      rw [hc]
      simp only [List.map]
      exact List.mem_cons_of_mem _ hcd2
    · show HeapOk (s.heap ++ [HObj.fn _ _ _ _])
      refine HeapOk_concat _ _ hheap ?_
      intro fa fu ch nm hh
      injection hh with e1 e2 e3 e4
      rw [← e3]
      show CodeOk ((c.chunk.code ++ [opNil]) ++ [opReturn])
      exact CodeOk_append (CodeOk_append hhead (CodeOk_block
        (BlockOk.simple opNil (by simp [simpleOps]))))
        (CodeOk_block (BlockOk.simple opReturn (by simp [simpleOps])))

theorem emitByte_comps_nil (s : CState) (b : Nat) (hc : s.comps = []) :
    (emitByte s b).comps = [] := by
  show (match s.comps with
    | [] => ([] : List Comp)
    | c2 :: r2 => ({ c2 with chunk := { c2.chunk with
        code := c2.chunk.code ++ [b],
        lines := c2.chunk.lines ++ [s.prev.line] } }) :: r2) = []
  rw [hc]

theorem endCompiler_nil (s : CState) (hc : s.comps = []) :
    (endCompiler s).2.comps = [] ∧
    (CInv s → CInv (endCompiler s).2) := by
  have h1 := emitByte_comps_nil s opNil hc
  have h2 := emitByte_comps_nil (emitByte s opNil) opReturn h1
  simp only [endCompiler, emitReturn, h2]
  refine ⟨trivial, ?_⟩
  intro ⟨hcodes, hheap⟩
  refine ⟨?_, hheap⟩
  intro cd hcd
  have : codesOf (emitByte (emitByte s opNil) opReturn) = [] := by
    unfold codesOf
    rw [h2]
    rfl
  rw [this] at hcd
  cases hcd

theorem StepOk_beginScope (s : CState) : StepOk s (beginScope s) :=
  StepOk_of_codes_heap (codesOf_withComp_codeless s _ (fun c => rfl))
    (fun h => h)

theorem StepOk_markInitialized (s : CState) :
    StepOk s (markInitialized s) := by
  unfold markInitialized
  split
  · split
    · exact StepOk_refl s
    · exact StepOk_of_codes_heap
        (codesOf_withComp_codeless s _ (fun c => rfl)) (fun h => h)
  · exact StepOk_refl s

theorem StepOk_addLocal (s : CState) (nm : Token) :
    StepOk s (addLocal s nm) := by
  unfold addLocal
  split
  · exact StepOk_refl s
  · split
    · exact StepOk_untouched (errorP_state s).1 (errorP_state s).2
    · exact StepOk_of_codes_heap
        (codesOf_withComp_codeless s _ (fun c => rfl)) (fun h => h)

theorem StepOk_declareVariable (s : CState) :
    StepOk s (declareVariable s) := by
  unfold declareVariable
  split
  · exact StepOk_refl s
  · rename_i c2 tl2 heq2
    split
    · exact StepOk_refl s
    · show StepOk s (addLocal
        (if declClash c2.scopeDepth s.prev c2.locals.reverse = true
          then errorP s else s)
        (if declClash c2.scopeDepth s.prev c2.locals.reverse = true
          then errorP s else s).prev)
      by_cases hd : declClash c2.scopeDepth s.prev c2.locals.reverse = true
      · rw [if_pos hd]
        exact StepOk_trans
          (StepOk_untouched (errorP_state s).1 (errorP_state s).2)
          (StepOk_addLocal _ _)
      · rw [if_neg hd]
        exact StepOk_addLocal s _

theorem StepOk_parseVariable (s : CState) :
    StepOk s (parseVariable s).2 := by
  have h1 : StepOk s (declareVariable (consume s .identifier)) :=
    StepOk_trans
      (StepOk_untouched (consume_state s _).1 (consume_state s _).2)
      (StepOk_declareVariable _)
  simp only [parseVariable]
  split
  · split
    · exact h1
    · exact StepOk_trans h1 (StepOk_identifierConstant _ _)
  · exact h1

theorem StepOk_defineVariable (s : CState) (g : Nat) :
    StepOk s (defineVariable s g) := by
  unfold defineVariable
  split
  · split
    · exact StepOk_markInitialized s
    · exact StepOk_emitArg s opDefineGlobal g (by simp [oneArgOps])
  · exact StepOk_refl s

theorem StepOk_endScopeLoop : ∀ (n : Nat) (s : CState),
    StepOk s (endScopeLoop n s) := by
  intro n
  induction n with
  | zero => intro s; exact StepOk_refl s
  | succ n ih =>
    intro s
    simp only [endScopeLoop]
    split
    · exact StepOk_refl s
    split
    · exact StepOk_refl s
    split
    · refine StepOk_trans ?_ (StepOk_trans (StepOk_of_codes_heap
        (codesOf_withComp_codeless _
          (fun c => { c with locals := c.locals.dropLast })
          (fun c => rfl)) (fun h => h))
        (ih _))
      split
      · exact StepOk_emitSimple s opCloseUpvalue (by simp [simpleOps])
      · exact StepOk_emitSimple s opPop (by simp [simpleOps])
    · exact StepOk_refl s

theorem StepOk_endScope (s : CState) : StepOk s (endScope s) := by
  simp only [endScope]
  have h1 : StepOk s (withComp s fun c =>
      { c with scopeDepth := c.scopeDepth - 1 }) :=
    StepOk_of_codes_heap (codesOf_withComp_codeless s _ (fun c => rfl))
      (fun h => h)
  split
  · exact StepOk_trans h1 (StepOk_endScopeLoop _ _)
  · exact h1

theorem setCaptured_chunk (c : Comp) (li : Nat) :
    (setCaptured c li).chunk = c.chunk := by
  unfold setCaptured
  split
  · rfl
  · rfl

theorem addUpvalue_chunk (c : Comp) (i : Nat) (b : Bool) :
    (addUpvalue c i b).2.chunk = c.chunk := by
  unfold addUpvalue
  split
  · rfl
  · rfl

theorem resolveUpvalue_codes (nm : Token) : ∀ l : List Comp,
    ((resolveUpvalue l nm).2.1).map (fun c => c.chunk.code) =
      l.map (fun c => c.chunk.code) := by
  intro l
  induction l with
  | nil => rfl
  | cons c tl ih =>
    cases tl with
    | nil => rfl
    | cons e rest =>
      unfold resolveUpvalue
      rcases hrl : resolveLocal e nm with ⟨oi, lerr⟩
      cases oi with
      | some li =>
        simp only [hrl]
        rcases hau : addUpvalue c li true with ⟨ui, c2⟩
        simp only [hau, List.map]
        have h1 : c2.chunk = c.chunk := by
          have := addUpvalue_chunk c li true
          rw [hau] at this
          exact this
        rw [h1, setCaptured_chunk]
      | none =>
        simp only [hrl]
        rcases hru : resolveUpvalue (e :: rest) nm with ⟨oi2, chain, oerr⟩
        cases oi2 with
        | some oi =>
          simp only [hru]
          rcases hau : addUpvalue c oi false with ⟨ui, c2⟩
          simp only [hau, List.map]
          have h1 : c2.chunk = c.chunk := by
            have := addUpvalue_chunk c oi false
            rw [hau] at this
            exact this
          rw [h1]
          have h2 : chain.map (fun c => c.chunk.code) =
              (e :: rest).map (fun c => c.chunk.code) := by
            have := ih
            rw [hru] at this
            exact this
          rw [h2]
          rfl
        | none =>
          simp only [hru, List.map]
          have h2 : chain.map (fun c => c.chunk.code) =
              (e :: rest).map (fun c => c.chunk.code) := by
            have := ih
            rw [hru] at this
            exact this
          rw [h2]
          rfl

theorem StepOk_advanceP (s : CState) : StepOk s (advanceP s) :=
  StepOk_untouched (advanceP_state s).1 (advanceP_state s).2

theorem StepOk_errorP (s : CState) : StepOk s (errorP s) :=
  StepOk_untouched (errorP_state s).1 (errorP_state s).2

theorem StepOk_consume (s : CState) (t : TokenType) :
    StepOk s (consume s t) :=
  StepOk_untouched (consume_state s t).1 (consume_state s t).2

theorem StepOk_synchronize (s : CState) : StepOk s (synchronize s) :=
  StepOk_untouched (synchronize_state s).1 (synchronize_state s).2

theorem StepOk_matchTok_snd {s : CState} {t : TokenType} {m : Bool}
    {s2 : CState} (h : matchTok s t = (m, s2)) : StepOk s s2 := by
  have h1 := matchTok_state s t
  rw [h] at h1
  exact StepOk_untouched h1.1 h1.2

theorem emitJump_nil (s : CState) (J : Nat) (hc : s.comps = []) :
    (emitJump s J).2.comps = [] ∧ (emitJump s J).2.heap = s.heap := by
  simp only [emitJump]
  exact ⟨emitByte_comps_nil _ 255 (emitByte_comps_nil _ 255
    (emitByte_comps_nil s J hc)), rfl⟩

theorem CInv_nil (s : CState) (h : codesOf s = []) (hh : HeapOk s.heap) :
    CInv s :=
  ⟨fun cd hcd => absurd (h ▸ hcd) (List.not_mem_nil cd), hh⟩

theorem CInv_parts (s : CState) (h0 ext : List Nat)
    (t0 : List (List Nat)) (hcodes : codesOf s = (h0 ++ ext) :: t0)
    (hh : CodeOk h0) (he : CodeOk ext) (ht : ∀ cd ∈ t0, CodeOk cd)
    (hh2 : HeapOk s.heap) : CInv s := by
  refine ⟨?_, hh2⟩
  intro cd hcd
  rw [hcodes] at hcd
  rcases List.mem_cons.mp hcd with h | h
  · rw [h]
    exact CodeOk_append hh he
  · exact ht cd h

theorem CodeOk_patchy (X1 X2 : List Nat) (J a b : Nat) (h1 : CodeOk X1)
    (h2 : CodeOk X2) (hJ : J ∈ jumpOps) :
    CodeOk (X1 ++ J :: a :: b :: X2) :=
  CodeOk_append h1 (CodeOk_append (CodeOk_block (BlockOk.jmp J a b hJ)) h2)

theorem StepOk_ext_tracked {sA sB : CState} (hST : StepOk sA sB)
    (h0 X : List Nat) (t0 : List (List Nat))
    (hcodes : codesOf sA = (h0 ++ X) :: t0) :
    ∃ e, codesOf sB = (h0 ++ (X ++ e)) :: t0 ∧ CodeOk e := by
  obtain ⟨e, hc, ho⟩ := hST.2.2 (h0 ++ X) t0 hcodes
  exact ⟨e, by rw [hc, List.append_assoc], ho⟩

theorem codesOf_cons_parts {s : CState} {c : Comp} {r : List Comp}
    {h0 : List Nat} {t0 : List (List Nat)} (hcm : s.comps = c :: r)
    (hcodes : codesOf s = h0 :: t0) :
    c.chunk.code = h0 ∧ r.map (fun c => c.chunk.code) = t0 := by
  unfold codesOf at hcodes
  rw [hcm] at hcodes
  simp only [List.map] at hcodes
  injection hcodes with hA hB
  exact ⟨hA, hB⟩

theorem emitJump_tracked (sA : CState) (J : Nat) (h0 X : List Nat)
    (t0 : List (List Nat)) (hcodes : codesOf sA = (h0 ++ X) :: t0) :
    codesOf (emitJump sA J).2 = (h0 ++ (X ++ [J, 255, 255])) :: t0 ∧
    (emitJump sA J).2.heap = sA.heap ∧
    (emitJump sA J).1 = h0.length + X.length + 1 := by
  cases hcm : sA.comps with
  | nil =>
    rw [codesOf_eq_nil.mpr hcm] at hcodes
    cases hcodes
  | cons c r =>
    obtain ⟨hA, hB⟩ := codesOf_cons_parts hcm hcodes
    obtain ⟨h1, h2, h3⟩ := emitJump_spec sA J c r hcm
    refine ⟨?_, h2, ?_⟩
    · rw [h1, hA, hB, List.append_assoc]
    · rw [h3, hA]
      simp [List.length_append]

theorem patch_tracked (s4 : CState) (h0 X1 : List Nat) (J x y : Nat)
    (X2 : List Nat) (t0 : List (List Nat))
    (hcodes : codesOf s4 = (h0 ++ (X1 ++ J :: x :: y :: X2)) :: t0)
    (o : Nat) (ho : o = h0.length + X1.length + 1) :
    ∃ a b, codesOf (patchJump s4 o) =
      (h0 ++ (X1 ++ J :: a :: b :: X2)) :: t0 ∧
      (patchJump s4 o).heap = s4.heap := by
  cases hcm : s4.comps with
  | nil =>
    rw [codesOf_eq_nil.mpr hcm] at hcodes
    cases hcodes
  | cons c r =>
    obtain ⟨hA, hB⟩ := codesOf_cons_parts hcm hcodes
    obtain ⟨a, b, hcJ, hh⟩ := patchJump_spec s4 c r o hcm (h0 ++ X1)
      J x y X2 (by rw [hA, List.append_assoc]) (by rw [ho]; simp)
    refine ⟨a, b, ?_, hh⟩
    rw [hcJ, hB, List.append_assoc]

/-- All parse functions of the mutual group are `StepOk` at a given
fuel. -/
structure AllOk (n : Nat) : Prop where
  pp : ∀ p s, StepOk s (parsePrecedence n p s)
  il : ∀ p ca s, StepOk s (infixLoop n p ca s)
  ar : ∀ pf ca s, StepOk s (applyRule n pf ca s)
  gr : ∀ ca s, StepOk s (grouping n ca s)
  un : ∀ ca s, StepOk s (unary n ca s)
  bin : ∀ ca s, StepOk s (binary n ca s)
  cal : ∀ ca s, StepOk s (call n ca s)
  al : ∀ s, StepOk s (argumentList n s).2
  alp : ∀ a s, StepOk s (argLoop n a s).2
  an : ∀ ca s, StepOk s (and_ n ca s)
  orr : ∀ ca s, StepOk s (or_ n ca s)
  vf : ∀ ca s, StepOk s (variableFn n ca s)
  nv : ∀ nm ca s, StepOk s (namedVariable n nm ca s)
  ex : ∀ s, StepOk s (expression n s)
  bl : ∀ s, StepOk s (blockLoop n s)
  blk : ∀ s, StepOk s (block n s)
  fn : ∀ ft s, StepOk s (function_ n ft s)
  pl : ∀ s, StepOk s (paramLoop n s)
  fd : ∀ s, StepOk s (funDeclaration n s)
  vd : ∀ s, StepOk s (varDeclaration n s)
  es : ∀ s, StepOk s (expressionStatement n s)
  ps : ∀ s, StepOk s (printStatement n s)
  rs : ∀ s, StepOk s (returnStatement n s)
  ifs : ∀ s, StepOk s (ifStatement n s)
  wh : ∀ s, StepOk s (whileStatement n s)
  fo : ∀ s, StepOk s (forStatement n s)
  st : ∀ s, StepOk s (statement n s)
  dc : ∀ s, StepOk s (declaration n s)
  dl : ∀ s, StepOk s (declLoop n s)

theorem AllOk_zero : AllOk 0 := by
  constructor <;> intros <;> exact StepOk_fuelFail _

theorem StepOk_matchTok2 (s : CState) (t : TokenType) :
    StepOk s (matchTok s t).2 :=
  StepOk_untouched (matchTok_state s t).1 (matchTok_state s t).2

theorem c2case_pp (n : Nat) (ih : AllOk n) :
    ∀ p s, StepOk s (parsePrecedence (n + 1) p s) := by
  intro p s
  simp only [parsePrecedence]
  split
  · exact StepOk_trans (StepOk_advanceP s) (StepOk_errorP _)
  · rename_i pf hpf
    have h3 : ∀ ca : Bool, StepOk s
        (infixLoop n p ca (applyRule n pf ca (advanceP s))) := fun ca =>
      StepOk_trans (StepOk_advanceP s)
        (StepOk_trans (ih.ar pf ca _) (ih.il p ca _))
    split
    · split
      · exact StepOk_trans (h3 _) (StepOk_trans (StepOk_matchTok2 _ _)
          (StepOk_errorP _))
      · exact StepOk_trans (h3 _) (StepOk_matchTok2 _ _)
    · exact h3 _

theorem c2case_il (n : Nat) (ih : AllOk n) :
    ∀ p ca s, StepOk s (infixLoop (n + 1) p ca s) := by
  intro p ca s
  simp only [infixLoop]
  split
  · refine StepOk_trans (StepOk_advanceP s)
      (StepOk_trans ?_ (ih.il p ca _))
    split
    · exact ih.ar _ _ _
    · exact StepOk_refl _
  · exact StepOk_refl s

theorem c2case_ar (n : Nat) (ih : AllOk n) :
    ∀ pf ca s, StepOk s (applyRule (n + 1) pf ca s) := by
  intro pf ca s
  simp only [applyRule]
  split
  · exact ih.gr _ _
  · exact ih.un _ _
  · exact ih.bin _ _
  · exact StepOk_numberFn s
  · exact StepOk_stringFn s
  · exact StepOk_literalFn s
  · exact ih.vf _ _
  · exact ih.an _ _
  · exact ih.orr _ _
  · exact ih.cal _ _

theorem c2case_gr (n : Nat) (ih : AllOk n) :
    ∀ ca s, StepOk s (grouping (n + 1) ca s) := by
  intro ca s
  simp only [grouping]
  exact StepOk_trans (ih.ex s) (StepOk_consume _ _)

theorem c2case_un (n : Nat) (ih : AllOk n) :
    ∀ ca s, StepOk s (unary (n + 1) ca s) := by
  intro ca s
  simp only [unary]
  split
  · exact StepOk_trans (ih.pp _ _)
      (StepOk_emitSimple _ opNot (by simp [simpleOps]))
  · exact StepOk_trans (ih.pp _ _)
      (StepOk_emitSimple _ opNegate (by simp [simpleOps]))
  · exact ih.pp _ _

theorem c2case_bin (n : Nat) (ih : AllOk n) :
    ∀ ca s, StepOk s (binary (n + 1) ca s) := by
  intro ca s
  simp only [binary]
  split
  · exact StepOk_trans (ih.pp _ _) (StepOk_emitTwoSimple _ opEqual opNot
      (by simp [simpleOps]) (by simp [simpleOps]))
  · exact StepOk_trans (ih.pp _ _)
      (StepOk_emitSimple _ opEqual (by simp [simpleOps]))
  · exact StepOk_trans (ih.pp _ _)
      (StepOk_emitSimple _ opGreater (by simp [simpleOps]))
  · exact StepOk_trans (ih.pp _ _) (StepOk_emitTwoSimple _ opLess opNot
      (by simp [simpleOps]) (by simp [simpleOps]))
  · exact StepOk_trans (ih.pp _ _)
      (StepOk_emitSimple _ opLess (by simp [simpleOps]))
  · exact StepOk_trans (ih.pp _ _) (StepOk_emitTwoSimple _ opGreater opNot
      (by simp [simpleOps]) (by simp [simpleOps]))
  · exact StepOk_trans (ih.pp _ _)
      (StepOk_emitSimple _ opAdd (by simp [simpleOps]))
  · exact StepOk_trans (ih.pp _ _)
      (StepOk_emitSimple _ opSubtract (by simp [simpleOps]))
  · exact StepOk_trans (ih.pp _ _)
      (StepOk_emitSimple _ opMultiply (by simp [simpleOps]))
  · exact StepOk_trans (ih.pp _ _)
      (StepOk_emitSimple _ opDivide (by simp [simpleOps]))
  · exact ih.pp _ _

theorem c2case_cal (n : Nat) (ih : AllOk n) :
    ∀ ca s, StepOk s (call (n + 1) ca s) := by
  intro ca s
  simp only [call]
  exact StepOk_trans (ih.al s) (StepOk_emitArg _ opCall _
    (by simp [oneArgOps]))

theorem c2case_al (n : Nat) (ih : AllOk n) :
    ∀ s, StepOk s (argumentList (n + 1) s).2 := by
  intro s
  simp only [argumentList]
  split
  · exact StepOk_consume s .rightParen
  · exact StepOk_trans (ih.alp 0 s) (StepOk_consume _ .rightParen)

theorem c2case_alp (n : Nat) (ih : AllOk n) :
    ∀ a s, StepOk s (argLoop (n + 1) a s).2 := by
  intro a s
  simp only [argLoop]
  have h1 : ∀ s2 : CState, StepOk s s2 →
      StepOk s (if (matchTok s2 .comma).1 = true
        then argLoop n ((a + 1) % 256) (matchTok s2 .comma).2
        else ((a + 1) % 256, (matchTok s2 .comma).2)).2 := by
    intro s2 h
    split
    · exact StepOk_trans h (StepOk_trans (StepOk_matchTok2 _ _)
        (ih.alp _ _))
    · exact StepOk_trans h (StepOk_matchTok2 _ _)
  by_cases ha : a = 255
  · rw [if_pos ha]
    exact h1 _ (StepOk_trans (ih.ex s) (StepOk_errorP _))
  · rw [if_neg ha]
    exact h1 _ (ih.ex s)

theorem c2case_vf (n : Nat) (ih : AllOk n) :
    ∀ ca s, StepOk s (variableFn (n + 1) ca s) := by
  intro ca s
  simp only [variableFn]
  exact ih.nv _ _ _

theorem c2case_ex (n : Nat) (ih : AllOk n) :
    ∀ s, StepOk s (expression (n + 1) s) := by
  intro s
  simp only [expression]
  exact ih.pp _ _

theorem c2case_bl (n : Nat) (ih : AllOk n) :
    ∀ s, StepOk s (blockLoop (n + 1) s) := by
  intro s
  simp only [blockLoop]
  split
  · exact StepOk_trans (ih.dc s) (ih.bl _)
  · exact StepOk_refl s

theorem c2case_blk (n : Nat) (ih : AllOk n) :
    ∀ s, StepOk s (block (n + 1) s) := by
  intro s
  simp only [block]
  exact StepOk_trans (ih.bl s) (StepOk_consume _ _)

theorem c2case_es (n : Nat) (ih : AllOk n) :
    ∀ s, StepOk s (expressionStatement (n + 1) s) := by
  intro s
  simp only [expressionStatement]
  exact StepOk_trans (ih.ex s) (StepOk_trans (StepOk_consume _ _)
    (StepOk_emitSimple _ opPop (by simp [simpleOps])))

theorem c2case_ps (n : Nat) (ih : AllOk n) :
    ∀ s, StepOk s (printStatement (n + 1) s) := by
  intro s
  simp only [printStatement]
  exact StepOk_trans (ih.ex s) (StepOk_trans (StepOk_consume _ _)
    (StepOk_emitSimple _ opPrint (by simp [simpleOps])))

theorem c2case_dl (n : Nat) (ih : AllOk n) :
    ∀ s, StepOk s (declLoop (n + 1) s) := by
  intro s
  simp only [declLoop]
  split
  · exact StepOk_matchTok2 _ _
  · exact StepOk_trans (StepOk_matchTok2 _ _)
      (StepOk_trans (ih.dc _) (ih.dl _))

theorem c2case_pl (n : Nat) (ih : AllOk n) :
    ∀ s, StepOk s (paramLoop (n + 1) s) := by
  intro s
  simp only [paramLoop]
  have h1 : StepOk s (withComp s fun c =>
      { c with fnArity := c.fnArity + 1 }) :=
    StepOk_of_codes_heap (codesOf_withComp_codeless _ _ (fun c => rfl))
      (fun h => h)
  have h2 : ∀ s2 : CState, StepOk s s2 → StepOk s
      (match s2.comps with
        | c :: _ => if c.fnArity > 255 then errorP s2 else s2
        | [] => s2) := by
    intro s2 h
    split
    · split
      · exact StepOk_trans h (StepOk_errorP _)
      · exact h
    · exact h
  have h3 : ∀ s2 : CState, StepOk s s2 → StepOk s
      (if (matchTok (defineVariable (parseVariable s2).2
          (parseVariable s2).1) .comma).1 = true
        then paramLoop n (matchTok (defineVariable (parseVariable s2).2
          (parseVariable s2).1) .comma).2
        else (matchTok (defineVariable (parseVariable s2).2
          (parseVariable s2).1) .comma).2) := by
    intro s2 h
    have hh : StepOk s (matchTok (defineVariable (parseVariable s2).2
        (parseVariable s2).1) .comma).2 :=
      StepOk_trans h (StepOk_trans (StepOk_parseVariable s2)
        (StepOk_trans (StepOk_defineVariable _ _) (StepOk_matchTok2 _ _)))
    split
    · exact StepOk_trans hh (ih.pl _)
    · exact hh
  exact h3 _ (h2 _ h1)

theorem c2case_fd (n : Nat) (ih : AllOk n) :
    ∀ s, StepOk s (funDeclaration (n + 1) s) := by
  intro s
  simp only [funDeclaration]
  exact StepOk_trans (StepOk_parseVariable s) (StepOk_trans
    (StepOk_markInitialized _) (StepOk_trans (ih.fn _ _)
      (StepOk_defineVariable _ _)))

theorem c2case_vd (n : Nat) (ih : AllOk n) :
    ∀ s, StepOk s (varDeclaration (n + 1) s) := by
  intro s
  simp only [varDeclaration]
  have h1 : StepOk s (matchTok (parseVariable s).2 .equal).2 :=
    StepOk_trans (StepOk_parseVariable s) (StepOk_matchTok2 _ _)
  have h2 : StepOk s (if (matchTok (parseVariable s).2 .equal).1 = true
      then expression n (matchTok (parseVariable s).2 .equal).2
      else emitByte (matchTok (parseVariable s).2 .equal).2 opNil) := by
    split
    · exact StepOk_trans h1 (ih.ex _)
    · exact StepOk_trans h1 (StepOk_emitSimple _ opNil
        (by simp [simpleOps]))
  exact StepOk_trans h2 (StepOk_trans (StepOk_consume _ _)
    (StepOk_defineVariable _ _))

theorem c2case_rs (n : Nat) (ih : AllOk n) :
    ∀ s, StepOk s (returnStatement (n + 1) s) := by
  intro s
  simp only [returnStatement]
  have h1 : ∀ s1 : CState, StepOk s s1 → StepOk s
      (if (matchTok s1 .semicolon).1 = true
        then emitReturn (matchTok s1 .semicolon).2
        else emitByte (consume (expression n (matchTok s1 .semicolon).2)
          .semicolon) opReturn) := by
    intro s1 h
    have hh := StepOk_trans h (StepOk_matchTok2 s1 .semicolon)
    split
    · exact StepOk_trans hh (StepOk_emitReturn _)
    · exact StepOk_trans hh (StepOk_trans (ih.ex _) (StepOk_trans
        (StepOk_consume _ _) (StepOk_emitSimple _ opReturn
          (by simp [simpleOps]))))
  refine h1 _ ?_
  split
  · split
    · exact StepOk_errorP s
    · exact StepOk_refl s
  · exact StepOk_refl s

theorem c2case_st (n : Nat) (ih : AllOk n) :
    ∀ s, StepOk s (statement (n + 1) s) := by
  intro s
  rw [statement]
  split
  rename_i m1 s1 heq1
  have t1 := StepOk_matchTok_snd heq1
  split
  · exact StepOk_trans t1 (ih.ps _)
  split
  rename_i m2 s2 heq2
  have t2 := StepOk_trans t1 (StepOk_matchTok_snd heq2)
  split
  · exact StepOk_trans t2 (ih.ifs _)
  split
  rename_i m3 s3 heq3
  have t3 := StepOk_trans t2 (StepOk_matchTok_snd heq3)
  split
  · exact StepOk_trans t3 (ih.wh _)
  split
  rename_i m4 s4 heq4
  have t4 := StepOk_trans t3 (StepOk_matchTok_snd heq4)
  split
  · exact StepOk_trans t4 (ih.fo _)
  split
  rename_i m5 s5 heq5
  have t5 := StepOk_trans t4 (StepOk_matchTok_snd heq5)
  split
  · exact StepOk_trans t5 (ih.rs _)
  split
  rename_i m6 s6 heq6
  have t6 := StepOk_trans t5 (StepOk_matchTok_snd heq6)
  split
  · exact StepOk_trans t6 (StepOk_trans (StepOk_beginScope _)
      (StepOk_trans (ih.blk _) (StepOk_endScope _)))
  · exact StepOk_trans t6 (ih.es _)

set_option maxHeartbeats 2000000 in
theorem c2case_dc (n : Nat) (ih : AllOk n) :
    ∀ s, StepOk s (declaration (n + 1) s) := by
  intro s
  simp only [declaration]
  have hin : ∀ s1 : CState, StepOk s s1 →
      StepOk s (if s1.panicMode = true then synchronize s1 else s1) := by
    intro s1 h
    split
    · exact StepOk_trans h (StepOk_synchronize _)
    · exact h
  refine hin _ ?_
  split
  · exact StepOk_trans (StepOk_matchTok2 _ _) (ih.fd _)
  split
  · exact StepOk_trans (StepOk_matchTok2 _ _)
      (StepOk_trans (StepOk_matchTok2 _ _) (ih.vd _))
  · exact StepOk_trans (StepOk_matchTok2 _ _)
      (StepOk_trans (StepOk_matchTok2 _ _) (ih.st _))

set_option maxHeartbeats 2000000 in
theorem c2case_nv (n : Nat) (ih : AllOk n) :
    ∀ nm ca s, StepOk s (namedVariable (n + 1) nm ca s) := by
  intro nm ca s
  simp only [namedVariable]
  split
  · exact StepOk_refl s
  · rename_i c tl heqc
    have hfin : ∀ (s2 : CState) (g o1 o2 : Nat), StepOk s s2 →
        o1 ∈ oneArgOps → o2 ∈ oneArgOps →
        StepOk s (if ca = true then
            (if (matchTok s2 .equal).1 = true
              then emitBytes (expression n (matchTok s2 .equal).2) o2 g
              else emitBytes (matchTok s2 .equal).2 o1 g)
          else emitBytes s2 o1 g) := by
      intro s2 g o1 o2 h ho1 ho2
      split
      · split
        · exact StepOk_trans h (StepOk_trans (StepOk_matchTok2 _ _)
            (StepOk_trans (ih.ex _) (StepOk_emitArg _ o2 g ho2)))
        · exact StepOk_trans h (StepOk_trans (StepOk_matchTok2 _ _)
            (StepOk_emitArg _ o1 g ho1))
      · exact StepOk_trans h (StepOk_emitArg _ o1 g ho1)
    rcases hrl : resolveLocal c nm with ⟨olocal, lerr⟩
    cases olocal with
    | some li =>
      simp only [hrl]
      refine hfin _ li opGetLocal opSetLocal ?_ (by simp [oneArgOps])
        (by simp [oneArgOps])
      split
      · exact StepOk_errorP s
      · exact StepOk_refl s
    | none =>
      simp only [hrl]
      rcases hru : resolveUpvalue s.comps nm with ⟨oup, comps2, uerr⟩
      have hcodes2 : codesOf { s with comps := comps2 } = codesOf s := by
        unfold codesOf
        have := resolveUpvalue_codes nm s.comps
        rw [hru] at this
        exact this
      have hbase : StepOk s { s with comps := comps2 } :=
        StepOk_of_codes_heap hcodes2 (fun h => h)
      cases oup with
      | some ui =>
        simp only [hru]
        refine hfin _ ui opGetUpvalue opSetUpvalue ?_
          (by simp [oneArgOps]) (by simp [oneArgOps])
        split
        · exact StepOk_trans hbase (StepOk_errorP _)
        · exact hbase
      | none =>
        simp only [hru]
        refine hfin _ _ opGetGlobal opSetGlobal ?_
          (by simp [oneArgOps]) (by simp [oneArgOps])
        exact StepOk_trans hbase (StepOk_identifierConstant _ _)

def pairBytes (ups : List UpvalueC) : List Nat :=
  ups.foldr (fun u acc => (if u.isLocal then 1 else 0) :: u.index :: acc) []

theorem foldl_emit2_spec : ∀ (ups : List UpvalueC) (s : CState),
    codesOf (ups.foldl (fun s u =>
      emitBytes s (if u.isLocal then 1 else 0) u.index) s) =
      (match codesOf s with
        | [] => []
        | h :: t => (h ++ pairBytes ups) :: t) ∧
    (ups.foldl (fun s u =>
      emitBytes s (if u.isLocal then 1 else 0) u.index) s).heap =
      s.heap := by
  intro ups
  induction ups with
  | nil =>
    intro s
    refine ⟨?_, rfl⟩
    show codesOf s = match codesOf s with
      | [] => []
      | h :: t => (h ++ pairBytes []) :: t
    cases hcs : codesOf s with
    | nil => rfl
    | cons h t => simp [pairBytes]
  | cons u tl ih =>
    intro s
    simp only [List.foldl]
    obtain ⟨h1, h2⟩ := ih (emitBytes s (if u.isLocal then 1 else 0)
      u.index)
    constructor
    · rw [h1, codesOf_emitBytes]
      cases codesOf s with
      | nil => rfl
      | cons h t => simp [pairBytes]
    · rw [h2, emitBytes_heap]

set_option maxHeartbeats 2000000 in
theorem c2case_fn (n : Nat) (ih : AllOk n) :
    ∀ ft s, StepOk s (function_ (n + 1) ft s) := by
  intro ft s
  simp only [function_]
  have hif : ∀ s3 : CState, StepOk s3 (if ¬check s3 .rightParen = true
      then paramLoop n s3 else s3) := by
    intro s3
    split
    · exact ih.pl s3
    · exact StepOk_refl s3
  set S1 := initCompiler s ft with hS1
  set S2 := beginScope S1 with hS2
  set S3 := consume S2 .leftParen with hS3
  set S4 := if ¬check S3 .rightParen = true then paramLoop n S3 else S3
    with hS4
  set S5 := consume S4 .rightParen with hS5
  set S6 := consume S5 .leftBrace with hS6
  set S7 := block n S6 with hS7
  set FN := (endCompiler S7).1 with hFN
  set S8 := (endCompiler S7).2 with hS8
  set K := (makeConstant S8 (.obj FN)).1 with hK
  set S9 := (makeConstant S8 (.obj FN)).2 with hS9
  set S10 := emitBytes S9 opClosure K with hS10
  have hchain : StepOk S1 S7 := by
    rw [hS7, hS6, hS5, hS4, hS3, hS2]
    exact StepOk_trans (StepOk_beginScope _) (StepOk_trans
      (StepOk_consume _ _) (StepOk_trans (hif _) (StepOk_trans
        (StepOk_consume _ _) (StepOk_trans (StepOk_consume _ _)
          (ih.blk _)))))
  refine ⟨?_, ?_, ?_⟩
  · -- invariant preservation
    intro hci
    have hci1 : CInv S1 := by
      refine ⟨?_, (initCompiler_spec s ft).2.1 hci.2⟩
      intro cd hcd
      rw [hS1, (initCompiler_spec s ft).1] at hcd
      rcases List.mem_cons.mp hcd with h | h
      · rw [h]
        exact CodeOk_nil
      · exact hci.1 cd h
    have hci7 : CInv S7 := hchain.1 hci1
    cases hcm7 : S7.comps with
    | nil =>
      have hci8 : CInv S8 := (endCompiler_nil S7 hcm7).2 hci7
      have hci9 : CInv S9 := (StepOk_makeConstant S8 (.obj FN)).1 hci8
      have hc8n : codesOf S8 = [] :=
        codesOf_eq_nil.mpr (endCompiler_nil S7 hcm7).1
      have hc9n : codesOf S9 = [] := by
        rw [hS9, (makeConstant_spec S8 (.obj FN)).1, hc8n]
      have hc10n : codesOf S10 = [] := by
        rw [hS10, codesOf_emitBytes, hc9n]
      exact CInv_nil S10 hc10n hci9.2
    | cons c7 r7 =>
      have hci8 : CInv S8 := (endCompiler_spec S7 c7 r7 hcm7).2 hci7
      have hci9 : CInv S9 := (StepOk_makeConstant S8 (.obj FN)).1 hci8
      have hcf := foldl_emit2_spec c7.upvalues S10
      cases hc9s : codesOf S9 with
      | nil =>
        have hc10n : codesOf S10 = [] := by
          rw [hS10, codesOf_emitBytes, hc9s]
        refine CInv_nil _ ?_ ?_
        · rw [hcf.1, hc10n]
        · rw [hcf.2, hS10, emitBytes_heap]
          exact hci9.2
      | cons h9 t9 =>
        have hc10 : codesOf S10 = (h9 ++ [opClosure, K]) :: t9 := by
          rw [hS10, codesOf_emitBytes, hc9s]
        refine CInv_parts _ h9 (opClosure :: K :: pairBytes c7.upvalues)
          t9 ?_ ?_ (CodeOk_block (BlockOk.clos _ _)) ?_ ?_
        · rw [hcf.1, hc10]
          simp
        · exact hci9.1 h9 (by rw [hc9s]; exact List.mem_cons_self _ _)
        · intro cd hcd
          exact hci9.1 cd (by rw [hc9s]; exact List.mem_cons_of_mem _ hcd)
        · rw [hcf.2, hS10, emitBytes_heap]
          exact hci9.2
  · -- empty chain preserved
    intro hnil
    have hc1 : codesOf S1 = [] :: [] := by
      rw [hS1, (initCompiler_spec s ft).1, hnil]
    obtain ⟨X7, hc7, -⟩ := StepOk_ext_tracked hchain [] [] []
      (by rw [hc1]; rfl)
    have hc7b : codesOf S7 = X7 :: [] := by
      rw [hc7]
      simp
    cases hcm7 : S7.comps with
    | nil =>
      rw [codesOf_eq_nil.mpr hcm7] at hc7b
      cases hc7b
    | cons c7 r7 =>
      obtain ⟨hA7, hB7⟩ := codesOf_cons_parts hcm7 hc7b
      have hc8 : codesOf S8 = [] := by
        rw [hS8, (endCompiler_spec S7 c7 r7 hcm7).1, hB7]
      have hc9 : codesOf S9 = [] := by
        rw [hS9, (makeConstant_spec S8 (.obj FN)).1, hc8]
      have hc10 : codesOf S10 = [] := by
        rw [hS10, codesOf_emitBytes, hc9]
      have hcf := (foldl_emit2_spec c7.upvalues S10).1
      rw [hc10] at hcf
      exact hcf
  · -- code extension
    intro h0 t0 hc0
    have hc1 : codesOf S1 = [] :: h0 :: t0 := by
      rw [hS1, (initCompiler_spec s ft).1, hc0]
    obtain ⟨X7, hc7, -⟩ := StepOk_ext_tracked hchain [] [] (h0 :: t0)
      (by rw [hc1]; rfl)
    have hc7b : codesOf S7 = X7 :: h0 :: t0 := by
      rw [hc7]
      simp
    cases hcm7 : S7.comps with
    | nil =>
      rw [codesOf_eq_nil.mpr hcm7] at hc7b
      cases hc7b
    | cons c7 r7 =>
      obtain ⟨hA7, hB7⟩ := codesOf_cons_parts hcm7 hc7b
      have hc8 : codesOf S8 = h0 :: t0 := by
        rw [hS8, (endCompiler_spec S7 c7 r7 hcm7).1, hB7]
      have hc9 : codesOf S9 = h0 :: t0 := by
        rw [hS9, (makeConstant_spec S8 (.obj FN)).1, hc8]
      have hc10 : codesOf S10 = (h0 ++ [opClosure, K]) :: t0 := by
        rw [hS10, codesOf_emitBytes, hc9]
      have hcf := (foldl_emit2_spec c7.upvalues S10).1
      rw [hc10] at hcf
      refine ⟨opClosure :: K :: pairBytes c7.upvalues, ?_,
        CodeOk_block (BlockOk.clos _ _)⟩
      rw [hcf]
      simp

theorem cons3_assoc (h0 X1 : List Nat) (J x y : Nat) (X2 : List Nat) :
    (h0 ++ ((X1 ++ [J, x, y]) ++ X2)) =
      (h0 ++ (X1 ++ J :: x :: y :: X2)) := by
  simp

theorem codesOf_emitJump (s : CState) (J : Nat) :
    codesOf (emitJump s J).2 = match codesOf s with
      | [] => []
      | h :: t => (h ++ [J, 255, 255]) :: t := by
  simp only [emitJump]
  rw [codesOf_emitByte, codesOf_emitByte, codesOf_emitByte]
  cases codesOf s with
  | nil => rfl
  | cons h t => simp

theorem StepOk_emitJump (s : CState) (J : Nat) (hJ : J ∈ jumpOps) :
    StepOk s (emitJump s J).2 :=
  StepOk_of_ext [J, 255, 255] (codesOf_emitJump s J)
    (CodeOk_block (BlockOk.jmp J 255 255 hJ)) (fun h => h)

/-- `emitJump`, an arbitrary parser extension, then `patchJump` of the
returned offset — the code pattern of `and_`, `whileStatement` and the
`for` increment clause. -/
theorem StepOk_jump_wrap (s : CState) (J : Nat) (hJ : J ∈ jumpOps)
    (sMid : CState) (hG : StepOk (emitJump s J).2 sMid) :
    StepOk s (patchJump sMid (emitJump s J).1) := by
  refine ⟨?_, ?_, ?_⟩
  · intro hci
    cases hcs : codesOf s with
    | nil =>
      have hcm : s.comps = [] := codesOf_eq_nil.mp hcs
      obtain ⟨hjn, hjh⟩ := emitJump_nil s J hcm
      have hcJ : codesOf (emitJump s J).2 = [] := codesOf_eq_nil.mpr hjn
      have hciJ : CInv (emitJump s J).2 :=
        CInv_nil _ hcJ (by rw [hjh]; exact hci.2)
      have hciM : CInv sMid := hG.1 hciJ
      have hcM : codesOf sMid = [] := hG.2.1 hcJ
      obtain ⟨hpn, hph⟩ := patchJump_nil sMid (emitJump s J).1
        (codesOf_eq_nil.mp hcM)
      exact CInv_nil _ (codesOf_eq_nil.mpr hpn)
        (by rw [hph]; exact hciM.2)
    | cons h0 t0 =>
      obtain ⟨hJc, hJh, hJo⟩ := emitJump_tracked s J h0 [] t0
        (by rw [hcs, List.append_nil])
      have hciJ : CInv (emitJump s J).2 :=
        CInv_parts _ h0 ([] ++ [J, 255, 255]) t0 hJc
          (hci.1 h0 (by rw [hcs]; exact List.mem_cons_self _ _))
          (CodeOk_block (BlockOk.jmp J 255 255 hJ))
          (fun cd hcd => hci.1 cd
            (by rw [hcs]; exact List.mem_cons_of_mem _ hcd))
          (by rw [hJh]; exact hci.2)
      obtain ⟨e, hMc, hMo⟩ := StepOk_ext_tracked hG h0
        ([] ++ [J, 255, 255]) t0 hJc
      have hciM : CInv sMid := hG.1 hciJ
      obtain ⟨a, b, hPc, hPh⟩ := patch_tracked sMid h0 [] J 255 255 e t0
        (by rw [hMc, cons3_assoc]) (emitJump s J).1 hJo
      refine CInv_parts _ h0 ([] ++ J :: a :: b :: e) t0 hPc
        (hci.1 h0 (by rw [hcs]; exact List.mem_cons_self _ _))
        (CodeOk_patchy [] e J a b CodeOk_nil hMo hJ)
        (fun cd hcd => hci.1 cd
          (by rw [hcs]; exact List.mem_cons_of_mem _ hcd))
        (by rw [hPh]; exact hciM.2)
  · intro hnil
    have hcm := codesOf_eq_nil.mp hnil
    obtain ⟨hjn, -⟩ := emitJump_nil s J hcm
    have hcM := hG.2.1 (codesOf_eq_nil.mpr hjn)
    exact codesOf_eq_nil.mpr
      (patchJump_nil sMid _ (codesOf_eq_nil.mp hcM)).1
  · intro h0 t0 hc0
    obtain ⟨hJc, hJh, hJo⟩ := emitJump_tracked s J h0 [] t0
      (by rw [hc0, List.append_nil])
    obtain ⟨e, hMc, hMo⟩ := StepOk_ext_tracked hG h0
      ([] ++ [J, 255, 255]) t0 hJc
    obtain ⟨a, b, hPc, hPh⟩ := patch_tracked sMid h0 [] J 255 255 e t0
      (by rw [hMc, cons3_assoc]) (emitJump s J).1 hJo
    exact ⟨[] ++ J :: a :: b :: e, hPc,
      CodeOk_patchy [] e J a b CodeOk_nil hMo hJ⟩

/-- Two `emitJump`s with arbitrary parser extensions between, first offset
patched before the final extension: the code pattern of `or_` and
`ifStatement`. -/
theorem StepOk_two_jumps (s : CState) (J1 J2 : Nat)
    (h1 : J1 ∈ jumpOps) (h2 : J2 ∈ jumpOps)
    (sB : CState) (hG1 : StepOk (emitJump s J1).2 sB)
    (sE : CState)
    (hG2 : StepOk (patchJump (emitJump sB J2).2 (emitJump s J1).1) sE) :
    StepOk s (patchJump sE (emitJump sB J2).1) := by
  refine ⟨?_, ?_, ?_⟩
  · intro hci
    cases hcs : codesOf s with
    | nil =>
      have hcm : s.comps = [] := codesOf_eq_nil.mp hcs
      obtain ⟨hjn, hjh⟩ := emitJump_nil s J1 hcm
      have hcA : codesOf (emitJump s J1).2 = [] := codesOf_eq_nil.mpr hjn
      have hciA : CInv (emitJump s J1).2 :=
        CInv_nil _ hcA (by rw [hjh]; exact hci.2)
      have hciB : CInv sB := hG1.1 hciA
      have hcB : codesOf sB = [] := hG1.2.1 hcA
      obtain ⟨hjn2, hjh2⟩ := emitJump_nil sB J2 (codesOf_eq_nil.mp hcB)
      obtain ⟨hpn, hph⟩ := patchJump_nil (emitJump sB J2).2
        (emitJump s J1).1 hjn2
      have hciD : CInv (patchJump (emitJump sB J2).2 (emitJump s J1).1) :=
        CInv_nil _ (codesOf_eq_nil.mpr hpn)
          (by rw [hph, hjh2]; exact hciB.2)
      have hciE : CInv sE := hG2.1 hciD
      have hcE : codesOf sE = [] := hG2.2.1 (codesOf_eq_nil.mpr hpn)
      obtain ⟨hpn2, hph2⟩ := patchJump_nil sE (emitJump sB J2).1
        (codesOf_eq_nil.mp hcE)
      exact CInv_nil _ (codesOf_eq_nil.mpr hpn2)
        (by rw [hph2]; exact hciE.2)
    | cons h0 t0 =>
      have hh0 : CodeOk h0 :=
        hci.1 h0 (by rw [hcs]; exact List.mem_cons_self _ _)
      have hht : ∀ cd ∈ t0, CodeOk cd := fun cd hcd =>
        hci.1 cd (by rw [hcs]; exact List.mem_cons_of_mem _ hcd)
      obtain ⟨hAc, hAh, hAo⟩ := emitJump_tracked s J1 h0 [] t0
        (by rw [hcs, List.append_nil])
      have hciA : CInv (emitJump s J1).2 :=
        CInv_parts _ h0 ([] ++ [J1, 255, 255]) t0 hAc hh0
          (CodeOk_block (BlockOk.jmp J1 255 255 h1)) hht
          (by rw [hAh]; exact hci.2)
      have hciB : CInv sB := hG1.1 hciA
      obtain ⟨e1, hBc, hBo⟩ := StepOk_ext_tracked hG1 h0
        ([] ++ [J1, 255, 255]) t0 hAc
      obtain ⟨hCc, hCh, hCo⟩ := emitJump_tracked sB J2 h0
        (([] ++ [J1, 255, 255]) ++ e1) t0 hBc
      obtain ⟨a, b, hDc, hDh⟩ := patch_tracked (emitJump sB J2).2 h0 []
        J1 255 255 (e1 ++ [J2, 255, 255]) t0 (by rw [hCc]; simp)
        (emitJump s J1).1 hAo
      have hciD : CInv (patchJump (emitJump sB J2).2 (emitJump s J1).1) :=
        CInv_parts _ h0 ([] ++ J1 :: a :: b :: (e1 ++ [J2, 255, 255]))
          t0 hDc hh0
          (CodeOk_patchy [] (e1 ++ [J2, 255, 255]) J1 a b CodeOk_nil
            (CodeOk_append hBo (CodeOk_block (BlockOk.jmp J2 255 255 h2)))
            h1)
          hht (by rw [hDh, hCh]; exact hciB.2)
      have hciE : CInv sE := hG2.1 hciD
      obtain ⟨e2, hEc, hEo⟩ := StepOk_ext_tracked hG2 h0
        ([] ++ J1 :: a :: b :: (e1 ++ [J2, 255, 255])) t0 hDc
      obtain ⟨a2, b2, hFc, hFh⟩ := patch_tracked sE h0
        ([] ++ J1 :: a :: b :: e1) J2 255 255 e2 t0 (by rw [hEc]; simp)
        (emitJump sB J2).1
        (by rw [hCo]; simp [List.length_append])
      exact CInv_parts _ h0
        (([] ++ J1 :: a :: b :: e1) ++ J2 :: a2 :: b2 :: e2) t0 hFc hh0
        (CodeOk_patchy ([] ++ J1 :: a :: b :: e1) e2 J2 a2 b2
          (CodeOk_patchy [] e1 J1 a b CodeOk_nil hBo h1) hEo h2)
        hht (by rw [hFh]; exact hciE.2)
  · intro hnil
    have hcm := codesOf_eq_nil.mp hnil
    obtain ⟨hjn, -⟩ := emitJump_nil s J1 hcm
    have hcB := hG1.2.1 (codesOf_eq_nil.mpr hjn)
    obtain ⟨hjn2, -⟩ := emitJump_nil sB J2 (codesOf_eq_nil.mp hcB)
    obtain ⟨hpn, -⟩ := patchJump_nil (emitJump sB J2).2
      (emitJump s J1).1 hjn2
    have hcE := hG2.2.1 (codesOf_eq_nil.mpr hpn)
    exact codesOf_eq_nil.mpr
      (patchJump_nil sE _ (codesOf_eq_nil.mp hcE)).1
  · intro h0 t0 hc0
    obtain ⟨hAc, hAh, hAo⟩ := emitJump_tracked s J1 h0 [] t0
      (by rw [hc0, List.append_nil])
    obtain ⟨e1, hBc, hBo⟩ := StepOk_ext_tracked hG1 h0
      ([] ++ [J1, 255, 255]) t0 hAc
    obtain ⟨hCc, hCh, hCo⟩ := emitJump_tracked sB J2 h0
      (([] ++ [J1, 255, 255]) ++ e1) t0 hBc
    obtain ⟨a, b, hDc, hDh⟩ := patch_tracked (emitJump sB J2).2 h0 []
      J1 255 255 (e1 ++ [J2, 255, 255]) t0 (by rw [hCc]; simp)
      (emitJump s J1).1 hAo
    obtain ⟨e2, hEc, hEo⟩ := StepOk_ext_tracked hG2 h0
      ([] ++ J1 :: a :: b :: (e1 ++ [J2, 255, 255])) t0 hDc
    obtain ⟨a2, b2, hFc, hFh⟩ := patch_tracked sE h0
      ([] ++ J1 :: a :: b :: e1) J2 255 255 e2 t0 (by rw [hEc]; simp)
      (emitJump sB J2).1
      (by rw [hCo]; simp [List.length_append])
    exact ⟨([] ++ J1 :: a :: b :: e1) ++ J2 :: a2 :: b2 :: e2, hFc,
      CodeOk_patchy ([] ++ J1 :: a :: b :: e1) e2 J2 a2 b2
        (CodeOk_patchy [] e1 J1 a b CodeOk_nil hBo h1) hEo h2⟩

theorem c2case_an (n : Nat) (ih : AllOk n) :
    ∀ ca s, StepOk s (and_ (n + 1) ca s) := by
  intro ca s
  simp only [and_]
  exact StepOk_jump_wrap s opJumpIfFalse (by simp [jumpOps]) _
    (StepOk_trans (StepOk_emitSimple _ opPop (by simp [simpleOps]))
      (ih.pp precAnd _))

theorem c2case_orr (n : Nat) (ih : AllOk n) :
    ∀ ca s, StepOk s (or_ (n + 1) ca s) := by
  intro ca s
  simp only [or_]
  exact StepOk_two_jumps s opJumpIfFalse opJump (by simp [jumpOps])
    (by simp [jumpOps]) _ (StepOk_refl _) _
    (StepOk_trans (StepOk_emitSimple _ opPop (by simp [simpleOps]))
      (ih.pp precOr _))

theorem c2case_wh (n : Nat) (ih : AllOk n) :
    ∀ s, StepOk s (whileStatement (n + 1) s) := by
  intro s
  simp only [whileStatement]
  refine StepOk_trans (StepOk_trans (StepOk_consume s .leftParen)
    (StepOk_trans (ih.ex _) (StepOk_consume _ .rightParen))) ?_
  exact StepOk_trans (StepOk_jump_wrap _ opJumpIfFalse (by simp [jumpOps]) _
    (StepOk_trans (StepOk_emitSimple _ opPop (by simp [simpleOps]))
      (StepOk_trans (ih.st _) (StepOk_emitLoop _ _))))
    (StepOk_emitSimple _ opPop (by simp [simpleOps]))

set_option maxHeartbeats 2000000 in
theorem c2case_ifs (n : Nat) (ih : AllOk n) :
    ∀ s, StepOk s (ifStatement (n + 1) s) := by
  intro s
  simp only [ifStatement]
  refine StepOk_trans (StepOk_trans (StepOk_consume s .leftParen)
    (StepOk_trans (ih.ex _) (StepOk_consume _ .rightParen))) ?_
  refine StepOk_two_jumps _ opJumpIfFalse opJump (by simp [jumpOps])
    (by simp [jumpOps]) _
    (StepOk_trans (StepOk_emitSimple _ opPop (by simp [simpleOps]))
      (ih.st _)) _ ?_
  refine StepOk_trans (StepOk_emitSimple _ opPop (by simp [simpleOps]))
    (StepOk_trans (StepOk_matchTok2 _ .kwElse) ?_)
  split
  · exact ih.st _
  · exact StepOk_refl _

/-- The initializer clause of `forStatement`, verbatim. -/
def forInit (n : Nat) (s : CState) : CState :=
  let (m, s) := matchTok s .semicolon
  if m then s
  else
    let (m, s) := matchTok s .kwVar
    if m then varDeclaration n s
    else expressionStatement n s

/-- The condition clause of `forStatement`, verbatim. -/
def forCond (n : Nat) (s : CState) : Option Nat × CState :=
  let (m, s) := matchTok s .semicolon
  if m then (none, s)
  else
    let s := expression n s
    let s := consume s .semicolon
    let (ej, s) := emitJump s opJumpIfFalse
    (some ej, emitByte s opPop)

/-- The increment clause of `forStatement`, verbatim. -/
def forIncr (n : Nat) (ls : Nat) (s : CState) : Nat × CState :=
  let (m, s) := matchTok s .rightParen
  if m then (ls, s)
  else
    let (bodyJump, s) := emitJump s opJump
    let incrementStart := (curCode s).length
    let s := expression n s
    let s := emitByte s opPop
    let s := consume s .rightParen
    let s := emitLoop s ls
    (incrementStart, patchJump s bodyJump)

/-- Everything of `forStatement` after the initializer clause. -/
def forTail (n : Nat) (sI : CState) : CState :=
  let loopStart := (curCode sI).length
  let (exitJump, s) := forCond n sI
  let (loopStart, s) := forIncr n loopStart s
  let s := statement n s
  let s := emitLoop s loopStart
  let s :=
    match exitJump with
    | some ej => emitByte (patchJump s ej) opPop
    | none => s
  endScope s

theorem forStatement_succ (n : Nat) (s : CState) :
    forStatement (n + 1) s =
      forTail n (forInit n (consume (beginScope s) .leftParen)) := rfl

theorem StepOk_forInit (n : Nat) (ih : AllOk n) :
    ∀ t, StepOk t (forInit n t) := by
  intro t
  simp only [forInit]
  split
  · exact StepOk_matchTok2 _ _
  · refine StepOk_trans (StepOk_matchTok2 t .semicolon)
      (StepOk_trans (StepOk_matchTok2 _ .kwVar) ?_)
    split
    · exact ih.vd _
    · exact ih.es _

theorem StepOk_forIncr (n : Nat) (ih : AllOk n) :
    ∀ ls t, StepOk t (forIncr n ls t).2 := by
  intro ls t
  simp only [forIncr]
  split
  · exact StepOk_matchTok2 _ _
  · exact StepOk_trans (StepOk_matchTok2 t .rightParen)
      (StepOk_jump_wrap _ opJump (by simp [jumpOps]) _
        (StepOk_trans (ih.ex _)
          (StepOk_trans (StepOk_emitSimple _ opPop (by simp [simpleOps]))
            (StepOk_trans (StepOk_consume _ .rightParen)
              (StepOk_emitLoop _ ls)))))

theorem StepOk_forTail (n : Nat) (ih : AllOk n) :
    ∀ sI, StepOk sI (forTail n sI) := by
  intro sI
  simp only [forTail, forCond]
  split
  · rename_i x k heq
    by_cases hc : (matchTok sI .semicolon).1 = true
    · rw [if_pos hc] at heq
      simp at heq
    · rw [if_neg hc] at heq
      simp at heq
      subst heq
      rw [if_neg hc]
      refine StepOk_trans (StepOk_trans (StepOk_matchTok2 sI .semicolon)
        (StepOk_trans (ih.ex _) (StepOk_consume _ .semicolon))) ?_
      refine StepOk_trans ?_ (StepOk_endScope _)
      refine StepOk_trans ?_ (StepOk_emitSimple _ opPop (by simp [simpleOps]))
      exact StepOk_jump_wrap _ opJumpIfFalse (by simp [jumpOps]) _
        (StepOk_trans (StepOk_emitSimple _ opPop (by simp [simpleOps]))
          (StepOk_trans (StepOk_forIncr n ih _ _)
            (StepOk_trans (ih.st _) (StepOk_emitLoop _ _))))
  · rename_i x heq
    by_cases hc : (matchTok sI .semicolon).1 = true
    · rw [if_pos hc]
      exact StepOk_trans (StepOk_matchTok2 sI .semicolon)
        (StepOk_trans (StepOk_forIncr n ih _ _)
          (StepOk_trans (ih.st _)
            (StepOk_trans (StepOk_emitLoop _ _) (StepOk_endScope _))))
    · rw [if_neg hc] at heq
      simp at heq

theorem c2case_fo (n : Nat) (ih : AllOk n) :
    ∀ s, StepOk s (forStatement (n + 1) s) := by
  intro s
  rw [forStatement_succ]
  exact StepOk_trans (StepOk_trans (StepOk_beginScope s)
    (StepOk_trans (StepOk_consume _ .leftParen) (StepOk_forInit n ih _)))
    (StepOk_forTail n ih _)

/-- Every compiler routine, at every fuel, relates its input and output
states by `StepOk`. -/
theorem allOk : ∀ n, AllOk n := by
  intro n
  induction n with
  | zero => exact AllOk_zero
  | succ n ih =>
    exact {
      pp := c2case_pp n ih
      il := c2case_il n ih
      ar := c2case_ar n ih
      gr := c2case_gr n ih
      un := c2case_un n ih
      bin := c2case_bin n ih
      cal := c2case_cal n ih
      al := c2case_al n ih
      alp := c2case_alp n ih
      an := c2case_an n ih
      orr := c2case_orr n ih
      vf := c2case_vf n ih
      nv := c2case_nv n ih
      ex := c2case_ex n ih
      bl := c2case_bl n ih
      blk := c2case_blk n ih
      fn := c2case_fn n ih
      pl := c2case_pl n ih
      fd := c2case_fd n ih
      vd := c2case_vd n ih
      es := c2case_es n ih
      ps := c2case_ps n ih
      rs := c2case_rs n ih
      ifs := c2case_ifs n ih
      wh := c2case_wh n ih
      fo := c2case_fo n ih
      st := c2case_st n ih
      dc := c2case_dc n ih
      dl := c2case_dl n ih
    }


/-- After a whole compile from a compiler-free state with a well-formed
heap, the final state's heap is still well-formed: every function object
holds `CodeOk` code. -/
theorem compile_post (fuel : Nat) (S0 : CState) (hc0 : S0.comps = [])
    (hheap : HeapOk S0.heap) :
    CInv (endCompiler (declLoop fuel (advanceP
      (initCompiler S0 .script)))).2 := by
  obtain ⟨hIc, hIh, -⟩ := initCompiler_spec S0 .script
  have hcn : codesOf S0 = [] := codesOf_eq_nil.mpr hc0
  have hstep : StepOk (initCompiler S0 .script)
      (declLoop fuel (advanceP (initCompiler S0 .script))) :=
    StepOk_trans (StepOk_advanceP _) ((allOk fuel).dl _)
  have hciI : CInv (initCompiler S0 .script) := by
    constructor
    · intro cd hcd
      rw [hIc, hcn] at hcd
      rcases List.mem_cons.mp hcd with h | h
      · rw [h]; exact CodeOk_nil
      · exact absurd h (List.not_mem_nil cd)
    · exact hIh hheap
  have hciD := hstep.1 hciI
  cases hcm : (declLoop fuel (advanceP (initCompiler S0 .script))).comps with
  | nil => exact (endCompiler_nil _ hcm).2 hciD
  | cons c r => exact (endCompiler_spec _ c r hcm).2 hciD

/-- C2: the parse-rule table assigns no prefix or infix rule to `class`,
`this`, `super`, or `.`, and after any successful compile that started
from a well-formed heap, every function object on the resulting heap —
in particular every function the compiler produced — has a chunk that is
a sequence of instruction blocks, none of which is a class-related
instruction (OP_GET_PROPERTY, OP_SET_PROPERTY, OP_GET_SUPER, OP_INVOKE,
OP_SUPER_INVOKE, OP_CLASS, OP_INHERIT, OP_METHOD). -/
theorem c2_no_class_opcodes (fuel : Nat) (heap : Heap) (strings : Table)
    (toks : List Token) (fnRef : Nat) (s1 : CState)
    (hheap : HeapOk heap)
    (hc : compileLox fuel heap strings toks = (some fnRef, s1)) :
    (rules .kwClass = ⟨none, none, precNone⟩ ∧
     rules .kwThis = ⟨none, none, precNone⟩ ∧
     rules .kwSuper = ⟨none, none, precNone⟩ ∧
     rules .dot = ⟨none, none, precNone⟩) ∧
    ∀ r fa fu ch nm, s1.heap.get? r = some (HObj.fn fa fu ch nm) →
      ∃ blocks : List (List Nat), ch.code = blocks.join ∧
        ∀ b ∈ blocks, ∀ op ∈ classOps, b.head? ≠ some op := by
  simp only [compileLox] at hc
  rw [Prod.mk.injEq] at hc
  obtain ⟨hfn, hs1⟩ := hc
  have hciE := compile_post fuel
    ⟨heap, strings, [], eofTok, eofTok, toks, false, false⟩ rfl hheap
  refine ⟨⟨rfl, rfl, rfl, rfl⟩, ?_⟩
  intro rr fa fu ch nm hget
  rw [← hs1] at hget
  exact CodeOk_no_class (hciE.2 rr fa fu ch nm hget)

theorem c2_no_class_opcodes_witness :
    HeapOk ([] : Heap) ∧
    ((rules .kwClass = ⟨none, none, precNone⟩ ∧
      rules .kwThis = ⟨none, none, precNone⟩ ∧
      rules .kwSuper = ⟨none, none, precNone⟩ ∧
      rules .dot = ⟨none, none, precNone⟩) ∧
     ∀ r fa fu ch nm,
       (compileLox 32 [] emptyTable (scanTokens "print 1;")).2.heap.get? r =
         some (HObj.fn fa fu ch nm) →
       ∃ blocks : List (List Nat), ch.code = blocks.join ∧
         ∀ b ∈ blocks, ∀ op ∈ classOps, b.head? ≠ some op) := by
  have hH : HeapOk ([] : Heap) := by
    intro r fa fu ch nm h
    simp [List.get?] at h
  exact ⟨hH, c2_no_class_opcodes 32 [] emptyTable (scanTokens "print 1;") 0
    (compileLox 32 [] emptyTable (scanTokens "print 1;")).2 hH rfl⟩

/-! ## Virtual machine (vm.h, vm.c) -/

/-- `UINT8_COUNT`.  Modelled from the spec: common.h is absent from this
snapshot; spec §5 fixes locals/constants bounds at 256 and the operand
stack at `FRAMES_MAX × 256` (`UINT8_COUNT = UINT8_MAX + 1`). -/
def uint8Count : Nat := 256

/-- `FRAMES_MAX` (vm.h). -/
def framesMax : Nat := 64

/-- `STACK_MAX` (vm.h): `FRAMES_MAX * UINT8_COUNT`. -/
def stackMax : Nat := framesMax * uint8Count

/-- A call frame: closure reference, instruction offset into its chunk
(`ip` points at the next opcode), and the base index of its stack window
(`slots`). -/
structure Frame where
  closure : Nat
  ip : Nat
  slots : Nat
deriving DecidableEq, Repr

/-- The VM state.  The operand stack is bottom-first, so `stackTop` is its
length; `frames` keeps the innermost frame at the head. -/
structure VMSt where
  heap : Heap
  strings : Table
  globals : Table
  stack : List Value
  frames : List Frame
  openUpvalues : List Nat
  initString : Option Nat
  output : String
deriving DecidableEq, Repr

/-- `push` — note: no bound check of any kind. -/
def VMSt.push (s : VMSt) (v : Value) : VMSt :=
  { s with stack := s.stack ++ [v] }

/-- `peek(distance)`; `none` models a read below the stack base. -/
def VMSt.peekV (s : VMSt) (d : Nat) : Option Value :=
  s.stack.get? (s.stack.length - 1 - d)

/-- `pop`; `none` models a pop below the stack base. -/
def VMSt.popV (s : VMSt) : Option (Value × VMSt) :=
  match s.stack.getLast? with
  | some v => some (v, { s with stack := s.stack.dropLast })
  | none => none

/-- `isFalsey`: nil and false only. -/
def isFalsey : Value → Bool
  | .nil => true
  | .bool b => ¬ b
  | _ => false

/-- The distinct `runtimeError(...)` call sites of vm.c (diagnostic
formatting is out of scope; the tag identifies the site/message). -/
inductive RErr where
  | expectedArguments (want got : Nat)
  | stackOverflow
  | onlyCallFunctionsClasses
  | undefinedProperty (name : Nat)
  | onlyInstancesHaveMethods
  | onlyInstancesHaveProperties
  | onlyInstancesHaveFields
  | superclassMustBeClass
  | operandsMustBeNumbers
  | operandsMustBeNumbersOrStrings
  | operandMustBeANumber
  | undefinedVariable (name : Nat)
deriving DecidableEq, Repr

/-- Result of the call helpers (`call`, `callValue`, `invoke`, …): success,
a runtime error (with the state at the point of the error), or behaviour
the C code leaves undefined (a bad cast or out-of-range access). -/
inductive CallRes where
  | ok (s : VMSt)
  | failure (s : VMSt) (e : RErr)
  | noRes
deriving DecidableEq, Repr

/-- `call`: arity check, frame-stack overflow check, push a frame whose
window starts at the callee slot. -/
def callClosure (s : VMSt) (closRef : Nat) (argCount : Nat) : CallRes :=
  match s.heap.get? closRef with
  | some (.closure fnRef _) =>
    match s.heap.get? fnRef with
    | some (.fn arity _ _ _) =>
      if argCount ≠ arity then .failure s (.expectedArguments arity argCount)
      else if s.frames.length = framesMax then .failure s .stackOverflow
      else .ok { s with
                 frames :=
                   ⟨closRef, 0, s.stack.length - argCount - 1⟩ :: s.frames }
    | _ => .noRes
  | _ => .noRes

/-- `newClosure`: upvalue array sized by the function's count.  Modelled
from the spec: the `newClosure`/`newFunction`/`newUpvalue` constructors
are declared in object.h but their definitions are missing from this
snapshot's object.c; spec §3 fixes their shape. -/
def newClosure (heap : Heap) (fnRef : Nat) : Nat × Heap :=
  let upc := match heap.get? fnRef with
    | some (.fn _ u _ _) => u
    | _ => 0
  allocObj heap (.closure fnRef (List.replicate upc 0))

/-- `callValue`. -/
def callValue (s : VMSt) (callee : Value) (argCount : Nat) : CallRes :=
  match callee with
  | .obj r =>
    match s.heap.get? r with
    | some (.boundMethod recv m) =>
      let s := { s with
                 stack := s.stack.set (s.stack.length - argCount - 1) recv }
      callClosure s m argCount
    | some (.cls _ methods) =>
      let (instRef, heap) := allocObj s.heap (.inst r emptyTable)
      let s := { s with
                 heap := heap,
                 stack := s.stack.set (s.stack.length - argCount - 1)
                   (.obj instRef) }
      let initLookup := match s.initString with
        | some istr => tableGet (strHash s.heap) methods istr
        | none => none
      match initLookup with
      | some (.obj cr) => callClosure s cr argCount
      | some _ => .noRes
      | none =>
        if argCount ≠ 0 then .failure s (.expectedArguments 0 argCount)
        else .ok s
    | some (.closure _ _) => callClosure s r argCount
    | some .native =>
      -- the only native is clock(); wall-clock time is outside the
      -- embedding and modelled as a constant 0 seconds
      let result : Value := .num (.finite 0)
      let s := { s with stack := s.stack.take (s.stack.length - (argCount + 1)) }
      .ok (s.push result)
    | _ => .failure s .onlyCallFunctionsClasses
  | _ => .failure s .onlyCallFunctionsClasses

/-- `invokeFromClass`. -/
def invokeFromClass (s : VMSt) (klass : Nat) (name : Nat) (argCount : Nat) :
    CallRes :=
  match s.heap.get? klass with
  | some (.cls _ methods) =>
    match tableGet (strHash s.heap) methods name with
    | none => .failure s (.undefinedProperty name)
    | some (.obj m) => callClosure s m argCount
    | some _ => .noRes
  | _ => .noRes

/-- `invoke`: a field of the same name shadows the method. -/
def invoke (s : VMSt) (name : Nat) (argCount : Nat) : CallRes :=
  match s.peekV argCount with
  | none => .noRes
  | some receiver =>
    match receiver with
    | .obj r =>
      match s.heap.get? r with
      | some (.inst klass fields) =>
        match tableGet (strHash s.heap) fields name with
        | some v =>
          let s := { s with
                     stack := s.stack.set (s.stack.length - argCount - 1) v }
          callValue s v argCount
        | none => invokeFromClass s klass name argCount
      | _ => .failure s .onlyInstancesHaveMethods
    | _ => .failure s .onlyInstancesHaveMethods

/-- `bindMethod`: allocate a bound method over the receiver on top of the
stack, replace the receiver with it. -/
def bindMethod (s : VMSt) (klass : Nat) (name : Nat) : CallRes :=
  match s.heap.get? klass with
  | some (.cls _ methods) =>
    match tableGet (strHash s.heap) methods name with
    | none => .failure s (.undefinedProperty name)
    | some (.obj m) =>
      match s.peekV 0 with
      | none => .noRes
      | some recv =>
        let (br, heap) := allocObj s.heap (.boundMethod recv m)
        match VMSt.popV { s with heap := heap } with
        | some (_, s) => .ok (s.push (.obj br))
        | none => .noRes
    | some _ => .noRes
  | _ => .noRes

/-- The stack slot an open upvalue points at. -/
def upLoc (h : Heap) (r : Nat) : Option Nat :=
  match h.get? r with
  | some (.upvalue (.stackIdx i) _) => some i
  | _ => none

/-- `captureUpvalue`: walk the open-upvalue list (sorted by descending
slot); reuse an existing upvalue for the slot, otherwise splice a new one
in at the position preserving the order.  (`newUpvalue` initializes
`location` to the slot; see `newClosure` for the spec-modelled
constructors.) -/
def captureUpvalue (heap : Heap) : List Nat → Nat → Nat × List Nat × Heap
  | [], localIdx =>
    (heap.length, [heap.length],
     heap ++ [.upvalue (.stackIdx localIdx) .nil])
  | u :: rest, localIdx =>
    match upLoc heap u with
    | some l =>
      if localIdx < l then
        let res := captureUpvalue heap rest localIdx
        (res.1, u :: res.2.1, res.2.2)
      else if l = localIdx then (u, u :: rest, heap)
      else
        (heap.length, heap.length :: u :: rest,
         heap ++ [.upvalue (.stackIdx localIdx) .nil])
    | none =>
      -- a closed upvalue on the open list: excluded by the invariant (the
      -- C pointer comparison would be indeterminate); splice in front
      (heap.length, heap.length :: u :: rest,
       heap ++ [.upvalue (.stackIdx localIdx) .nil])

/-- `closeUpvalues(last)`: while the head of the open list has
`location ≥ last`, copy the stack value into its `closed` cell and
retarget `location` at that cell. -/
def closeUpvalues : Heap → List Nat → List Value → Nat → Heap × List Nat
  | heap, [], _, _ => (heap, [])
  | heap, u :: rest, stack, last =>
    match heap.get? u with
    | some (.upvalue (.stackIdx l) _) =>
      if last ≤ l then
        closeUpvalues (heap.set u (.upvalue .ownClosed (stack.getD l .nil)))
          rest stack last
      else (heap, u :: rest)
    | _ => (heap, u :: rest)

/-- `%g` formatting of `printValue`, best-effort on the `Dbl` model (no
claim depends on number formatting). -/
def fmtDbl : Dbl → String
  | .finite q => if q.den = 1 then toString q.num else toString q
  | .inf => "inf"
  | .ninf => "-inf"
  | .nan => "nan"

/-- `printObject`: this snapshot's switch covers only `OBJ_STRING`; other
object kinds print nothing. -/
def printObjectStr (h : Heap) (r : Nat) : String :=
  match h.get? r with
  | some (.str cs _) => String.mk cs
  | _ => ""

/-- `printValue`. -/
def printValueStr (h : Heap) : Value → String
  | .bool b => if b then "true" else "false"
  | .nil => "nil"
  | .num d => fmtDbl d
  | .obj r => printObjectStr h r

/-- Result of one dispatch of the `run` loop. -/
inductive StepRes where
  | next (s : VMSt)
  | halted (s : VMSt)
  | err (s : VMSt) (e : RErr)
  | stuck
deriving DecidableEq, Repr

/-- The OP_CLOSURE operand loop: read `count` `(isLocal, index)` byte
pairs, capturing local slots or copying the enclosing closure's
upvalues. -/
def readUpvaluePairs (code : List Nat) (frSlots : Nat) (enclUps : List Nat) :
    Nat → Nat → List Nat → Heap → Option (List Nat × List Nat × Heap)
  | 0, _, opens, heap => some ([], opens, heap)
  | n + 1, pos, opens, heap =>
    match code.get? pos, code.get? (pos + 1) with
    | some isLocal, some index =>
      if isLocal ≠ 0 then
        let (r, opens, heap) := captureUpvalue heap opens (frSlots + index)
        match readUpvaluePairs code frSlots enclUps n (pos + 2) opens heap with
        | some (ups, opens, heap) => some (r :: ups, opens, heap)
        | none => none
      else
        match enclUps.get? index with
        | some r =>
          match readUpvaluePairs code frSlots enclUps n (pos + 2) opens heap with
          | some (ups, opens, heap) => some (r :: ups, opens, heap)
          | none => none
        | none => none
    | _, _ => none

def isStringV (h : Heap) : Value → Bool
  | .obj r => isStrRef h r
  | _ => false

/-- One iteration of the `run` dispatch loop.  The current frame's `ip`
indexes the opcode; operand reads advance it (also on the error paths,
mirroring when `READ_BYTE`/`READ_STRING` ran before `runtimeError`).
Out-of-range reads, failed casts and pops below the stack base — all
undefined behaviour in C — yield `stuck`. -/
def vmStep (s : VMSt) : StepRes :=
  match s.frames with
  | [] => .stuck
  | fr :: restFrames =>
    match s.heap.get? fr.closure with
    | some (.closure fnRef closUps) =>
      match s.heap.get? fnRef with
      | some (.fn _ _ chunk _) =>
        match chunk.code.get? fr.ip with
        | none => .stuck
        | some instr =>
          -- READ_STRING: a one-byte constant index naming an interned string
          let rdStr : Nat → Option Nat := fun k =>
            match chunk.constants.get? k with
            | some (.obj r) => if isStrRef s.heap r then some r else none
            | _ => none
          -- advance the current frame's ip by n
          let bump : Nat → VMSt → VMSt := fun n s' =>
            { s' with frames := { fr with ip := fr.ip + n } :: restFrames }
          if instr = opConstant then
            match chunk.code.get? (fr.ip + 1) with
            | none => .stuck
            | some k =>
              match chunk.constants.get? k with
              | none => .stuck
              | some v => .next (bump 2 (s.push v))
          else if instr = opNil then .next (bump 1 (s.push .nil))
          else if instr = opTrue then .next (bump 1 (s.push (.bool true)))
          else if instr = opFalse then .next (bump 1 (s.push (.bool false)))
          else if instr = opPop then
            match s.popV with
            | some (_, s1) => .next (bump 1 s1)
            | none => .stuck
          else if instr = opGetLocal then
            match chunk.code.get? (fr.ip + 1) with
            | none => .stuck
            | some slot =>
              match s.stack.get? (fr.slots + slot) with
              | some v => .next (bump 2 (s.push v))
              | none => .stuck
          else if instr = opSetLocal then
            match chunk.code.get? (fr.ip + 1) with
            | none => .stuck
            | some slot =>
              match s.peekV 0 with
              | some v =>
                .next (bump 2 { s with
                                stack := s.stack.set (fr.slots + slot) v })
              | none => .stuck
          else if instr = opGetGlobal then
            match chunk.code.get? (fr.ip + 1) with
            | none => .stuck
            | some k =>
              match rdStr k with
              | none => .stuck
              | some nameRef =>
                match tableGet (strHash s.heap) s.globals nameRef with
                | none => .err (bump 2 s) (.undefinedVariable nameRef)
                | some v => .next (bump 2 (s.push v))
          else if instr = opDefineGlobal then
            match chunk.code.get? (fr.ip + 1) with
            | none => .stuck
            | some k =>
              match rdStr k with
              | none => .stuck
              | some nameRef =>
                match s.peekV 0 with
                | none => .stuck
                | some v =>
                  let (globals, _) :=
                    tableSet (strHash s.heap) s.globals nameRef v
                  match VMSt.popV { s with globals := globals } with
                  | some (_, s1) => .next (bump 2 s1)
                  | none => .stuck
          else if instr = opSetGlobal then
            match chunk.code.get? (fr.ip + 1) with
            | none => .stuck
            | some k =>
              match rdStr k with
              | none => .stuck
              | some nameRef =>
                match s.peekV 0 with
                | none => .stuck
                | some v =>
                  let (globals, isNew) :=
                    tableSet (strHash s.heap) s.globals nameRef v
                  if isNew then
                    -- a first assignment defined the key: roll it back and
                    -- report "Undefined variable '%s'."
                    let (globals, _) :=
                      tableDelete (strHash s.heap) globals nameRef
                    .err (bump 2 { s with globals := globals })
                      (.undefinedVariable nameRef)
                  else .next (bump 2 { s with globals := globals })
          else if instr = opSetUpvalue then
            match chunk.code.get? (fr.ip + 1) with
            | none => .stuck
            | some slot =>
              match s.peekV 0 with
              | none => .stuck
              | some v =>
                match closUps.get? slot with
                | none => .stuck
                | some ur =>
                  match s.heap.get? ur with
                  | some (.upvalue (.stackIdx i) _) =>
                    .next (bump 2 { s with stack := s.stack.set i v })
                  | some (.upvalue .ownClosed _) =>
                    .next (bump 2 { s with
                      heap := s.heap.set ur (.upvalue .ownClosed v) })
                  | _ => .stuck
          else if instr = opGetUpvalue then
            match chunk.code.get? (fr.ip + 1) with
            | none => .stuck
            | some slot =>
              match closUps.get? slot with
              | none => .stuck
              | some ur =>
                match s.heap.get? ur with
                | some (.upvalue (.stackIdx i) _) =>
                  match s.stack.get? i with
                  | some v => .next (bump 2 (s.push v))
                  | none => .stuck
                | some (.upvalue .ownClosed closed) =>
                  .next (bump 2 (s.push closed))
                | _ => .stuck
          else if instr = opGetProperty then
            match s.peekV 0 with
            | none => .stuck
            | some receiver =>
              match receiver with
              | .obj r =>
                match s.heap.get? r with
                | some (.inst klass fields) =>
                  match chunk.code.get? (fr.ip + 1) with
                  | none => .stuck
                  | some k =>
                    match rdStr k with
                    | none => .stuck
                    | some nameRef =>
                      let s2 := bump 2 s
                      match tableGet (strHash s2.heap) fields nameRef with
                      | some v =>
                        .next { s2 with
                                stack := s2.stack.dropLast ++ [v] }
                      | none =>
                        match bindMethod s2 klass nameRef with
                        | .ok s3 => .next s3
                        | .failure s3 e => .err s3 e
                        | .noRes => .stuck
                | _ => .err (bump 1 s) .onlyInstancesHaveProperties
              | _ => .err (bump 1 s) .onlyInstancesHaveProperties
          else if instr = opSetProperty then
            match s.peekV 1 with
            | none => .stuck
            | some target =>
              match target with
              | .obj r =>
                match s.heap.get? r with
                | some (.inst klass fields) =>
                  match chunk.code.get? (fr.ip + 1) with
                  | none => .stuck
                  | some k =>
                    match rdStr k with
                    | none => .stuck
                    | some nameRef =>
                      match s.peekV 0 with
                      | none => .stuck
                      | some v =>
                        let (fields, _) :=
                          tableSet (strHash s.heap) fields nameRef v
                        let heap := s.heap.set r (.inst klass fields)
                        .next (bump 2 { s with
                          heap := heap,
                          stack := s.stack.dropLast.dropLast ++ [v] })
                | _ => .err (bump 1 s) .onlyInstancesHaveFields
              | _ => .err (bump 1 s) .onlyInstancesHaveFields
          else if instr = opGetSuper then
            match chunk.code.get? (fr.ip + 1) with
            | none => .stuck
            | some k =>
              match rdStr k with
              | none => .stuck
              | some nameRef =>
                let s2 := bump 2 s
                match s2.popV with
                | none => .stuck
                | some (sup, s3) =>
                  match sup with
                  | .obj scr =>
                    match bindMethod s3 scr nameRef with
                    | .ok s4 => .next s4
                    | .failure s4 e => .err s4 e
                    | .noRes => .stuck
                  | _ => .stuck
          else if instr = opEqual then
            match s.peekV 0, s.peekV 1 with
            | some b, some a =>
              .next (bump 1 { s with
                stack := s.stack.dropLast.dropLast ++
                  [.bool (valuesEqual a b)] })
            | _, _ => .stuck
          else if instr = opGreater then
            match s.peekV 0, s.peekV 1 with
            | some vb, some va =>
              match va, vb with
              | .num a, .num b =>
                .next (bump 1 { s with
                  stack := s.stack.dropLast.dropLast ++ [.bool (a.gtb b)] })
              | _, _ => .err (bump 1 s) .operandsMustBeNumbers
            | _, _ => .stuck
          else if instr = opLess then
            match s.peekV 0, s.peekV 1 with
            | some vb, some va =>
              match va, vb with
              | .num a, .num b =>
                .next (bump 1 { s with
                  stack := s.stack.dropLast.dropLast ++ [.bool (a.ltb b)] })
              | _, _ => .err (bump 1 s) .operandsMustBeNumbers
            | _, _ => .stuck
          else if instr = opAdd then
            match s.peekV 0, s.peekV 1 with
            | some vb, some va =>
              if isStringV s.heap vb ∧ isStringV s.heap va then
                -- concatenate
                match va, vb with
                | .obj ra, .obj rb =>
                  let chars := strChars s.heap ra ++ strChars s.heap rb
                  let (r, heap, strings) := takeString s.heap s.strings chars
                  .next (bump 1 { s with
                    heap := heap, strings := strings,
                    stack := s.stack.dropLast.dropLast ++ [.obj r] })
                | _, _ => .stuck
              else
                match va, vb with
                | .num a, .num b =>
                  .next (bump 1 { s with
                    stack := s.stack.dropLast.dropLast ++ [.num (a.add b)] })
                | _, _ => .err (bump 1 s) .operandsMustBeNumbersOrStrings
            | _, _ => .stuck
          else if instr = opSubtract then
            match s.peekV 0, s.peekV 1 with
            | some vb, some va =>
              match va, vb with
              | .num a, .num b =>
                .next (bump 1 { s with
                  stack := s.stack.dropLast.dropLast ++ [.num (a.sub b)] })
              | _, _ => .err (bump 1 s) .operandsMustBeNumbers
            | _, _ => .stuck
          else if instr = opMultiply then
            match s.peekV 0, s.peekV 1 with
            | some vb, some va =>
              match va, vb with
              | .num a, .num b =>
                .next (bump 1 { s with
                  stack := s.stack.dropLast.dropLast ++ [.num (a.mul b)] })
              | _, _ => .err (bump 1 s) .operandsMustBeNumbers
            | _, _ => .stuck
          else if instr = opDivide then
            match s.peekV 0, s.peekV 1 with
            | some vb, some va =>
              match va, vb with
              | .num a, .num b =>
                .next (bump 1 { s with
                  stack := s.stack.dropLast.dropLast ++ [.num (a.div b)] })
              | _, _ => .err (bump 1 s) .operandsMustBeNumbers
            | _, _ => .stuck
          else if instr = opNot then
            match s.popV with
            | some (v, s1) => .next (bump 1 (s1.push (.bool (isFalsey v))))
            | none => .stuck
          else if instr = opNegate then
            match s.peekV 0 with
            | some (.num a) =>
              .next (bump 1 { s with
                stack := s.stack.dropLast ++ [.num a.neg] })
            | some _ => .err (bump 1 s) .operandMustBeANumber
            | none => .stuck
          else if instr = opPrint then
            match s.popV with
            | some (v, s1) =>
              .next (bump 1 { s1 with
                output := s1.output ++ printValueStr s1.heap v ++ "\n" })
            | none => .stuck
          else if instr = opJump then
            match chunk.code.get? (fr.ip + 1), chunk.code.get? (fr.ip + 2) with
            | some hi, some lo => .next (bump (3 + (hi * 256 + lo)) s)
            | _, _ => .stuck
          else if instr = opJumpIfFalse then
            match chunk.code.get? (fr.ip + 1), chunk.code.get? (fr.ip + 2) with
            | some hi, some lo =>
              match s.peekV 0 with
              | some v =>
                if isFalsey v then .next (bump (3 + (hi * 256 + lo)) s)
                else .next (bump 3 s)
              | none => .stuck
            | _, _ => .stuck
          else if instr = opLoop then
            match chunk.code.get? (fr.ip + 1), chunk.code.get? (fr.ip + 2) with
            | some hi, some lo =>
              -- ip := (ip + 3) - offset; well-formed code never underflows
              .next { s with frames :=
                { fr with ip := fr.ip + 3 - (hi * 256 + lo) } :: restFrames }
            | _, _ => .stuck
          else if instr = opCall then
            match chunk.code.get? (fr.ip + 1) with
            | none => .stuck
            | some argc =>
              let s2 := bump 2 s
              match s2.peekV argc with
              | none => .stuck
              | some callee =>
                match callValue s2 callee argc with
                | .ok s3 => .next s3
                | .failure s3 e => .err s3 e
                | .noRes => .stuck
          else if instr = opInvoke then
            match chunk.code.get? (fr.ip + 1), chunk.code.get? (fr.ip + 2) with
            | some k, some argc =>
              match rdStr k with
              | none => .stuck
              | some nameRef =>
                let s2 := bump 3 s
                match invoke s2 nameRef argc with
                | .ok s3 => .next s3
                | .failure s3 e => .err s3 e
                | .noRes => .stuck
            | _, _ => .stuck
          else if instr = opSuperInvoke then
            match chunk.code.get? (fr.ip + 1), chunk.code.get? (fr.ip + 2) with
            | some k, some argc =>
              match rdStr k with
              | none => .stuck
              | some nameRef =>
                let s2 := bump 3 s
                match s2.popV with
                | none => .stuck
                | some (sup, s3) =>
                  match sup with
                  | .obj scr =>
                    match invokeFromClass s3 scr nameRef argc with
                    | .ok s4 => .next s4
                    | .failure s4 e => .err s4 e
                    | .noRes => .stuck
                  | _ => .stuck
            | _, _ => .stuck
          else if instr = opClosure then
            match chunk.code.get? (fr.ip + 1) with
            | none => .stuck
            | some k =>
              match chunk.constants.get? k with
              | some (.obj fnR) =>
                match s.heap.get? fnR with
                | some (.fn _ upc _ _) =>
                  let (closRef, heap1) := newClosure s.heap fnR
                  let s2 := VMSt.push { s with heap := heap1 } (.obj closRef)
                  match readUpvaluePairs chunk.code fr.slots closUps upc
                      (fr.ip + 2) s2.openUpvalues s2.heap with
                  | some (ups, opens, heap2) =>
                    .next { s2 with
                      heap := heap2.set closRef (.closure fnR ups),
                      openUpvalues := opens,
                      frames :=
                        { fr with ip := fr.ip + 2 + 2 * upc } :: restFrames }
                  | none => .stuck
                | _ => .stuck
              | _ => .stuck
          else if instr = opCloseUpvalue then
            let (heap, opens) :=
              closeUpvalues s.heap s.openUpvalues s.stack (s.stack.length - 1)
            match VMSt.popV { s with heap := heap, openUpvalues := opens } with
            | some (_, s1) => .next (bump 1 s1)
            | none => .stuck
          else if instr = opReturn then
            match s.popV with
            | none => .stuck
            | some (result, s1) =>
              let (heap, opens) :=
                closeUpvalues s1.heap s1.openUpvalues s1.stack fr.slots
              let s2 := { s1 with
                          heap := heap, openUpvalues := opens,
                          frames := restFrames }
              match restFrames with
              | [] =>
                match s2.popV with
                | some (_, s3) => .halted s3
                | none => .stuck
              | _ :: _ =>
                .next { s2 with stack := s2.stack.take fr.slots ++ [result] }
          else if instr = opClass then
            match chunk.code.get? (fr.ip + 1) with
            | none => .stuck
            | some k =>
              match rdStr k with
              | none => .stuck
              | some nameRef =>
                let (r, heap) := allocObj s.heap (.cls nameRef emptyTable)
                .next (bump 2 (VMSt.push { s with heap := heap } (.obj r)))
          else if instr = opInherit then
            match s.peekV 1 with
            | none => .stuck
            | some sup =>
              match sup with
              | .obj scr =>
                match s.heap.get? scr with
                | some (.cls _ superMethods) =>
                  match s.peekV 0 with
                  | some (.obj sub) =>
                    match s.heap.get? sub with
                    | some (.cls nm subMethods) =>
                      let methods :=
                        tableAddAll (strHash s.heap) superMethods subMethods
                      let heap := s.heap.set sub (.cls nm methods)
                      .next (bump 1 { s with
                        heap := heap, stack := s.stack.dropLast })
                    | _ => .stuck
                  | _ => .stuck
                | _ => .err (bump 1 s) .superclassMustBeClass
              | _ => .err (bump 1 s) .superclassMustBeClass
          else if instr = opMethod then
            match chunk.code.get? (fr.ip + 1) with
            | none => .stuck
            | some k =>
              match rdStr k with
              | none => .stuck
              | some nameRef =>
                -- defineMethod
                match s.peekV 0, s.peekV 1 with
                | some method, some (.obj kr) =>
                  match s.heap.get? kr with
                  | some (.cls nm methods) =>
                    let (methods, _) :=
                      tableSet (strHash s.heap) methods nameRef method
                    let heap := s.heap.set kr (.cls nm methods)
                    .next (bump 2 { s with
                      heap := heap, stack := s.stack.dropLast })
                  | _ => .stuck
                | _, _ => .stuck
          else
            -- an opcode byte outside the enum: no switch case matches and
            -- the loop just continues past it
            .next (bump 1 s)
      | _ => .stuck
    | _ => .stuck

/-- `resetStack` (also run after a runtime error unwinds the frames). -/
def resetStack (s : VMSt) : VMSt :=
  { s with stack := [], frames := [], openUpvalues := [] }

inductive Outcome where
  | ok
  | compileError
  | runtimeError
deriving DecidableEq, Repr

/-- Result of running the VM: an `InterpretResult` with the final state,
fuel exhaustion (the program ran longer than the given fuel), or undefined
behaviour. -/
inductive RunRes where
  | done (o : Outcome) (s : VMSt)
  | noFuel (s : VMSt)
  | noRes
deriving DecidableEq, Repr

/-- The fueled `run` loop.  A runtime error reports and resets the
stack. -/
def vmRun : Nat → VMSt → RunRes
  | 0, s => .noFuel s
  | fuel + 1, s =>
    match vmStep s with
    | .next s => vmRun fuel s
    | .halted s => .done .ok s
    | .err s _ => .done .runtimeError (resetStack s)
    | .stuck => .noRes

/-- `initVM`: fresh tables, intern `"init"`, register the `clock`
native. -/
def initVMState : VMSt :=
  let heap : Heap := []
  let strings := emptyTable
  let globals := emptyTable
  let (initRef, heap, strings) := copyString heap strings "init".toList
  let (nameRef, heap, strings) := copyString heap strings "clock".toList
  let (natRef, heap) := allocObj heap .native
  let (globals, _) := tableSet (strHash heap) globals nameRef (.obj natRef)
  { heap := heap, strings := strings, globals := globals, stack := [],
    frames := [], openUpvalues := [], initString := some initRef,
    output := "" }

/-- `interpret`: compile, wrap the top-level function in a closure,
install the root frame, run. -/
def interpretTokens (cfuel vfuel : Nat) (toks : List Token) : RunRes :=
  let vm0 := initVMState
  let (fnRes, cs) := compileLox cfuel vm0.heap vm0.strings toks
  let vm := { vm0 with heap := cs.heap, strings := cs.strings }
  match fnRes with
  | none => .done .compileError vm
  | some fnRef =>
    let s := vm.push (.obj fnRef)
    let (closRef, heap) := newClosure s.heap fnRef
    let s := { s with heap := heap }
    match s.popV with
    | none => .noRes
    | some (_, s) =>
      let s := s.push (.obj closRef)
      match callClosure s closRef 0 with
      | .ok s => vmRun vfuel s
      | .failure s _ => .done .runtimeError (resetStack s)
      | .noRes => .noRes

/-- End-to-end: scan, compile, run; the outcome paired with everything
printed to stdout.  `none` models fuel exhaustion or undefined
behaviour. -/
def interpretLox (cfuel vfuel : Nat) (src : String) :
    Option (Outcome × String) :=
  match interpretTokens cfuel vfuel (scanTokens src) with
  | .done o s => some (o, s.output)
  | _ => none

/-! ## Command-line driver (main.c) -/

/-- `readFile`: an unopenable or unreadable file exits 74; `fs` abstracts
the file system. -/
def readFileD (fs : String → Option String) (path : String) :
    Except Nat String :=
  match fs path with
  | none => .error 74
  | some c => .ok c

/-- `runFile`: a compile error exits 65, a runtime error 70. -/
def runFileD (interp : String → Outcome) (fs : String → Option String)
    (path : String) : Except Nat Unit :=
  match readFileD fs path with
  | .error n => .error n
  | .ok src =>
    match interp src with
    | .compileError => .error 65
    | .runtimeError => .error 70
    | .ok => .ok ()

/-- `main`.  `args` are the argv entries after the executable name;
`interp` is the linked `interpret`.  Zero extra arguments enter the REPL
(out of scope here, `none`); one runs the file; two or more print usage
and exit 64 before interpreting anything.  A run that falls through
returns 0. -/
def cloxMain (interp : String → Outcome) (fs : String → Option String)
    (args : List String) : Option Nat :=
  match args with
  | [] => none
  | [path] =>
    match runFileD interp fs path with
    | .error n => some n
    | .ok () => some 0
  | _ :: _ :: _ => some 64

/-! ## C1: the class scenario program -/

/-- The end-to-end class scenario of the spec. -/
def c1src : String :=
  "class A \x7b init(n)\x7b this.n = n; \x7d show()\x7b print this.n; \x7d \x7d A(42).show();"

/-- C1 (counterexample): the class program does not compile and run to OK
printing `42`: this compiler snapshot has no class support at all. -/
theorem c1_counterexample :
    ¬ (interpretLox 500 500 c1src = some (.ok, "42\n")) := by decide

/-- C1 (amended): interpreting
`class A { init(n){ this.n = n; } show(){ print this.n; } } A(42).show();`
yields COMPILE_ERROR with nothing printed: `class` has no prefix rule and
declaration dispatch never matches it, so the first token already reports
"Expect expression.". -/
theorem c1_class_program_compile_error :
    interpretLox 500 500 c1src = some (.compileError, "") := by decide

/-! ## C3: `var a = a;` -/

def c3src : String := "var a = a;"

/-- The same initializer-self-read in a local scope. -/
def c3srcLocal : String := "\x7b var a = a; \x7d"

/-- C3 (counterexample): at top level `var a = a;` COMPILES — the claim
that it is a compile error is false.  `declareVariable` returns without
declaring anything at scope depth 0, so no depth −1 local exists and the
initializer's `a` resolves as a global get. -/
theorem c3_counterexample :
    ¬ ((compileLox 500 initVMState.heap initVMState.strings
        (scanTokens c3src)).1 = none) := by decide

/-- C3 (amended): the depth −1 own-initializer rule applies to locals
only.  Top-level `var a = a;` compiles and fails at run time with the
undefined-variable error; the local version `{ var a = a; }` is the
compile-time error the claim describes. -/
theorem c3_var_own_initializer :
    interpretLox 500 500 c3src = some (.runtimeError, "") ∧
    interpretLox 500 500 c3srcLocal = some (.compileError, "") := by decide

/-! ## C8: emitJump / patchJump -/

/-- C8: `emitJump` appends the opcode plus two `0xff` placeholders and
returns the offset of the first placeholder (old count + 1, i.e. new
count − 2); `patchJump offset` overwrites the two bytes at
`offset, offset+1` with `count − offset − 2` big-endian (high byte first,
so they decode as `jump / 256` and `jump % 256` whenever the distance
fits 16 bits) and reports a compile error exactly when the distance
exceeds 65535. -/
theorem c8_emit_patch_jump :
    ∀ s : CState, s.comps ≠ [] →
    (∀ op : Nat,
      curCode (emitJump s op).2 = curCode s ++ [op, 255, 255] ∧
      (emitJump s op).1 = (curCode s).length + 1 ∧
      (emitJump s op).1 + 2 = (curCode (emitJump s op).2).length) ∧
    (∀ offset : Nat, offset + 2 ≤ (curCode s).length →
      curCode (patchJump s offset) =
        ((curCode s).set offset
          ((((curCode s).length - offset - 2) >>> 8) &&& 255)).set
          (offset + 1) (((curCode s).length - offset - 2) &&& 255) ∧
      ((curCode s).length - offset - 2 ≤ 65535 →
        (curCode (patchJump s offset)).get? offset =
          some (((curCode s).length - offset - 2) / 256) ∧
        (curCode (patchJump s offset)).get? (offset + 1) =
          some (((curCode s).length - offset - 2) % 256) ∧
        (patchJump s offset).hadError = s.hadError) ∧
      ((curCode s).length - offset - 2 > 65535 → s.panicMode = false →
        (patchJump s offset).hadError = true)) := by
  intro s hne
  obtain ⟨c, cs, hc⟩ : ∃ c cs, s.comps = c :: cs := by
    cases h : s.comps with
    | nil => exact absurd h hne
    | cons c cs => exact ⟨c, cs, rfl⟩
  constructor
  · intro op
    refine ⟨?_, ?_, ?_⟩ <;>
      simp [emitJump, emitByte, withComp, curCode, hc]
  · intro offset
    have hcur : curCode s = c.chunk.code := by simp [curCode, hc]
    rw [hcur]
    intro hoff
    have hcode : curCode (patchJump s offset) =
        (c.chunk.code.set offset
          (((c.chunk.code.length - offset - 2) >>> 8) &&& 255)).set
          (offset + 1) ((c.chunk.code.length - offset - 2) &&& 255) := by
      by_cases hbig : 65535 < c.chunk.code.length - offset - 2 <;>
        by_cases hp : s.panicMode = true <;>
        simp [patchJump, errorP, withComp, curCode, hc, hcur, hbig, hp]
    have herr : (patchJump s offset).hadError =
        (if 65535 < c.chunk.code.length - offset - 2 then
          (if s.panicMode then s.hadError else true)
         else s.hadError) := by
      by_cases hbig : 65535 < c.chunk.code.length - offset - 2 <;>
        by_cases hp : s.panicMode = true <;>
        simp [patchJump, errorP, withComp, curCode, hc, hcur, hbig, hp]
    refine ⟨hcode, ?_, ?_⟩
    · intro hle
      have hlt : offset < c.chunk.code.length := by omega
      have hhi : ((c.chunk.code.length - offset - 2) >>> 8) &&& 255 =
          (c.chunk.code.length - offset - 2) / 256 := by
        have h1 := Nat.shiftRight_eq_div_pow
          (c.chunk.code.length - offset - 2) 8
        have h2 := Nat.and_pow_two_sub_one_eq_mod
          ((c.chunk.code.length - offset - 2) >>> 8) 8
        norm_num at h1 h2
        omega
      have hlo : (c.chunk.code.length - offset - 2) &&& 255 =
          (c.chunk.code.length - offset - 2) % 256 := by
        have h2 := Nat.and_pow_two_sub_one_eq_mod
          (c.chunk.code.length - offset - 2) 8
        norm_num at h2
        omega
      refine ⟨?_, ?_, ?_⟩
      · rw [hcode, List.get?_set_ne _ _ (by omega), hhi,
          List.get?_set_eq_of_lt _ hlt]
      · rw [hcode, hlo, List.get?_set_eq_of_lt]
        simpa using by omega
      · rw [herr]
        simp [show ¬ 65535 < c.chunk.code.length - offset - 2 by omega]
    · intro hbig hp
      rw [herr]
      simp [hbig, hp]

/-- A concrete compiler state for the C8 witness: the current chunk holds
a jump at offset 0 followed by one byte, so `patchJump 1` writes the
distance 1. -/
def c8W : CState :=
  { heap := [], strings := emptyTable,
    comps := [⟨.script, 0, 0, none, ⟨[26, 255, 255, 4], [0, 0, 0, 0], []⟩,
      [], [], 0⟩],
    prev := eofTok, curTok := eofTok, toks := [],
    hadError := false, panicMode := false }

theorem c8_emit_patch_jump_witness :
    c8W.comps ≠ [] ∧ (1 : Nat) + 2 ≤ (curCode c8W).length ∧
    curCode (emitJump c8W opJump).2 =
      [26, 255, 255, 4, opJump, 255, 255] ∧
    (emitJump c8W opJump).1 = 5 ∧
    curCode (patchJump c8W 1) = [26, 0, 1, 4] ∧
    (patchJump c8W 1).hadError = false := by
  have hne : c8W.comps ≠ [] := by decide
  have h := c8_emit_patch_jump c8W hne
  have h1 := (h.1 opJump).1
  have h2 := (h.1 opJump).2.1
  have h3 := (h.2 1 (by decide)).1
  have h4 := ((h.2 1 (by decide)).2.1 (by decide)).2.2
  refine ⟨hne, by decide, ?_, ?_, ?_, ?_⟩
  · rw [h1]; decide
  · rw [h2]; decide
  · rw [h3]; decide
  · rw [h4]; rfl

/-! ## C9: OP_DIVIDE and division by zero -/

/-- C9: dispatching OP_DIVIDE errors ("Operands must be numbers.")
exactly when at least one operand is not a number; with two number
operands — a zero divisor included — it never errors and pushes the IEEE
quotient, which for division by zero is an infinity or NaN. -/
theorem c9_divide_no_zero_check (s : VMSt) (fr : Frame) (rest : List Frame)
    (fnRef arity upc : Nat) (closUps : List Nat) (chunk : Chunk)
    (nm : Option Nat) (va vb : Value)
    (hfr : s.frames = fr :: rest)
    (hclos : s.heap.get? fr.closure = some (.closure fnRef closUps))
    (hfn : s.heap.get? fnRef = some (.fn arity upc chunk nm))
    (hinstr : chunk.code.get? fr.ip = some opDivide)
    (ha : s.peekV 1 = some va) (hb : s.peekV 0 = some vb) :
    (∀ a b, va = .num a → vb = .num b →
      vmStep s = .next { s with
        stack := s.stack.dropLast.dropLast ++ [.num (a.div b)],
        frames := { fr with ip := fr.ip + 1 } :: rest }) ∧
    ((∀ a, va ≠ .num a) ∨ (∀ b, vb ≠ .num b) →
      vmStep s = .err { s with frames := { fr with ip := fr.ip + 1 } :: rest }
        .operandsMustBeNumbers) ∧
    (∀ q : ℚ, 0 < q → Dbl.div (.finite q) (.finite 0) = .inf) ∧
    (∀ q : ℚ, q < 0 → Dbl.div (.finite q) (.finite 0) = .ninf) ∧
    Dbl.div (.finite 0) (.finite 0) = .nan := by
  simp only [List.get?_eq_getElem?] at hclos hfn hinstr
  refine ⟨?_, ?_, ?_, ?_, by simp [Dbl.div]⟩
  · rintro a b rfl rfl
    simp [vmStep, hfr, hclos, hfn, hinstr, ha, hb, opDivide, opConstant,
      opNil, opTrue, opFalse, opPop, opGetLocal, opSetLocal, opGetGlobal,
      opDefineGlobal, opSetGlobal, opGetUpvalue, opSetUpvalue,
      opGetProperty, opSetProperty, opEqual, opGetSuper, opGreater, opLess,
      opAdd, opSubtract, opMultiply]
  · intro hno
    have hcase : (∃ a b, va = Value.num a ∧ vb = Value.num b) → False := by
      rintro ⟨a, b, rfl, rfl⟩
      rcases hno with h | h
      · exact h a rfl
      · exact h b rfl
    simp only [vmStep, hfr, hclos, hfn, hinstr, ha, hb]
    cases va <;> cases vb <;>
      simp_all [opDivide, opConstant, opNil, opTrue, opFalse, opPop,
        opGetLocal, opSetLocal, opGetGlobal, opDefineGlobal, opSetGlobal,
        opGetUpvalue, opSetUpvalue, opGetProperty, opSetProperty, opEqual,
        opGetSuper, opGreater, opLess, opAdd, opSubtract, opMultiply]
  · intro q hq
    simp [Dbl.div, hq, ne_of_gt hq]
  · intro q hq
    simp [Dbl.div, ne_of_lt hq, not_lt_of_lt hq, asymm hq]

/-- A concrete VM state for the C9 witness: about to divide 1 by 0. -/
def c9W : VMSt :=
  { heap := [.fn 0 0 ⟨[21], [0], []⟩ none, .closure 0 []],
    strings := emptyTable, globals := emptyTable,
    stack := [.num (.finite 1), .num (.finite 0)],
    frames := [⟨1, 0, 0⟩], openUpvalues := [], initString := none,
    output := "" }

theorem c9_divide_no_zero_check_witness :
    vmStep c9W = .next { c9W with
      stack := [.num .inf], frames := [⟨1, 1, 0⟩] } := by
  have h := (c9_divide_no_zero_check c9W ⟨1, 0, 0⟩ [] 0 0 0 []
    ⟨[21], [0], []⟩ none (.num (.finite 1)) (.num (.finite 0))
    rfl rfl rfl rfl rfl rfl).1 (.finite 1) (.finite 0) rfl rfl
  rw [h]
  decide

/-! ## C10: driver exit codes -/

/-- C10: two or more extra arguments exit 64 before anything is
interpreted; an unreadable file exits 74; a compile error 65; a runtime
error 70; success 0. -/
theorem c10_exit_codes (interp : String → Outcome)
    (fs : String → Option String) :
    (∀ (a b : String) (rest : List String),
        cloxMain interp fs (a :: b :: rest) = some 64) ∧
    (∀ path, fs path = none → cloxMain interp fs [path] = some 74) ∧
    (∀ path src, fs path = some src → interp src = .compileError →
        cloxMain interp fs [path] = some 65) ∧
    (∀ path src, fs path = some src → interp src = .runtimeError →
        cloxMain interp fs [path] = some 70) ∧
    (∀ path src, fs path = some src → interp src = .ok →
        cloxMain interp fs [path] = some 0) := by
  refine ⟨fun a b rest => rfl, ?_, ?_, ?_, ?_⟩ <;>
    · intros
      simp_all [cloxMain, runFileD, readFileD]

/-- The linked interpreter for the C10 witness (fuel 500 amply covers the
three tiny scripts). -/
def c10Interp : String → Outcome := fun src =>
  match interpretLox 500 500 src with
  | some (o, _) => o
  | none => .ok

/-- A three-file file system for the C10 witness. -/
def c10Fs : String → Option String := fun p =>
  if p = "ok.lox" then some "1;"
  else if p = "cerr.lox" then some ")"
  else if p = "rerr.lox" then some "print a;"
  else none

/-! ## C7: the open-upvalue list -/

/-- The open-upvalue-list invariant: every listed upvalue is open (its
`location` is a stack slot), and the slots strictly decrease along the
list — which also gives at most one open upvalue per slot. -/
def UpInv (h : Heap) (l : List Nat) : Prop :=
  (∀ u ∈ l, (upLoc h u).isSome) ∧
  l.Pairwise (fun a b => ∀ la lb, upLoc h a = some la → upLoc h b = some lb →
    lb < la)

theorem upLoc_isSome_lt {h : Heap} {u : Nat} (hs : (upLoc h u).isSome) :
    u < h.length := by
  by_contra hlt
  push_neg at hlt
  have hn : h.get? u = none := List.get?_eq_none.mpr hlt
  unfold upLoc at hs
  rw [hn] at hs
  simp at hs

theorem upLoc_append {h e : Heap} {u : Nat} (hu : u < h.length) :
    upLoc (h ++ e) u = upLoc h u := by
  unfold upLoc
  rw [List.get?_append hu]

theorem upLoc_set_ne {h : Heap} {v : HObj} {r u : Nat} (hne : r ≠ u) :
    upLoc (h.set r v) u = upLoc h u := by
  unfold upLoc
  rw [List.get?_set_ne _ _ hne]

theorem upLoc_concat_self (h : Heap) (i : Nat) :
    upLoc (h ++ [HObj.upvalue (.stackIdx i) .nil]) h.length = some i := by
  unfold upLoc
  rw [List.get?_concat_length]

theorem UpInv_tail {h : Heap} {u : Nat} {l : List Nat}
    (hi : UpInv h (u :: l)) : UpInv h l := by
  obtain ⟨h1, h2⟩ := hi
  exact ⟨fun w hw => h1 w (by simp [hw]), (List.pairwise_cons.mp h2).2⟩

theorem UpInv_head_not_mem {h : Heap} {u : Nat} {l : List Nat}
    (hi : UpInv h (u :: l)) : u ∉ l := by
  intro hu
  obtain ⟨h1, h2⟩ := hi
  have hs := h1 u (by simp)
  obtain ⟨lu, hlu⟩ := Option.isSome_iff_exists.mp hs
  exact absurd ((List.pairwise_cons.mp h2).1 u hu lu lu hlu hlu)
    (lt_irrefl lu)

theorem UpInv_append_heap {h e : Heap} {l : List Nat} (hi : UpInv h l) :
    UpInv (h ++ e) l := by
  obtain ⟨h1, h2⟩ := hi
  constructor
  · intro u hu
    rw [upLoc_append (upLoc_isSome_lt (h1 u hu))]
    exact h1 u hu
  · refine h2.imp_of_mem ?_
    intro a b ha hb hr la lb hla hlb
    rw [upLoc_append (upLoc_isSome_lt (h1 a ha))] at hla
    rw [upLoc_append (upLoc_isSome_lt (h1 b hb))] at hlb
    exact hr la lb hla hlb

theorem UpInv_set_not_mem {h : Heap} {l : List Nat} {r : Nat} {v : HObj}
    (hr : r ∉ l) (hi : UpInv h l) : UpInv (h.set r v) l := by
  obtain ⟨h1, h2⟩ := hi
  have hne : ∀ u ∈ l, r ≠ u := fun u hu he => hr (he ▸ hu)
  constructor
  · intro u hu
    rw [upLoc_set_ne (hne u hu)]
    exact h1 u hu
  · refine h2.imp_of_mem ?_
    intro a b ha hb hrr la lb hla hlb
    rw [upLoc_set_ne (hne a ha)] at hla
    rw [upLoc_set_ne (hne b hb)] at hlb
    exact hrr la lb hla hlb

/-- Heap updates at a slot that is not an open upvalue (a class, an
instance, a closed upvalue, a closure, a string) never disturb the open
list. -/
theorem UpInv_set_of_upLoc_none {h : Heap} {l : List Nat} {r : Nat}
    {v : HObj} (hn : upLoc h r = none) (hi : UpInv h l) :
    UpInv (h.set r v) l := by
  refine UpInv_set_not_mem (fun hr => ?_) hi
  have := hi.1 r hr
  simp [hn] at this

/-- C7 core, part 1 — the `captureUpvalue` specification: under the
invariant it preserves the invariant and returns an upvalue located at the
requested slot; when one already exists it is returned with heap and list
untouched; otherwise a fresh upvalue is allocated and spliced in at the
unique order-preserving position. -/
theorem captureUpvalue_spec :
    ∀ (l : List Nat) (h : Heap) (i : Nat), UpInv h l →
    ∀ r l' h', captureUpvalue h l i = (r, l', h') →
    (UpInv h' l' ∧ upLoc h' r = some i) ∧
    ((∃ u ∈ l, upLoc h u = some i) →
      h' = h ∧ l' = l ∧ r ∈ l ∧ upLoc h r = some i) ∧
    ((∀ u ∈ l, upLoc h u ≠ some i) →
      h' = h ++ [.upvalue (.stackIdx i) .nil] ∧ r = h.length ∧
      ∃ l1 l2, l = l1 ++ l2 ∧ l' = l1 ++ r :: l2 ∧
        (∀ u ∈ l1, ∃ lu, upLoc h u = some lu ∧ i < lu) ∧
        (∀ u ∈ l2, ∃ lu, upLoc h u = some lu ∧ lu < i)) := by
  intro l
  induction l with
  | nil =>
    intro h i _ r l' h' heq
    simp only [captureUpvalue, Prod.mk.injEq] at heq
    obtain ⟨rfl, rfl, rfl⟩ := heq
    refine ⟨⟨⟨?_, ?_⟩, ?_⟩, ?_, ?_⟩
    · intro u hu
      simp only [List.mem_singleton] at hu
      subst hu
      simp [upLoc_concat_self]
    · simp
    · exact upLoc_concat_self h i
    · rintro ⟨u, hu, -⟩
      simp at hu
    · intro _
      exact ⟨rfl, rfl, [], [], by simp, by simp, by simp, by simp⟩
  | cons u rest ih =>
    intro h i hinv r l' h' heq
    have hs := hinv.1 u (by simp)
    obtain ⟨lu, hlu⟩ := Option.isSome_iff_exists.mp hs
    have hrest : ∀ w ∈ rest, (upLoc h w).isSome :=
      fun w hw => hinv.1 w (by simp [hw])
    have hpair := (List.pairwise_cons.mp hinv.2).1
    rcases lt_trichotomy i lu with hlt | heqi | hgt
    · -- i < lu: walk past u
      obtain ⟨r0, rest0, h0, hrec⟩ :
          ∃ a b c, captureUpvalue h rest i = (a, b, c) := ⟨_, _, _, rfl⟩
      have hstep : captureUpvalue h (u :: rest) i = (r0, u :: rest0, h0) := by
        simp [captureUpvalue, hlu, hlt, hrec]
      rw [hstep] at heq
      simp only [Prod.mk.injEq] at heq
      obtain ⟨rfl, rfl, rfl⟩ := heq
      have ihh := ih h i (UpInv_tail hinv) _ _ _ hrec
      by_cases hex : ∃ w ∈ rest, upLoc h w = some i
      · obtain ⟨he1, he2, hrmem, hrloc⟩ := ihh.2.1 hex
        subst he1
        subst he2
        refine ⟨⟨hinv, hrloc⟩, ?_, ?_⟩
        · intro _
          exact ⟨rfl, rfl, by simp [hrmem], hrloc⟩
        · intro hall
          obtain ⟨w, hw, hwl⟩ := hex
          exact absurd hwl (hall w (by simp [hw]))
      · push_neg at hex
        obtain ⟨hh0, hr0, l1, l2, hsplit, hsplit', hl1, hl2⟩ :=
          ihh.2.2 hex
        subst hh0
        have hulu : upLoc (h ++ [HObj.upvalue (.stackIdx i) .nil]) u =
            some lu := by
          rw [upLoc_append (upLoc_isSome_lt hs)]
          exact hlu
        refine ⟨⟨?_, ?_⟩, ?_, ?_⟩
        · constructor
          · intro w hw
            rcases List.mem_cons.mp hw with rfl | hw
            · simp [hulu]
            · exact ihh.1.1.1 w hw
          · rw [List.pairwise_cons]
            refine ⟨?_, ihh.1.1.2⟩
            intro w hw la lb hla hlb
            rw [hulu] at hla
            have hela : la = lu := (Option.some_inj.mp hla).symm
            rw [hsplit'] at hw
            rcases List.mem_append.mp hw with hw1 | hw2
            · obtain ⟨lw, hlw, -⟩ := hl1 w hw1
              have hwr : w ∈ rest := by
                rw [hsplit]; exact List.mem_append.mpr (Or.inl hw1)
              rw [upLoc_append (upLoc_isSome_lt (hrest w hwr)), hlw] at hlb
              have helb : lb = lw := (Option.some_inj.mp hlb).symm
              have := hpair w hwr lu lw hlu hlw
              omega
            · rcases List.mem_cons.mp hw2 with rfl | hw2
              · rw [ihh.1.2] at hlb
                have helb : lb = i := (Option.some_inj.mp hlb).symm
                omega
              · obtain ⟨lw, hlw, -⟩ := hl2 w hw2
                have hwr : w ∈ rest := by
                  rw [hsplit]; exact List.mem_append.mpr (Or.inr hw2)
                rw [upLoc_append (upLoc_isSome_lt (hrest w hwr)), hlw]
                  at hlb
                have helb : lb = lw := (Option.some_inj.mp hlb).symm
                have := hpair w hwr lu lw hlu hlw
                omega
        · exact ihh.1.2
        · rintro ⟨w, hw, hwl⟩
          rcases List.mem_cons.mp hw with rfl | hw
          · rw [hlu] at hwl
            obtain heqq : lu = i := Option.some_inj.mp hwl
            omega
          · exact absurd hwl (hex w hw)
        · intro _
          refine ⟨rfl, hr0, u :: l1, l2, by simp [hsplit],
            by simp [hsplit'], ?_, hl2⟩
          intro w hw
          rcases List.mem_cons.mp hw with rfl | hw
          · exact ⟨lu, hlu, hlt⟩
          · exact hl1 w hw
    · -- lu = i: the existing upvalue is returned
      have hlui : upLoc h u = some i := by rw [heqi]; exact hlu
      have hstep : captureUpvalue h (u :: rest) i = (u, u :: rest, h) := by
        simp [captureUpvalue, hlu, heqi]
      rw [hstep] at heq
      simp only [Prod.mk.injEq] at heq
      obtain ⟨rfl, rfl, rfl⟩ := heq
      refine ⟨⟨hinv, hlui⟩, ?_, ?_⟩
      · intro _
        exact ⟨rfl, rfl, by simp, hlui⟩
      · intro hall
        exact absurd hlui (hall u (by simp))
    · -- lu < i: splice a fresh upvalue in front
      have hstep : captureUpvalue h (u :: rest) i =
          (h.length, h.length :: u :: rest,
           h ++ [.upvalue (.stackIdx i) .nil]) := by
        simp [captureUpvalue, hlu, show ¬ i < lu by omega,
          show ¬ lu = i by omega]
      rw [hstep] at heq
      simp only [Prod.mk.injEq] at heq
      obtain ⟨rfl, rfl, rfl⟩ := heq
      have hfresh := upLoc_concat_self h i
      have hkeep : ∀ w ∈ u :: rest,
          upLoc (h ++ [HObj.upvalue (.stackIdx i) .nil]) w = upLoc h w :=
        fun w hw => upLoc_append (upLoc_isSome_lt (hinv.1 w hw))
      refine ⟨⟨?_, ?_⟩, ?_, ?_⟩
      · constructor
        · intro w hw
          rcases List.mem_cons.mp hw with rfl | hw
          · simp [hfresh]
          · rw [hkeep w hw]
            exact hinv.1 w hw
        · rw [List.pairwise_cons]
          constructor
          · intro w hw la lb hla hlb
            rw [hfresh] at hla
            have hela : la = i := (Option.some_inj.mp hla).symm
            rw [hkeep w hw] at hlb
            rcases List.mem_cons.mp hw with rfl | hw
            · rw [hlu] at hlb
              have helb : lb = lu := (Option.some_inj.mp hlb).symm
              omega
            · obtain ⟨lw, hlw⟩ := Option.isSome_iff_exists.mp
                (hrest w hw)
              rw [hlw] at hlb
              have helb : lb = lw := (Option.some_inj.mp hlb).symm
              have := hpair w hw lu lw hlu hlw
              omega
          · refine hinv.2.imp_of_mem ?_
            intro a b ha hb hr la lb hla hlb
            rw [hkeep a ha] at hla
            rw [hkeep b hb] at hlb
            exact hr la lb hla hlb
      · exact hfresh
      · rintro ⟨w, hw, hwl⟩
        rcases List.mem_cons.mp hw with rfl | hw
        · rw [hlu] at hwl
          obtain heqq : lu = i := Option.some_inj.mp hwl
          omega
        · obtain ⟨lw, hlw⟩ := Option.isSome_iff_exists.mp (hrest w hw)
          rw [hlw] at hwl
          have hlwi : lw = i := Option.some_inj.mp hwl
          have := hpair w hw lu lw hlu hlw
          omega
      · intro _
        refine ⟨rfl, rfl, [], u :: rest, by simp, by simp, by simp, ?_⟩
        intro w hw
        rcases List.mem_cons.mp hw with rfl | hw
        · exact ⟨lu, hlu, hgt⟩
        · obtain ⟨lw, hlw⟩ := Option.isSome_iff_exists.mp (hrest w hw)
          have := hpair w hw lu lw hlu hlw
          exact ⟨lw, hlw, by omega⟩

/-- The heap cell behind an open upvalue. -/
theorem upLoc_some_get {h : Heap} {u lc : Nat} (hl : upLoc h u = some lc) :
    ∃ cv, h.get? u = some (.upvalue (.stackIdx lc) cv) := by
  unfold upLoc at hl
  cases hg : h.get? u with
  | none => rw [hg] at hl; simp at hl
  | some o =>
    rw [hg] at hl
    cases o with
    | upvalue loc cv =>
      cases loc with
      | stackIdx j =>
        simp only [Option.some_inj] at hl
        exact ⟨cv, by rw [hl]⟩
      | ownClosed => simp at hl
    | str a b => simp at hl
    | fn a b c d => simp at hl
    | native => simp at hl
    | closure a b => simp at hl
    | cls a b => simp at hl
    | inst a b => simp at hl
    | boundMethod a b => simp at hl

/-- C7 core, part 2 — the `closeUpvalues` specification: under the
invariant it removes exactly the upvalues whose location is ≥ `last` (a
prefix, by sortedness), closing each by copying the stack value at its
slot into its `closed` cell and retargeting `location` there; surviving
upvalues keep their locations (all < `last`), and no other heap entry
changes. -/
theorem closeUpvalues_spec :
    ∀ (l : List Nat) (h : Heap) (stk : List Value) (last : Nat),
    UpInv h l →
    ∀ h' l', closeUpvalues h l stk last = (h', l') →
    UpInv h' l' ∧
    ∃ pre, l = pre ++ l' ∧
      (∀ u ∈ pre, ∃ lc, upLoc h u = some lc ∧ last ≤ lc ∧
        h'.get? u = some (.upvalue .ownClosed (stk.getD lc .nil))) ∧
      (∀ u ∈ l', upLoc h' u = upLoc h u ∧
        ∃ lc, upLoc h u = some lc ∧ lc < last) ∧
      (∀ r, r ∉ pre → h'.get? r = h.get? r) := by
  intro l
  induction l with
  | nil =>
    intro h stk last _ h' l' heq
    simp only [closeUpvalues, Prod.mk.injEq] at heq
    obtain ⟨rfl, rfl⟩ := heq
    exact ⟨⟨by simp, by simp⟩, [], by simp, by simp, by simp, by simp⟩
  | cons u rest ih =>
    intro h stk last hinv h' l' heq
    have hs := hinv.1 u (by simp)
    obtain ⟨lc, hlc⟩ := Option.isSome_iff_exists.mp hs
    obtain ⟨cv, hg⟩ := upLoc_some_get hlc
    have hpair := (List.pairwise_cons.mp hinv.2).1
    have hnm : u ∉ rest := UpInv_head_not_mem hinv
    have hult : u < h.length := upLoc_isSome_lt hs
    by_cases hle : last ≤ lc
    · -- close u and continue
      have hstep : closeUpvalues h (u :: rest) stk last =
          closeUpvalues
            (h.set u (.upvalue .ownClosed (stk.getD lc .nil))) rest stk
            last := by
        simp only [closeUpvalues, hg]
        rw [if_pos hle]
      rw [hstep] at heq
      have hinv1 : UpInv
          (h.set u (.upvalue .ownClosed (stk.getD lc .nil))) rest :=
        UpInv_set_not_mem hnm (UpInv_tail hinv)
      obtain ⟨hinv', pre', hpre', hclosed', hsurv', hkeep'⟩ :=
        ih _ stk last hinv1 h' l' heq
    -- translate facts on the set-heap back to h
      have hsetne : ∀ w ∈ rest,
          upLoc (h.set u (.upvalue .ownClosed (stk.getD lc .nil))) w =
            upLoc h w := by
        intro w hw
        exact upLoc_set_ne (fun he => hnm (he ▸ hw))
      have hpresub : ∀ w ∈ pre', w ∈ rest := by
        intro w hw
        rw [hpre']
        exact List.mem_append.mpr (Or.inl hw)
      have hsurvsub : ∀ w ∈ l', w ∈ rest := by
        intro w hw
        rw [hpre']
        exact List.mem_append.mpr (Or.inr hw)
      refine ⟨hinv', u :: pre', by simp [hpre'], ?_, ?_, ?_⟩
      · intro w hw
        rcases List.mem_cons.mp hw with rfl | hw
        · refine ⟨lc, hlc, hle, ?_⟩
          have hun : w ∉ pre' := fun hx => hnm (hpresub w hx)
          rw [hkeep' w hun, List.get?_set_eq_of_lt _ hult]
        · obtain ⟨lc', hlc', hle', hcl'⟩ := hclosed' w hw
          rw [hsetne w (hpresub w hw)] at hlc'
          exact ⟨lc', hlc', hle', hcl'⟩
      · intro w hw
        obtain ⟨hl1, lc', hlc', hlt'⟩ := hsurv' w hw
        rw [hsetne w (hsurvsub w hw)] at hl1 hlc'
        exact ⟨hl1, lc', hlc', hlt'⟩
      · intro r hr
        have hr1 : r ∉ pre' := fun hx => hr (by simp [hx])
        have hru : r ≠ u := fun he => hr (by simp [he])
        rw [hkeep' r hr1, List.get?_set_ne _ _ (Ne.symm hru)]
    · -- stop: the head is already below the boundary
      have hstep : closeUpvalues h (u :: rest) stk last = (h, u :: rest) := by
        simp only [closeUpvalues, hg]
        rw [if_neg hle]
      rw [hstep] at heq
      simp only [Prod.mk.injEq] at heq
      obtain ⟨rfl, rfl⟩ := heq
      refine ⟨hinv, [], by simp, by simp, ?_, by simp⟩
      intro w hw
      rcases List.mem_cons.mp hw with rfl | hw
      · exact ⟨rfl, lc, hlc, by omega⟩
      · obtain ⟨lw, hlw⟩ := Option.isSome_iff_exists.mp
          (hinv.1 w (by simp [hw]))
        have := hpair w hw lc lw hlc hlw
        exact ⟨rfl, lw, hlw, by omega⟩

/-! ## C5: verification of the open-addressing table (table.c) -/

/-! Probe geometry helpers. -/

def probeSlot (cap hk d : Nat) : Nat := (hk % cap + d) % cap

def probeDist (cap hk j : Nat) : Nat := (j + cap - hk % cap) % cap

theorem probeSlot_lt {cap : Nat} (hcap : 0 < cap) (hk d : Nat) :
    probeSlot cap hk d < cap := Nat.mod_lt _ hcap

theorem probeSlot_succ (cap hk d : Nat) :
    probeSlot cap hk (d + 1) = (probeSlot cap hk d + 1) % cap := by
  unfold probeSlot
  conv_rhs => rw [Nat.mod_add_mod]
  rw [Nat.add_assoc]

theorem probeSlot_dist {cap : Nat} (hcap : 0 < cap) {hk j : Nat}
    (hj : j < cap) : probeSlot cap hk (probeDist cap hk j) = j := by
  unfold probeSlot probeDist
  rw [Nat.add_mod_mod]
  have hlt : hk % cap < cap := Nat.mod_lt _ hcap
  have he : hk % cap + (j + cap - hk % cap) = j + cap := by omega
  rw [he, Nat.add_mod_right, Nat.mod_eq_of_lt hj]

theorem probeDist_lt {cap : Nat} (hcap : 0 < cap) (hk j : Nat) :
    probeDist cap hk j < cap := Nat.mod_lt _ hcap

theorem probeSlot_inj {cap : Nat} (hcap : 0 < cap) {hk d1 d2 : Nat}
    (h1 : d1 < cap) (h2 : d2 < cap)
    (he : probeSlot cap hk d1 = probeSlot cap hk d2) : d1 = d2 := by
  unfold probeSlot at he
  have h3 : d1 ≡ d2 [MOD cap] :=
    Nat.ModEq.add_left_cancel' (hk % cap) he
  have h4 : d1 % cap = d2 % cap := h3
  rw [Nat.mod_eq_of_lt h1, Nat.mod_eq_of_lt h2] at h4
  exact h4

theorem probeSlot_zero (cap hk : Nat) : probeSlot cap hk 0 = hk % cap := by
  unfold probeSlot
  rw [Nat.add_zero, Nat.mod_mod_of_dvd _ dvd_rfl]

/-- The probe walk, started anywhere short of a key-bearing slot whose
intermediate slots are occupied by other keys or tombstones, ends at that
slot. -/
theorem findEntryAux_reaches_key (E : List Entry) (k hk j : Nat)
    (hcap : 0 < E.length) (hj : j < E.length)
    (ej : Entry) (hje : E.get? j = some ej) (hjk : ej.key = some k)
    (hbefore : ∀ d, d < probeDist E.length hk j →
      ∀ e, E.get? (probeSlot E.length hk d) = some e →
        e ≠ ⟨none, Value.nil⟩ ∧ e.key ≠ some k) :
    ∀ n, ∀ d tomb fuel, d + n = probeDist E.length hk j → n < fuel →
      findEntryAux E k fuel (probeSlot E.length hk d) tomb = some j := by
  intro n
  induction n with
  | zero =>
    intro d tomb fuel hd hf
    obtain ⟨fuel, rfl⟩ : ∃ m, fuel = m + 1 := ⟨fuel - 1, by omega⟩
    have hdd : d = probeDist E.length hk j := by omega
    subst hdd
    rw [probeSlot_dist hcap hj]
    unfold findEntryAux
    rw [List.get?_eq_getElem?] at hje
    simp [hje, hjk]
  | succ n ih =>
    intro d tomb fuel hd hf
    obtain ⟨fuel, rfl⟩ : ∃ m, fuel = m + 1 := ⟨fuel - 1, by omega⟩
    have hdlt : d < probeDist E.length hk j := by omega
    have hslt : probeSlot E.length hk d < E.length := probeSlot_lt hcap hk d
    obtain ⟨e, he⟩ : ∃ e, E.get? (probeSlot E.length hk d) = some e := by
      rw [List.get?_eq_get hslt]
      exact ⟨_, rfl⟩
    obtain ⟨hne, hnk⟩ := hbefore d hdlt e he
    cases hek : e.key with
    | some k2 =>
      have hk2 : ¬(k2 = k) := by
        intro hh
        exact hnk (by rw [hek, hh])
      simp only [findEntryAux, he, hek]
      rw [if_neg hk2, ← probeSlot_succ]
      exact ih (d + 1) tomb fuel (by omega) (by omega)
    | none =>
      have hvn : ¬(e.val = Value.nil) := by
        intro hv
        exact hne (by cases e with | mk a b => simp_all)
      simp only [findEntryAux, he, hek]
      rw [if_neg hvn, ← probeSlot_succ]
      exact ih (d + 1) _ fuel (by omega) (by omega)

/-- When the key occurs nowhere, whatever slot the probe reports is
unkeyed (a reusable empty or tombstone slot). -/
theorem findEntryAux_absent (E : List Entry) (k : Nat)
    (habs : ∀ i e, E.get? i = some e → e.key ≠ some k) :
    ∀ fuel idx tomb,
      (∀ t, tomb = some t → ∃ e, E.get? t = some e ∧ e.key = none) →
      ∀ j, findEntryAux E k fuel idx tomb = some j →
        ∃ e, E.get? j = some e ∧ e.key = none := by
  intro fuel
  induction fuel with
  | zero =>
    intro idx tomb htomb j hr
    simp [findEntryAux] at hr
  | succ fuel ih =>
    intro idx tomb htomb j hr
    cases he : E.get? idx with
    | none =>
      simp only [findEntryAux, he] at hr
      exact Option.noConfusion hr
    | some e =>
      cases hek : e.key with
      | some k2 =>
        have hk2 : ¬(k2 = k) := by
          intro hh
          exact habs idx e he (by rw [hek, hh])
        simp only [findEntryAux, he, hek] at hr
        rw [if_neg hk2] at hr
        exact ih _ tomb htomb j hr
      | none =>
        simp only [findEntryAux, he, hek] at hr
        by_cases hv : e.val = Value.nil
        · rw [if_pos hv] at hr
          cases htt : tomb with
          | none =>
            rw [htt] at hr
            simp at hr
            exact ⟨e, by rw [← hr]; exact he, hek⟩
          | some t =>
            rw [htt] at hr
            simp at hr
            obtain ⟨e2, he2, hk2⟩ := htomb t htt
            exact ⟨e2, by rw [← hr]; exact he2, hk2⟩
        · rw [if_neg hv] at hr
          refine ih _ _ ?_ j hr
          intro t ht
          simp only [Option.some_inj] at ht
          cases htt : tomb with
          | none => rw [htt] at ht; simp at ht; exact ⟨e, by rw [← ht]; exact he, hek⟩
          | some t2 =>
            rw [htt] at ht
            simp at ht
            obtain ⟨e2, he2, hk2⟩ := htomb t2 htt
            exact ⟨e2, by rw [← ht]; exact he2, hk2⟩

/-- The probe walk terminates (returns a slot) once some stopping slot —
an empty slot or the key itself — lies within the remaining fuel. -/
theorem findEntryAux_total (E : List Entry) (k hk : Nat)
    (hcap : 0 < E.length) :
    ∀ n, ∀ d tomb fuel,
      (∃ d2, d ≤ d2 ∧ d2 < d + n ∧
        ∃ e, E.get? (probeSlot E.length hk d2) = some e ∧
          (e = ⟨none, Value.nil⟩ ∨ e.key = some k)) →
      n ≤ fuel →
      (findEntryAux E k fuel (probeSlot E.length hk d) tomb).isSome := by
  intro n
  induction n with
  | zero =>
    intro d tomb fuel hstop hf
    obtain ⟨d2, h1, h2, -⟩ := hstop
    omega
  | succ n ih =>
    intro d tomb fuel hstop hf
    obtain ⟨fuel, rfl⟩ : ∃ m, fuel = m + 1 := ⟨fuel - 1, by omega⟩
    have hslt : probeSlot E.length hk d < E.length := probeSlot_lt hcap hk d
    obtain ⟨e, he⟩ : ∃ e, E.get? (probeSlot E.length hk d) = some e := by
      rw [List.get?_eq_get hslt]
      exact ⟨_, rfl⟩
    cases hek : e.key with
    | some k2 =>
      by_cases hk2 : k2 = k
      · simp only [findEntryAux, he, hek]
        rw [if_pos hk2]
        rfl
      · simp only [findEntryAux, he, hek]
        rw [if_neg hk2, ← probeSlot_succ]
        refine ih (d + 1) tomb fuel ?_ (by omega)
        obtain ⟨d2, h1, h2, e2, he2, hst⟩ := hstop
        refine ⟨d2, ?_, by omega, e2, he2, hst⟩
        rcases Nat.eq_or_lt_of_le h1 with h | h
        · subst h
          rw [he2] at he
          cases he
          rcases hst with h | h
          · rw [h] at hek; cases hek
          · rw [h] at hek
            simp only [Option.some_inj] at hek
            exact absurd hek.symm hk2
        · omega
    | none =>
      by_cases hv : e.val = Value.nil
      · simp only [findEntryAux, he, hek]
        rw [if_pos hv]
        rfl
      · simp only [findEntryAux, he, hek]
        rw [if_neg hv, ← probeSlot_succ]
        refine ih (d + 1) _ fuel ?_ (by omega)
        obtain ⟨d2, h1, h2, e2, he2, hst⟩ := hstop
        refine ⟨d2, ?_, by omega, e2, he2, hst⟩
        rcases Nat.eq_or_lt_of_le h1 with h | h
        · subst h
          rw [he2] at he
          cases he
          rcases hst with h | h
          · rw [h] at hv; simp at hv
          · rw [h] at hek; cases hek
        · omega

/-- Lockstep re-probe: after writing the (previously absent) key into the
unkeyed slot the original probe reported, probing again finds exactly that
slot. -/
theorem findEntryAux_refind (E : List Entry) (k i : Nat) (v : Value)
    (habs : ∀ i2 e, E.get? i2 = some e → e.key ≠ some k)
    (ei : Entry) (hie : E.get? i = some ei) (hik : ei.key = none) :
    ∀ fuel idx tomb, tomb ≠ some i →
      findEntryAux E k fuel idx tomb = some i →
      findEntryAux (E.set i ⟨some k, v⟩) k fuel idx tomb = some i := by
  intro fuel
  induction fuel with
  | zero =>
    intro idx tomb htne hr
    simp [findEntryAux] at hr
  | succ fuel ih =>
    intro idx tomb htne hr
    by_cases hidx : idx = i
    · subst hidx
      have hset : (E.set idx ⟨some k, v⟩).get? idx = some ⟨some k, v⟩ := by
        rw [List.get?_set_eq_of_lt]
        exact (List.get?_eq_some.mp hie).1
      rw [List.get?_eq_getElem?] at hset
      simp [findEntryAux, hset]
    · have hset : (E.set i ⟨some k, v⟩).get? idx = E.get? idx :=
        List.get?_set_ne _ _ (by omega)
      cases he : E.get? idx with
      | none =>
        simp only [findEntryAux, he] at hr
        exact Option.noConfusion hr
      | some e =>
        cases hek : e.key with
        | some k2 =>
          have hk2 : ¬(k2 = k) := by
            intro hh
            exact habs idx e he (by rw [hek, hh])
          simp only [findEntryAux, he, hek] at hr
          rw [if_neg hk2] at hr
          have hr2 := ih _ tomb htne hr
          simp only [findEntryAux, hset, he, hek]
          rw [if_neg hk2]
          simpa using hr2
        | none =>
          simp only [findEntryAux, he, hek] at hr
          by_cases hv : e.val = Value.nil
          · rw [if_pos hv] at hr
            cases htt : tomb with
            | none =>
              rw [htt] at hr
              simp at hr
              exact absurd rfl (by rw [hr] at hidx; exact hidx)
            | some t =>
              rw [htt] at hr
              simp at hr
              rw [htt] at htne
              simp at htne
              exact absurd hr htne
          · rw [if_neg hv] at hr
            have htne2 : some (tomb.getD idx) ≠ some i := by
              cases htt : tomb with
              | none => simpa using hidx
              | some t =>
                rw [htt] at htne
                simpa using fun hh => htne (by rw [hh])
            have hr2 := ih _ _ htne2 hr
            simp only [findEntryAux, hset, he, hek]
            rw [if_neg hv]
            simpa using hr2

def liveSlots (E : List Entry) : Nat :=
  (E.filter (fun e => e.key.isSome)).length

/-- Well-formedness of an open-addressing table, the operating invariants
of table.c: every slot is live, truly empty, or the tombstone written by
tableDelete; keys are unique; the probe path from a key's home slot to its
actual slot never crosses a truly empty slot; at least one truly empty
slot exists (so probes terminate); and count is positive whenever any live
or tombstone slot exists (count tracks live + tombstone slots). -/
def TableWF (hf : Nat → Nat) (t : Table) : Prop :=
  (t.entries = [] ∧ t.count = 0) ∨
  (0 < t.entries.length ∧
   (∀ i e, t.entries.get? i = some e →
     e.key.isSome = true ∨ e = ⟨none, .nil⟩ ∨ e = ⟨none, .bool true⟩) ∧
   (∀ i j ei ej kk, t.entries.get? i = some ei →
     t.entries.get? j = some ej →
     ei.key = some kk → ej.key = some kk → i = j) ∧
   (∀ j e kk, t.entries.get? j = some e → e.key = some kk →
     ∀ d, d < probeDist t.entries.length (hf kk) j →
       ∀ e2, t.entries.get? (probeSlot t.entries.length (hf kk) d) = some e2 →
         e2 ≠ ⟨none, .nil⟩) ∧
   (∃ i, t.entries.get? i = some ⟨none, .nil⟩) ∧
   ((∃ i e, t.entries.get? i = some e ∧
      (e.key.isSome = true ∨ e.val ≠ .nil)) → 0 < t.count))

/-- In a well-formed table, a live key is found by `tableGet` with its
stored value. -/
theorem tableGet_present {hf : Nat → Nat} {t : Table} {k j : Nat}
    {ej : Entry} (hwf : TableWF hf t)
    (hj : t.entries.get? j = some ej) (hjk : ej.key = some k) :
    tableGet hf t k = some ej.val := by
  rcases hwf with ⟨hnil, -⟩ | ⟨hcap, hshape, huniq, hpath, hemp, hcnt⟩
  · rw [hnil] at hj
    simp at hj
  · have hjlt : j < t.entries.length := (List.get?_eq_some.mp hj).1
    have hc0 : ¬(t.count = 0) := by
      have := hcnt ⟨j, ej, hj, Or.inl (by rw [hjk]; rfl)⟩
      omega
    have hfind : findEntry t.entries k (hf k) = some j := by
      unfold findEntry
      rw [← probeSlot_zero t.entries.length (hf k)]
      refine findEntryAux_reaches_key t.entries k (hf k) j hcap hjlt ej hj
        hjk ?_ (probeDist t.entries.length (hf k) j) 0 none
        t.entries.length (by omega) (probeDist_lt hcap _ _)
      intro d hd e2 he2
      refine ⟨hpath j ej k hj hjk d hd e2 he2, ?_⟩
      intro hk2
      have := huniq _ j e2 ej k he2 hj hk2 hjk
      have hdj : probeSlot t.entries.length (hf k) d = j := this
      rw [← @probeSlot_dist t.entries.length hcap (hf k) j hjlt] at hdj
      have := probeSlot_inj hcap (by
        exact lt_trans hd (probeDist_lt hcap _ _)) (probeDist_lt hcap _ _)
        hdj
      omega
    obtain ⟨ejk, ejv⟩ := ej
    simp only [Option.some_inj] at hjk
    subst hjk
    unfold tableGet
    rw [if_neg hc0]
    simp only [hfind, hj]

/-- A key that occurs in no slot is not found. -/
theorem tableGet_absent {hf : Nat → Nat} {t : Table} {k : Nat}
    (habs : ∀ j e, t.entries.get? j = some e → e.key ≠ some k) :
    tableGet hf t k = none := by
  unfold tableGet
  by_cases hc0 : t.count = 0
  · rw [if_pos hc0]
  · rw [if_neg hc0]
    cases hfind : findEntry t.entries k (hf k) with
    | none => rfl
    | some j =>
      obtain ⟨e, he, hek⟩ := findEntryAux_absent t.entries k habs
        t.entries.length _ none (by intro t ht; cases ht) j hfind
      obtain ⟨ek, ev⟩ := e
      simp only at hek
      subst hek
      simp only [hfind, he]

/-- In a tombstone-free table the probe stops at the first empty or
matching slot, and every earlier slot on the walk carries some other key. -/
theorem findEntryAux_noTomb (E : List Entry) (k hk : Nat)
    (hcap : 0 < E.length)
    (hnt : ∀ i e, E.get? i = some e →
      e.key.isSome = true ∨ e = ⟨none, Value.nil⟩) :
    ∀ fuel d i,
      findEntryAux E k fuel (probeSlot E.length hk d) none = some i →
      ∃ di, d ≤ di ∧ di < d + fuel ∧ i = probeSlot E.length hk di ∧
        (∃ e, E.get? i = some e ∧ (e = ⟨none, Value.nil⟩ ∨ e.key = some k)) ∧
        ∀ d2, d ≤ d2 → d2 < di →
          ∃ e k2, E.get? (probeSlot E.length hk d2) = some e ∧
            e.key = some k2 ∧ k2 ≠ k := by
  intro fuel
  induction fuel with
  | zero =>
    intro d i hr
    simp [findEntryAux] at hr
  | succ fuel ih =>
    intro d i hr
    have hslt : probeSlot E.length hk d < E.length := probeSlot_lt hcap hk d
    obtain ⟨e, he⟩ : ∃ e, E.get? (probeSlot E.length hk d) = some e := by
      rw [List.get?_eq_get hslt]
      exact ⟨_, rfl⟩
    rcases hnt _ e he with hlive | hempty
    · obtain ⟨k2, hk2⟩ : ∃ k2, e.key = some k2 := by
        cases hek : e.key with
        | none => rw [hek] at hlive; cases hlive
        | some k2 => exact ⟨k2, rfl⟩
      by_cases heq : k2 = k
      · subst heq
        have he2 := he
        rw [List.get?_eq_getElem?] at he2
        simp [findEntryAux, he2, hk2] at hr
        have hi : i = probeSlot E.length hk d := by
          first
          | exact hr.symm
          | exact hr
        subst hi
        exact ⟨d, le_refl d, by omega, rfl, ⟨e, he, Or.inr hk2⟩,
          fun d2 h1 h2 => absurd h2 (by omega)⟩
      · simp only [findEntryAux, he, hk2] at hr
        rw [if_neg heq, ← probeSlot_succ] at hr
        obtain ⟨di, hd1, hd2, hdi, hstop, hpre⟩ := ih (d + 1) i hr
        refine ⟨di, by omega, by omega, hdi, hstop, ?_⟩
        intro d2 h1 h2
        rcases Nat.eq_or_lt_of_le h1 with h | h
        · subst h
          exact ⟨e, k2, he, hk2, heq⟩
        · exact hpre d2 (by omega) h2
    · subst hempty
      have he2 := he
      rw [List.get?_eq_getElem?] at he2
      simp [findEntryAux, he2] at hr
      have hi : i = probeSlot E.length hk d := by
        first
        | exact hr.symm
        | exact hr
      subst hi
      exact ⟨d, le_refl d, by omega, rfl, ⟨_, he, Or.inl rfl⟩,
        fun d2 h1 h2 => absurd h2 (by omega)⟩

theorem exists_empty_of_liveSlots_lt {E : List Entry}
    (hnt : ∀ i e, E.get? i = some e →
      e.key.isSome = true ∨ e = ⟨none, Value.nil⟩)
    (hlt : liveSlots E < E.length) :
    ∃ i, E.get? i = some ⟨none, Value.nil⟩ := by
  obtain ⟨e, hmem, hnk⟩ : ∃ e ∈ E, ¬(e.key.isSome = true) := by
    by_contra hall
    push_neg at hall
    have hfe : E.filter (fun e => e.key.isSome) = E :=
      List.filter_eq_self.mpr (by intro a ha; simpa using hall a ha)
    unfold liveSlots at hlt
    rw [hfe] at hlt
    omega
  obtain ⟨i, hi⟩ := List.get?_of_mem hmem
  rcases hnt i e hi with h | h
  · exact absurd h hnk
  · exact ⟨i, by rw [hi, h]⟩

theorem liveSlots_pos_of_live {E : List Entry} {i : Nat} {e : Entry}
    (hi : E.get? i = some e) (hk : e.key.isSome = true) : 0 < liveSlots E := by
  have hmem : e ∈ E := List.get?_mem hi
  have : e ∈ E.filter (fun e => e.key.isSome) :=
    List.mem_filter.mpr ⟨hmem, hk⟩
  unfold liveSlots
  exact List.length_pos_of_mem this

theorem liveSlots_set_fresh :
    ∀ (E : List Entry) (i : Nat) (e : Entry) (k : Nat) (v : Value),
    E.get? i = some e → e.key = none →
    liveSlots (E.set i ⟨some k, v⟩) = liveSlots E + 1 := by
  intro E
  induction E with
  | nil =>
    intro i e k v hi hk
    simp at hi
  | cons a tl ih =>
    intro i e k v hi hk
    cases i with
    | zero =>
      simp only [List.get?] at hi
      simp only [Option.some_inj] at hi
      subst hi
      simp [liveSlots, List.filter_cons, hk]
    | succ i =>
      simp only [List.get?] at hi
      have := ih i e k v hi hk
      simp only [List.set]
      simp only [liveSlots, List.filter_cons] at this ⊢
      cases hak : a.key.isSome <;> simp [hak] at this ⊢ <;> omega

def extendKeys (keys : Nat → Option Value) (es : List Entry) :
    Nat → Option Value :=
  es.foldl
    (fun f e =>
      match e.key with
      | some k => fun kk => if kk = k then some e.val else f kk
      | none => f) keys

/-- Invariant carried through the `adjustCapacity` rebuild fold. -/
def RInv (hf : Nat → Nat) (capN : Nat) (keys : Nat → Option Value)
    (acc : Table) : Prop :=
  acc.entries.length = capN ∧
  (∀ i e, acc.entries.get? i = some e →
    e.key.isSome = true ∨ e = ⟨none, .nil⟩) ∧
  (∀ i j ei ej kk, acc.entries.get? i = some ei →
    acc.entries.get? j = some ej → ei.key = some kk → ej.key = some kk →
    i = j) ∧
  (∀ j e kk, acc.entries.get? j = some e → e.key = some kk →
    ∀ d, d < probeDist capN (hf kk) j →
      ∀ e2, acc.entries.get? (probeSlot capN (hf kk) d) = some e2 →
        e2 ≠ ⟨none, .nil⟩) ∧
  acc.count = liveSlots acc.entries ∧
  (∀ kk vv, (∃ j ej, acc.entries.get? j = some ej ∧ ej.key = some kk ∧
    ej.val = vv) ↔ keys kk = some vv)

theorem rebuild_fold (hf : Nat → Nat) (capN : Nat) :
    ∀ (es : List Entry) (acc : Table) (keys : Nat → Option Value),
    RInv hf capN keys acc →
    acc.count + liveSlots es < capN →
    (∀ e ∈ es, ∀ kk, e.key = some kk → keys kk = none) →
    List.Pairwise (fun a b => ∀ kk, a.key = some kk → b.key ≠ some kk) es →
    RInv hf capN (extendKeys keys es)
      (es.foldl (fun acc e =>
        match e.key with
        | none => acc
        | some k =>
          match findEntry acc.entries k (hf k) with
          | none => acc
          | some i => ⟨acc.count + 1, acc.entries.set i ⟨some k, e.val⟩⟩)
        acc) := by
  intro es
  induction es with
  | nil =>
    intro acc keys hinv hcnt hun hpw
    simpa [extendKeys] using hinv
  | cons e tl ih =>
    intro acc keys hinv hcnt hun hpw
    obtain ⟨hlen, hshape, huniq, hpath, hcount, hview⟩ := hinv
    cases hek : e.key with
    | none =>
      have hlive : liveSlots (e :: tl) = liveSlots tl := by
        simp [liveSlots, List.filter_cons, hek]
      simp only [List.foldl, hek]
      have hext : extendKeys keys (e :: tl) = extendKeys keys tl := by
        simp [extendKeys, hek]
      rw [hext]
      exact ih acc keys ⟨hlen, hshape, huniq, hpath, hcount, hview⟩
        (by omega) (fun e2 he2 => hun e2 (List.mem_cons_of_mem _ he2))
        (List.pairwise_cons.mp hpw).2
    | some k =>
      have hlive : liveSlots (e :: tl) = liveSlots tl + 1 := by
        simp [liveSlots, List.filter_cons, hek]
      have hLpos : 0 < acc.entries.length := by omega
      have habs : ∀ j e2, acc.entries.get? j = some e2 →
          e2.key ≠ some k := by
        intro j e2 hj hk2
        have hv := (hview k e2.val).mp ⟨j, e2, hj, hk2, rfl⟩
        have hnone := hun e (List.mem_cons_self e tl) k hek
        rw [hnone] at hv
        cases hv
      obtain ⟨ie, hie⟩ := exists_empty_of_liveSlots_lt hshape (by omega)
      have hielt : ie < acc.entries.length := (List.get?_eq_some.mp hie).1
      have htotal : (findEntry acc.entries k (hf k)).isSome := by
        unfold findEntry
        rw [← probeSlot_zero acc.entries.length (hf k)]
        refine findEntryAux_total acc.entries k (hf k) hLpos
          acc.entries.length 0 none acc.entries.length
          ⟨probeDist acc.entries.length (hf k) ie, by omega,
           ?_, ⟨⟨none, .nil⟩, ?_, Or.inl rfl⟩⟩ (le_refl _)
        · have := probeDist_lt hLpos (hf k) ie
          omega
        · rw [probeSlot_dist hLpos hielt]
          exact hie
      obtain ⟨i, hfind⟩ := Option.isSome_iff_exists.mp htotal
      have hfindaux : findEntryAux acc.entries k acc.entries.length
          (probeSlot acc.entries.length (hf k) 0) none = some i := by
        rw [probeSlot_zero]
        unfold findEntry at hfind
        exact hfind
      obtain ⟨di, -, hdiL, hdi, ⟨estop, hestop, hstopcase⟩, hpre⟩ :=
        findEntryAux_noTomb acc.entries k (hf k) hLpos hshape
          acc.entries.length 0 i hfindaux
      have hempty : estop = ⟨none, Value.nil⟩ := by
        rcases hstopcase with h | h
        · exact h
        · exact absurd h (habs i estop hestop)
      subst hempty
      have hilt : i < acc.entries.length := (List.get?_eq_some.mp hestop).1
      have hdiL2 : di < acc.entries.length := by omega
      have hdieq : probeDist acc.entries.length (hf k) i = di := by
        have h2 : probeSlot acc.entries.length (hf k)
            (probeDist acc.entries.length (hf k) i) = i :=
          probeSlot_dist hLpos hilt
        exact probeSlot_inj hLpos (probeDist_lt hLpos _ _) hdiL2
          (h2.trans hdi)
      simp only [List.foldl, hek, hfind]
      have hext : extendKeys keys (e :: tl) =
          extendKeys (fun kk => if kk = k then some e.val else keys kk) tl := by
        simp [extendKeys, hek]
      rw [hext]
      refine ih ⟨acc.count + 1, acc.entries.set i ⟨some k, e.val⟩⟩ _
        ⟨?_, ?_, ?_, ?_, ?_, ?_⟩ ?_ ?_ (List.pairwise_cons.mp hpw).2
      · simpa using hlen
      · intro i2 e2 h2
        by_cases hi2 : i2 = i
        · subst hi2
          rw [List.get?_set_eq_of_lt _ hilt] at h2
          simp only [Option.some_inj] at h2
          subst h2
          simp
        · rw [List.get?_set_ne _ _ (fun hh => hi2 hh.symm)] at h2
          exact hshape i2 e2 h2
      · intro i2 j2 ei ej kk h2 h3 hki hkj
        by_cases hi2 : i2 = i <;> by_cases hj2 : j2 = i
        · rw [hi2, hj2]
        · subst hi2
          rw [List.get?_set_eq_of_lt _ hilt] at h2
          simp only [Option.some_inj] at h2
          subst h2
          simp only at hki
          rw [List.get?_set_ne _ _ (fun hh => hj2 hh.symm)] at h3
          simp only [Option.some_inj] at hki
          subst hki
          exact absurd hkj (habs j2 ej h3)
        · subst hj2
          rw [List.get?_set_eq_of_lt _ hilt] at h3
          simp only [Option.some_inj] at h3
          subst h3
          simp only at hkj
          rw [List.get?_set_ne _ _ (fun hh => hi2 hh.symm)] at h2
          simp only [Option.some_inj] at hkj
          subst hkj
          exact absurd hki (habs i2 ei h2)
        · rw [List.get?_set_ne _ _ (fun hh => hi2 hh.symm)] at h2
          rw [List.get?_set_ne _ _ (fun hh => hj2 hh.symm)] at h3
          exact huniq i2 j2 ei ej kk h2 h3 hki hkj
      · intro j2 e2 kk hj2 hkk d hd e3 he3
        rw [← hlen] at hd
        by_cases hsl : probeSlot acc.entries.length (hf kk) d = i
        · rw [← hlen, hsl, List.get?_set_eq_of_lt _ hilt] at he3
          simp only [Option.some_inj] at he3
          subst he3
          intro hh
          cases hh
        · rw [← hlen, List.get?_set_ne _ _ (fun hh => hsl hh.symm)] at he3
          by_cases hj2i : j2 = i
          · subst hj2i
            rw [List.get?_set_eq_of_lt _ hilt] at hj2
            simp only [Option.some_inj] at hj2
            subst hj2
            simp only [Option.some_inj] at hkk
            subst hkk
            rw [hdieq] at hd
            obtain ⟨eo, k2, heo, hk2o, -⟩ := hpre d (by omega) (by omega)
            rw [heo] at he3
            simp only [Option.some_inj] at he3
            subst he3
            intro hh
            rw [hh] at hk2o
            cases hk2o
          · rw [List.get?_set_ne _ _ (fun hh => hj2i hh.symm)] at hj2
            rw [hlen] at hd he3
            exact hpath j2 e2 kk hj2 hkk d hd e3 he3
      · show acc.count + 1 = liveSlots (acc.entries.set i ⟨some k, e.val⟩)
        rw [liveSlots_set_fresh acc.entries i ⟨none, Value.nil⟩ k e.val
          hestop rfl]
        omega
      · intro kk vv
        constructor
        · rintro ⟨j2, ej, hj2, hkk, hval⟩
          by_cases hj2i : j2 = i
          · subst hj2i
            rw [List.get?_set_eq_of_lt _ hilt] at hj2
            simp only [Option.some_inj] at hj2
            subst hj2
            simp only at hkk hval
            simp only [Option.some_inj] at hkk
            subst hkk
            simp [← hval]
          · rw [List.get?_set_ne _ _ (fun hh => hj2i hh.symm)] at hj2
            have hne : kk ≠ k := by
              intro hh
              subst hh
              exact absurd hkk (habs j2 ej hj2)
            simp only [if_neg hne]
            exact (hview kk vv).mp ⟨j2, ej, hj2, hkk, hval⟩
        · intro hkv
          by_cases hkk : kk = k
          · rw [hkk] at hkv
            simp at hkv
            refine ⟨i, ⟨some k, e.val⟩, List.get?_set_eq_of_lt _ hilt,
              by rw [hkk], ?_⟩
            simp only
            first
            | exact hkv
            | exact hkv.symm
          · simp only [if_neg hkk] at hkv
            obtain ⟨j2, ej, hj2, hkj, hval⟩ := (hview kk vv).mpr hkv
            have hj2i : j2 ≠ i := by
              intro hh
              subst hh
              rw [hestop] at hj2
              simp only [Option.some_inj] at hj2
              subst hj2
              cases hkj
            exact ⟨j2, ej, by
              rw [List.get?_set_ne _ _ (fun hh => hj2i hh.symm)]
              exact hj2, hkj, hval⟩
      · show acc.count + 1 + liveSlots tl < capN
        omega
      · intro e2 he2 kk hkk2
        by_cases hkk : kk = k
        · rw [hkk] at hkk2
          exact absurd hkk2 ((List.pairwise_cons.mp hpw).1 e2 he2 k hek)
        · simp only [if_neg hkk]
          exact hun e2 (List.mem_cons_of_mem _ he2) kk hkk2

theorem extendKeys_spec :
    ∀ (es : List Entry) (keys : Nat → Option Value),
    List.Pairwise (fun a b => ∀ kk, a.key = some kk → b.key ≠ some kk) es →
    (∀ e ∈ es, ∀ kk, e.key = some kk → keys kk = none) →
    ∀ kk vv, extendKeys keys es kk = some vv ↔
      ((∃ e ∈ es, e.key = some kk ∧ e.val = vv) ∨ keys kk = some vv) := by
  intro es
  induction es with
  | nil =>
    intro keys hpw hun kk vv
    simp [extendKeys]
  | cons e tl ih =>
    intro keys hpw hun kk vv
    cases hek : e.key with
    | none =>
      have hext : extendKeys keys (e :: tl) = extendKeys keys tl := by
        simp [extendKeys, hek]
      rw [hext]
      rw [ih keys (List.pairwise_cons.mp hpw).2
        (fun e2 he2 => hun e2 (List.mem_cons_of_mem _ he2)) kk vv]
      constructor
      · rintro (⟨e2, he2, hk2, hv2⟩ | h)
        · exact Or.inl ⟨e2, List.mem_cons_of_mem _ he2, hk2, hv2⟩
        · exact Or.inr h
      · rintro (⟨e2, he2, hk2, hv2⟩ | h)
        · rcases List.mem_cons.mp he2 with h2 | h2
          · subst h2
            rw [hek] at hk2
            cases hk2
          · exact Or.inl ⟨e2, h2, hk2, hv2⟩
        · exact Or.inr h
    | some k =>
      have hext : extendKeys keys (e :: tl) =
          extendKeys (fun kk => if kk = k then some e.val else keys kk)
            tl := by
        simp [extendKeys, hek]
      rw [hext]
      have hun2 : ∀ e2 ∈ tl, ∀ kk, e2.key = some kk →
          (fun kk => if kk = k then some e.val else keys kk) kk = none := by
        intro e2 he2 kk2 hkk2
        by_cases hk2 : kk2 = k
        · rw [hk2] at hkk2
          exact absurd hkk2 ((List.pairwise_cons.mp hpw).1 e2 he2 k hek)
        · simp only [if_neg hk2]
          exact hun e2 (List.mem_cons_of_mem _ he2) kk2 hkk2
      rw [ih _ (List.pairwise_cons.mp hpw).2 hun2 kk vv]
      by_cases hkk : kk = k
      · subst hkk
        constructor
        · rintro (⟨e2, he2, hk2, hv2⟩ | h)
          · exact absurd hk2 ((List.pairwise_cons.mp hpw).1 e2 he2 kk hek)
          · simp at h
            refine Or.inl ⟨e, List.mem_cons_self e tl, hek, ?_⟩
            first
            | exact h
            | exact h.symm
        · rintro (⟨e2, he2, hk2, hv2⟩ | h)
          · rcases List.mem_cons.mp he2 with h2 | h2
            · subst h2
              refine Or.inr ?_
              simp [hv2]
            · exact absurd hk2
                ((List.pairwise_cons.mp hpw).1 e2 h2 kk hek)
          · rw [hun e (List.mem_cons_self e tl) kk hek] at h
            cases h
      · constructor
        · rintro (⟨e2, he2, hk2, hv2⟩ | h)
          · exact Or.inl ⟨e2, List.mem_cons_of_mem _ he2, hk2, hv2⟩
          · simp [hkk] at h
            exact Or.inr h
        · rintro (⟨e2, he2, hk2, hv2⟩ | h)
          · rcases List.mem_cons.mp he2 with h2 | h2
            · subst h2
              rw [hek] at hk2
              simp only [Option.some_inj] at hk2
              exact absurd hk2.symm hkk
            · exact Or.inl ⟨e2, h2, hk2, hv2⟩
          · refine Or.inr ?_
            simpa [hkk] using h

theorem rebuild_count (hf : Nat → Nat) :
    ∀ (es : List Entry) (acc : Table),
    (es.foldl (fun acc e =>
      match e.key with
      | none => acc
      | some k =>
        match findEntry acc.entries k (hf k) with
        | none => acc
        | some i => ⟨acc.count + 1, acc.entries.set i ⟨some k, e.val⟩⟩)
      acc).count ≤ acc.count + liveSlots es := by
  intro es
  induction es with
  | nil =>
    intro acc
    simp
  | cons e tl ih =>
    intro acc
    cases hek : e.key with
    | none =>
      have hlive : liveSlots (e :: tl) = liveSlots tl := by
        simp [liveSlots, List.filter_cons, hek]
      simp only [List.foldl, hek]
      have := ih acc
      omega
    | some k =>
      have hlive : liveSlots (e :: tl) = liveSlots tl + 1 := by
        simp [liveSlots, List.filter_cons, hek]
      simp only [List.foldl, hek]
      cases hfind : findEntry acc.entries k (hf k) with
      | none =>
        simp only [hfind]
        have := ih acc
        omega
      | some i =>
        simp only [hfind]
        have := ih ⟨acc.count + 1, acc.entries.set i ⟨some k, e.val⟩⟩
        simp only at this
        omega

theorem liveSlots_replicate (n : Nat) :
    liveSlots (List.replicate n (⟨none, Value.nil⟩ : Entry)) = 0 := by
  induction n with
  | zero => rfl
  | succ n ih => simpa [liveSlots, List.replicate, List.filter_cons]
      using ih

theorem pairwise_keys_of_uniq {E : List Entry}
    (huniq : ∀ i j ei ej kk, E.get? i = some ei → E.get? j = some ej →
      ei.key = some kk → ej.key = some kk → i = j) :
    List.Pairwise (fun a b => ∀ kk, a.key = some kk → b.key ≠ some kk) E := by
  rw [List.pairwise_iff_get]
  intro i j hij
  intro kk hki hkj
  have h1 : E.get? i = some (E.get i) := List.get?_eq_get i.isLt
  have h2 : E.get? j = some (E.get j) := List.get?_eq_get j.isLt
  have := huniq i j _ _ kk h1 h2 hki hkj
  omega

/-- `adjustCapacity` to a strictly larger capacity preserves
well-formedness and the key-value view. -/
theorem adjustCapacity_spec (hf : Nat → Nat) (t : Table) (capN : Nat)
    (hwf : TableWF hf t) (hlt : liveSlots t.entries < capN) :
    TableWF hf (adjustCapacity hf t capN) ∧
    (∀ k, tableGet hf (adjustCapacity hf t capN) k = tableGet hf t k) := by
  have hcapN : 0 < capN := by omega
  -- slot-level uniqueness of t (degenerate for the empty table)
  have huniqT : ∀ i j ei ej kk, t.entries.get? i = some ei →
      t.entries.get? j = some ej → ei.key = some kk → ej.key = some kk →
      i = j := by
    rcases hwf with ⟨hnil, -⟩ | ⟨-, -, huniq, -⟩
    · intro i j ei ej kk hi
      rw [hnil] at hi
      simp at hi
    · exact huniq
  have hpw := pairwise_keys_of_uniq huniqT
  have hinv0 : RInv hf capN (fun _ => none)
      ⟨0, List.replicate capN ⟨none, Value.nil⟩⟩ := by
    refine ⟨by simp, ?_, ?_, ?_, ?_, ?_⟩
    · intro i e hi
      simp only at hi
      have hl : i < capN := by
        have := (List.get?_eq_some.mp hi).1
        simpa using this
      rw [List.get?_eq_get (by simpa using hl)] at hi
      simp only [Option.some_inj] at hi
      rw [← hi, List.get_replicate]
      exact Or.inr rfl
    · intro i j ei ej kk hi hj hki hkj
      exfalso
      simp only at hi
      have hl : i < capN := by
        have := (List.get?_eq_some.mp hi).1
        simpa using this
      rw [List.get?_eq_get (by simpa using hl)] at hi
      simp only [Option.some_inj] at hi
      rw [← hi, List.get_replicate] at hki
      cases hki
    · intro j e kk hj hk d hd e2 he2
      exfalso
      simp only at hj
      have hl : j < capN := by
        have := (List.get?_eq_some.mp hj).1
        simpa using this
      rw [List.get?_eq_get (by simpa using hl)] at hj
      simp only [Option.some_inj] at hj
      rw [← hj, List.get_replicate] at hk
      cases hk
    · show 0 = liveSlots (List.replicate capN ⟨none, Value.nil⟩)
      rw [liveSlots_replicate]
    · intro kk vv
      constructor
      · rintro ⟨j, ej, hj, hk, -⟩
        exfalso
        simp only at hj
        have hl : j < capN := by
          have := (List.get?_eq_some.mp hj).1
          simpa using this
        rw [List.get?_eq_get (by simpa using hl)] at hj
        simp only [Option.some_inj] at hj
        rw [← hj, List.get_replicate] at hk
        cases hk
      · intro h
        cases h
  have hstep : adjustCapacity hf t capN =
      t.entries.foldl (fun acc e =>
        match e.key with
        | none => acc
        | some k =>
          match findEntry acc.entries k (hf k) with
          | none => acc
          | some i => ⟨acc.count + 1, acc.entries.set i ⟨some k, e.val⟩⟩)
        ⟨0, List.replicate capN ⟨none, Value.nil⟩⟩ := rfl
  have hinvF := rebuild_fold hf capN t.entries
    ⟨0, List.replicate capN ⟨none, Value.nil⟩⟩ (fun _ => none) hinv0
    (by simpa using hlt) (fun e he kk hk => rfl) hpw
  have hcntF := rebuild_count hf t.entries
    ⟨0, List.replicate capN ⟨none, Value.nil⟩⟩
  rw [← hstep] at hinvF hcntF
  obtain ⟨hlenF, hshapeF, huniqF, hpathF, hcountF, hviewF⟩ := hinvF
  simp only at hcntF
  have hcntF2 : (adjustCapacity hf t capN).count < capN := by omega
  have hshapeF2 : ∀ i e, (adjustCapacity hf t capN).entries.get? i =
      some e → e.key.isSome = true ∨ e = ⟨none, Value.nil⟩ ∨
        e = ⟨none, Value.bool true⟩ := by
    intro i e hi
    rcases hshapeF i e hi with h | h
    · exact Or.inl h
    · exact Or.inr (Or.inl h)
  have hempF : ∃ i, (adjustCapacity hf t capN).entries.get? i =
      some ⟨none, Value.nil⟩ :=
    exists_empty_of_liveSlots_lt hshapeF (by rw [hlenF, ← hcountF]; omega)
  have hwfF : TableWF hf (adjustCapacity hf t capN) := by
    refine Or.inr ⟨by omega, hshapeF2, huniqF, ?_, hempF, ?_⟩
    · intro j e kk hj hk d hd e2 he2
      rw [hlenF] at hd he2
      exact hpathF j e kk hj hk d hd e2 he2
    · rintro ⟨i, e, hi, hlive | htomb⟩
      · rw [hcountF]
        exact liveSlots_pos_of_live hi hlive
      · rcases hshapeF i e hi with h | h
        · rw [hcountF]
          exact liveSlots_pos_of_live hi h
        · rw [h] at htomb
          simp at htomb
  refine ⟨hwfF, ?_⟩
  intro k
  have hchar := extendKeys_spec t.entries (fun _ => none) hpw
    (fun e he kk hk => rfl) k
  by_cases hpres : ∃ j ej, t.entries.get? j = some ej ∧ ej.key = some k
  · obtain ⟨j, ej, hj, hk⟩ := hpres
    have htv : tableGet hf t k = some ej.val := tableGet_present hwf hj hk
    have hmem : ej ∈ t.entries := List.get?_mem hj
    have hext : extendKeys (fun _ => none) t.entries k = some ej.val :=
      (hchar ej.val).mpr (Or.inl ⟨ej, hmem, hk, rfl⟩)
    obtain ⟨j2, ej2, hj2, hk2, hv2⟩ := (hviewF k ej.val).mpr hext
    have := tableGet_present hwfF hj2 hk2
    rw [htv, this, hv2]
  · push_neg at hpres
    have habs : ∀ j e, t.entries.get? j = some e → e.key ≠ some k := by
      intro j e hj hk
      exact absurd hk (hpres j e hj)
    have habsF : ∀ j e, (adjustCapacity hf t capN).entries.get? j =
        some e → e.key ≠ some k := by
      intro j e hj hk
      have := (hviewF k e.val).mp ⟨j, e, hj, hk, rfl⟩
      obtain ⟨e2, hmem2, hk2, -⟩ | hc :=
        (hchar e.val).mp this
      · obtain ⟨j3, hj3⟩ := List.get?_of_mem hmem2
        exact absurd hk2 (hpres j3 e2 hj3)
      · cases hc
    rw [tableGet_absent habs, tableGet_absent habsF]

theorem set_get?_id {α : Type} (l : List α) (i : Nat) (a : α)
    (h : l.get? i = some a) : l.set i a = l := by
  apply List.ext_get?
  intro j
  by_cases hij : i = j
  · subst hij
    rw [List.get?_set_eq_of_lt _ ((List.get?_eq_some.mp h).1), h]
  · rw [List.get?_set_ne _ _ hij]

theorem growCapacity_gt (c : Nat) : c < growCapacity c := by
  unfold growCapacity
  split <;> omega

/-- Turning one truly-empty slot into a tombstone does not change any
lookup in a well-formed table. -/
theorem tableGet_set_tomb (hf : Nat → Nat) (T : Table) (i : Nat)
    (hwf : TableWF hf T) (hcap : 0 < T.entries.length)
    (hie : T.entries.get? i = some ⟨none, Value.nil⟩) (cnt : Nat)
    (hcnt : 0 < cnt) :
    ∀ k2, tableGet hf ⟨cnt, T.entries.set i ⟨none, Value.bool true⟩⟩ k2 =
      tableGet hf T k2 := by
  intro k2
  rcases hwf with ⟨hnil, -⟩ | ⟨-, hshape, huniq, hpath, -, hcpos⟩
  · rw [hnil] at hie
    simp at hie
  by_cases hpres : ∃ j ej, T.entries.get? j = some ej ∧ ej.key = some k2
  · obtain ⟨j, ej, hj, hk⟩ := hpres
    have hTv : tableGet hf T k2 = some ej.val :=
      tableGet_present (Or.inr ⟨hcap, hshape, huniq, hpath,
        ⟨i, hie⟩, hcpos⟩) hj hk
    have hji : j ≠ i := by
      intro hh
      subst hh
      rw [hie] at hj
      simp only [Option.some_inj] at hj
      rw [← hj] at hk
      cases hk
    have hjlt : j < T.entries.length := (List.get?_eq_some.mp hj).1
    -- the probe in the modified table still reaches j
    have hsl : (T.entries.set i ⟨none, Value.bool true⟩).length =
        T.entries.length := by simp
    have hfind : findEntry (T.entries.set i ⟨none, Value.bool true⟩) k2
        (hf k2) = some j := by
      have hbef : ∀ d, d < probeDist
          (T.entries.set i ⟨none, Value.bool true⟩).length (hf k2) j →
          ∀ e2, (T.entries.set i ⟨none, Value.bool true⟩).get?
            (probeSlot (T.entries.set i ⟨none, Value.bool true⟩).length
              (hf k2) d) = some e2 →
          e2 ≠ ⟨none, Value.nil⟩ ∧ e2.key ≠ some k2 := by
        rw [hsl]
        intro d hd e2 he2
        have hslotne : probeSlot T.entries.length (hf k2) d ≠ i := by
          intro hh
          have := hpath j ej k2 hj hk d hd ⟨none, Value.nil⟩
            (by rw [hh]; exact hie)
          exact this rfl
        rw [List.get?_set_ne _ _ (fun hh => hslotne hh.symm)] at he2
        refine ⟨hpath j ej k2 hj hk d hd e2 he2, ?_⟩
        intro hk2
        have heq := huniq _ j e2 ej k2 he2 hj hk2 hk
        have h2 : probeSlot T.entries.length (hf k2)
            (probeDist T.entries.length (hf k2) j) = j :=
          probeSlot_dist hcap hjlt
        have := probeSlot_inj hcap
          (lt_trans hd (probeDist_lt hcap _ _)) (probeDist_lt hcap _ _)
          (heq.trans h2.symm)
        omega
      have H := findEntryAux_reaches_key
        (T.entries.set i ⟨none, Value.bool true⟩) k2 (hf k2) j
        (by rw [hsl]; exact hcap) (by rw [hsl]; exact hjlt) ej
        (by rw [List.get?_set_ne _ _ (fun hh => hji hh.symm)]; exact hj)
        hk hbef
        (probeDist (T.entries.set i ⟨none, Value.bool true⟩).length
          (hf k2) j) 0 none T.entries.length (by omega)
        (by rw [hsl]; exact probeDist_lt hcap _ _)
      rw [hsl, probeSlot_zero] at H
      unfold findEntry
      rw [hsl]
      exact H
    obtain ⟨ejk, ejv⟩ := ej
    simp only [Option.some_inj] at hk
    subst hk
    rw [hTv]
    unfold tableGet
    rw [if_neg (by simp only []; omega)]
    simp only [hfind]
    rw [List.get?_set_ne _ _ (fun hh => hji hh.symm)]
    simp only [hj]
  · push_neg at hpres
    have habs : ∀ j e, T.entries.get? j = some e → e.key ≠ some k2 :=
      fun j e hj hk => absurd hk (hpres j e hj)
    have habs2 : ∀ j e,
        (T.entries.set i ⟨none, Value.bool true⟩).get? j = some e →
        e.key ≠ some k2 := by
      intro j e hj hk
      by_cases hij : i = j
      · subst hij
        rw [List.get?_set_eq_of_lt _ ((List.get?_eq_some.mp hie).1)] at hj
        simp only [Option.some_inj] at hj
        rw [← hj] at hk
        cases hk
      · rw [List.get?_set_ne _ _ hij] at hj
        exact habs j e hj hk
    rw [tableGet_absent habs, tableGet_absent habs2]

/-- Core of the OP_SET_GLOBAL rollback: for an absent key, the probe finds
an unkeyed slot; writing the key there and tombstoning it again leaves
every lookup as it was. -/
theorem tableCore_rollback (hf : Nat → Nat) (T : Table) (key : Nat)
    (v : Value) (hwf : TableWF hf T) (hcap : 0 < T.entries.length)
    (habs : ∀ j e, T.entries.get? j = some e → e.key ≠ some key) :
    ∃ i e, findEntry T.entries key (hf key) = some i ∧
      T.entries.get? i = some e ∧ e.key = none ∧
      ∀ k2, tableGet hf (tableDelete hf
          ⟨if e.key.isNone ∧ e.val = Value.nil then T.count + 1
            else T.count,
           T.entries.set i ⟨some key, v⟩⟩ key).1 k2 =
        tableGet hf T k2 := by
  rcases hwf with ⟨hnil, -⟩ | ⟨-, hshape, huniq, hpath, hemp, hcpos⟩
  · rw [hnil] at hcap
    simp at hcap
  obtain ⟨ie, hie⟩ := hemp
  have hielt : ie < T.entries.length := (List.get?_eq_some.mp hie).1
  have htot : (findEntry T.entries key (hf key)).isSome := by
    unfold findEntry
    rw [← probeSlot_zero T.entries.length (hf key)]
    refine findEntryAux_total T.entries key (hf key) hcap
      T.entries.length 0 none T.entries.length
      ⟨probeDist T.entries.length (hf key) ie, by omega, ?_,
       ⟨⟨none, .nil⟩, ?_, Or.inl rfl⟩⟩ (le_refl _)
    · have := probeDist_lt hcap (hf key) ie
      omega
    · rw [probeSlot_dist hcap hielt]
      exact hie
  obtain ⟨i, hfind⟩ := Option.isSome_iff_exists.mp htot
  obtain ⟨e, hei, hkeynone⟩ := findEntryAux_absent T.entries key habs
    T.entries.length _ none (by intro t ht; cases ht) i
    (by unfold findEntry at hfind; exact hfind)
  have hilt : i < T.entries.length := (List.get?_eq_some.mp hei).1
  refine ⟨i, e, hfind, hei, hkeynone, ?_⟩
  intro k2
  set cnt := if e.key.isNone ∧ e.val = Value.nil then T.count + 1
    else T.count with hcntdef
  have hwfT : TableWF hf T := Or.inr ⟨hcap, hshape, huniq, hpath,
    ⟨ie, hie⟩, hcpos⟩
  have hcnt : 0 < cnt := by
    rw [hcntdef]
    by_cases hv : e.val = Value.nil
    · rw [if_pos ⟨by rw [hkeynone]; rfl, hv⟩]
      omega
    · rw [if_neg (by intro hh; exact hv hh.2)]
      exact hcpos ⟨i, e, hei, Or.inr hv⟩
  have hsl : (T.entries.set i ⟨some key, v⟩).length = T.entries.length :=
    by simp
  have hrefind : findEntry (T.entries.set i ⟨some key, v⟩) key (hf key) =
      some i := by
    unfold findEntry
    rw [hsl]
    exact findEntryAux_refind T.entries key i v habs e hei hkeynone
      T.entries.length _ none (by intro hh; cases hh)
      (by unfold findEntry at hfind; exact hfind)
  have hgetset : (T.entries.set i ⟨some key, v⟩).get? i =
      some ⟨some key, v⟩ := List.get?_set_eq_of_lt _ hilt
  have hdel : (tableDelete hf ⟨cnt, T.entries.set i ⟨some key, v⟩⟩
      key).1 = ⟨cnt, T.entries.set i ⟨none, Value.bool true⟩⟩ := by
    unfold tableDelete
    rw [if_neg (by simp only []; omega)]
    simp only [hrefind, hgetset]
    rw [List.set_set]
  rw [hdel]
  by_cases hv : e.val = Value.nil
  · have hee : e = ⟨none, Value.nil⟩ := by
      cases e with
      | mk a b =>
        simp only at hkeynone hv
        rw [hkeynone, hv]
    rw [hee] at hei
    have hcnteq : cnt = T.count + 1 := by
      rw [hcntdef, if_pos ⟨by rw [hkeynone]; rfl, hv⟩]
    exact tableGet_set_tomb hf T i hwfT hcap hei cnt hcnt k2
  · have hee : e = ⟨none, Value.bool true⟩ := by
      rcases hshape i e hei with h | h | h
      · rw [hkeynone] at h
        cases h
      · rw [h] at hv
        simp at hv
      · exact h
    have hsetid : T.entries.set i ⟨none, Value.bool true⟩ = T.entries := by
      apply set_get?_id
      rw [hei, hee]
    rw [hsetid]
    have hcnteq : cnt = T.count := by
      rw [hcntdef, if_neg (by intro hh; exact hv hh.2)]
    rw [hcnteq]

theorem rebuild_length (hf : Nat → Nat) :
    ∀ (es : List Entry) (acc : Table),
    ((es.foldl (fun acc e =>
      match e.key with
      | none => acc
      | some k =>
        match findEntry acc.entries k (hf k) with
        | none => acc
        | some i => ⟨acc.count + 1, acc.entries.set i ⟨some k, e.val⟩⟩)
      acc)).entries.length = acc.entries.length := by
  intro es
  induction es with
  | nil => intro acc; rfl
  | cons e tl ih =>
    intro acc
    cases hek : e.key with
    | none =>
      simp only [List.foldl, hek]
      exact ih acc
    | some k =>
      simp only [List.foldl, hek]
      cases hfind : findEntry acc.entries k (hf k) with
      | none =>
        simp only [hfind]
        exact ih acc
      | some i =>
        simp only [hfind]
        rw [ih ⟨acc.count + 1, acc.entries.set i ⟨some k, e.val⟩⟩]
        simp

theorem adjustCapacity_length (hf : Nat → Nat) (t : Table) (capN : Nat) :
    (adjustCapacity hf t capN).entries.length = capN := by
  have h := rebuild_length hf t.entries
    ⟨0, List.replicate capN ⟨none, Value.nil⟩⟩
  have hstep : adjustCapacity hf t capN =
      t.entries.foldl (fun acc e =>
        match e.key with
        | none => acc
        | some k =>
          match findEntry acc.entries k (hf k) with
          | none => acc
          | some i => ⟨acc.count + 1, acc.entries.set i ⟨some k, e.val⟩⟩)
        ⟨0, List.replicate capN ⟨none, Value.nil⟩⟩ := rfl
  rw [hstep, h]
  simp

/-- OP_SET_GLOBAL's failed assignment: `tableSet` reports the key as new,
and deleting it again restores every lookup of the original table. -/
theorem tableSet_delete_rollback (hf : Nat → Nat) (t : Table) (key : Nat)
    (v : Value) (hwf : TableWF hf t)
    (habs0 : tableGet hf t key = none) :
    (tableSet hf t key v).2 = true ∧
    ∀ k2, tableGet hf (tableDelete hf (tableSet hf t key v).1 key).1 k2 =
      tableGet hf t k2 := by
  by_cases hg : 4 * (t.count + 1) > 3 * t.capacity
  · set T := adjustCapacity hf t (growCapacity t.capacity) with hT
    have hlive : liveSlots t.entries < growCapacity t.capacity := by
      have h1 : liveSlots t.entries ≤ t.entries.length :=
        List.length_filter_le _ _
      have h2 := growCapacity_gt t.capacity
      have h3 : t.capacity = t.entries.length := rfl
      omega
    obtain ⟨hwfT, hviewT⟩ := adjustCapacity_spec hf t
      (growCapacity t.capacity) hwf hlive
    rw [← hT] at hwfT hviewT
    have hcapT : 0 < T.entries.length := by
      rw [hT, adjustCapacity_length]
      have := growCapacity_gt t.capacity
      omega
    have habsT : ∀ j e, T.entries.get? j = some e → e.key ≠ some key := by
      intro j e hj hk
      have := tableGet_present hwfT hj hk
      rw [hviewT key, habs0] at this
      cases this
    obtain ⟨i, e, hfind, hei, hkeynone, hviewDel⟩ :=
      tableCore_rollback hf T key v hwfT hcapT habsT
    have hset : tableSet hf t key v =
        (⟨if e.key.isNone ∧ e.val = Value.nil then T.count + 1
            else T.count,
          T.entries.set i ⟨some key, v⟩⟩, true) := by
      unfold tableSet
      rw [if_pos hg, ← hT]
      simp only [hfind, hei]
      simp [hkeynone]
    refine ⟨by rw [hset], ?_⟩
    intro k2
    rw [hset]
    simp only
    rw [hviewDel k2]
    exact hviewT k2
  · have hcapT : 0 < t.entries.length := by
      have h3 : t.capacity = t.entries.length := rfl
      omega
    have habsT : ∀ j e, t.entries.get? j = some e → e.key ≠ some key := by
      intro j e hj hk
      have := tableGet_present hwf hj hk
      rw [habs0] at this
      cases this
    obtain ⟨i, e, hfind, hei, hkeynone, hviewDel⟩ :=
      tableCore_rollback hf t key v hwf hcapT habsT
    have hset : tableSet hf t key v =
        (⟨if e.key.isNone ∧ e.val = Value.nil then t.count + 1
            else t.count,
          t.entries.set i ⟨some key, v⟩⟩, true) := by
      unfold tableSet
      rw [if_neg hg]
      simp only [hfind, hei]
      simp [hkeynone]
    refine ⟨by rw [hset], ?_⟩
    intro k2
    rw [hset]
    simp only
    exact hviewDel k2

/-- C5: OP_DEFINE_GLOBAL never produces a runtime error; OP_SET_GLOBAL on
a name with no binding reports the undefined-variable runtime error and —
because the freshly inserted key is rolled back by `tableDelete` — leaves
every lookup in the globals table exactly as it was. -/
theorem c5_global_table (s : VMSt) (fr : Frame) (rest : List Frame)
    (fnRef arity upc : Nat) (closUps : List Nat) (chunk : Chunk)
    (nm : Option Nat) (kidx nameRef : Nat) (v : Value)
    (hfr : s.frames = fr :: rest)
    (hclos : s.heap.get? fr.closure = some (.closure fnRef closUps))
    (hfn : s.heap.get? fnRef = some (.fn arity upc chunk nm)) :
    (chunk.code.get? fr.ip = some opDefineGlobal →
      ∀ t e, vmStep s ≠ .err t e) ∧
    (chunk.code.get? fr.ip = some opSetGlobal →
      chunk.code.get? (fr.ip + 1) = some kidx →
      chunk.constants.get? kidx = some (.obj nameRef) →
      isStrRef s.heap nameRef = true →
      s.peekV 0 = some v →
      TableWF (strHash s.heap) s.globals →
      tableGet (strHash s.heap) s.globals nameRef = none →
      ∃ g2, vmStep s = .err
          { s with globals := g2,
                   frames := { fr with ip := fr.ip + 2 } :: rest }
          (.undefinedVariable nameRef) ∧
        ∀ k2, tableGet (strHash s.heap) g2 k2 =
          tableGet (strHash s.heap) s.globals k2) := by
  constructor
  · intro hinstr t e
    simp only [vmStep, hfr, hclos, hfn, hinstr, opConstant, opNil, opTrue, opFalse, opPop, opGetLocal, opSetLocal, opGetGlobal, opDefineGlobal, opSetGlobal, opSetUpvalue, opGetUpvalue, opGetProperty, opSetProperty, opGetSuper, opEqual, opGreater, opLess, opAdd, opSubtract, opMultiply, opDivide, opNot, opNegate, opPrint, opJump, opJumpIfFalse, opLoop, opCall, opInvoke, opSuperInvoke, opClosure, opCloseUpvalue, opReturn, opClass, opInherit, opMethod]
    norm_num
    repeat' split
    all_goals simp
  · intro hinstr hk hconst hstr hpeek hwf habs
    obtain ⟨hisNew, hview⟩ := tableSet_delete_rollback (strHash s.heap)
      s.globals nameRef v hwf habs
    obtain ⟨g1, b1, hts⟩ : ∃ a b,
        tableSet (strHash s.heap) s.globals nameRef v = (a, b) :=
      ⟨_, _, rfl⟩
    rw [hts] at hisNew
    simp only at hisNew
    subst hisNew
    obtain ⟨g2, b2, htd⟩ : ∃ a b,
        tableDelete (strHash s.heap) g1 nameRef = (a, b) := ⟨_, _, rfl⟩
    refine ⟨g2, ?_, ?_⟩
    · simp only [vmStep, hfr, hclos, hfn, hinstr, hk, hconst, hstr,
        hpeek, hts, htd, opConstant, opNil, opTrue, opFalse, opPop, opGetLocal, opSetLocal, opGetGlobal, opDefineGlobal, opSetGlobal, opSetUpvalue, opGetUpvalue, opGetProperty, opSetProperty, opGetSuper, opEqual, opGreater, opLess, opAdd, opSubtract, opMultiply, opDivide, opNot, opNegate, opPrint, opJump, opJumpIfFalse, opLoop, opCall, opInvoke, opSuperInvoke, opClosure, opCloseUpvalue, opReturn, opClass, opInherit, opMethod]
      norm_num
      simp [hts, htd]
    · intro k2
      have hv := hview k2
      rw [hts] at hv
      simp only at hv
      rw [htd] at hv
      simpa using hv

/-- Concrete state for the C5 witness: about to run OP_SET_GLOBAL on the
undefined global `x` with empty globals. -/
def c5W : VMSt :=
  { heap := [.fn 0 0 ⟨[9, 0], [0, 0], [.obj 2]⟩ none, .closure 0 [],
      .str [Char.ofNat 120] (hashString [Char.ofNat 120])],
    strings := emptyTable, globals := ⟨0, []⟩,
    stack := [.nil], frames := [⟨1, 0, 0⟩], openUpvalues := [],
    initString := none, output := "" }

/-- The same state, but about to run OP_DEFINE_GLOBAL. -/
def c5Wd : VMSt :=
  { c5W with heap := [.fn 0 0 ⟨[8, 0], [0, 0], [.obj 2]⟩ none,
      .closure 0 [], .str [Char.ofNat 120] (hashString [Char.ofNat 120])] }

theorem c5_global_table_witness :
    (∀ t e, vmStep c5Wd ≠ .err t e) ∧
    ∃ g2, vmStep c5W = .err
        { c5W with globals := g2, frames := [⟨1, 2, 0⟩] }
        (.undefinedVariable 2) ∧
      ∀ k2, tableGet (strHash c5W.heap) g2 k2 =
        tableGet (strHash c5W.heap) c5W.globals k2 :=
  ⟨(c5_global_table c5Wd ⟨1, 0, 0⟩ [] 0 0 0 []
      ⟨[8, 0], [0, 0], [.obj 2]⟩ none 0 2 .nil rfl rfl rfl).1 rfl,
   by
     obtain ⟨g2, h1, h2⟩ := (c5_global_table c5W ⟨1, 0, 0⟩ [] 0 0 0 []
       ⟨[9, 0], [0, 0], [.obj 2]⟩ none 0 2 Value.nil rfl rfl rfl).2
       rfl rfl rfl rfl rfl (Or.inl ⟨rfl, rfl⟩) rfl
     exact ⟨g2, h1, h2⟩⟩

/-! ## C6: string interning (object.c / table.c tableFindString) -/

/-- The intern probe reaches a key whose content matches, provided the
slots before it on the walk are occupied by non-matching keys. -/
theorem findStringAux_reaches (heap : Heap) (E : List Entry)
    (c : List Char) (hs : Nat) (j r : Nat)
    (hcap : 0 < E.length) (hj : j < E.length)
    (ej : Entry) (hje : E.get? j = some ej) (hjk : ej.key = some r)
    (hmatch : (strChars heap r).length = c.length ∧
      strHash heap r = hs ∧ strChars heap r = c)
    (hbefore : ∀ d, d < probeDist E.length hs j →
      ∀ e2, E.get? (probeSlot E.length hs d) = some e2 →
        e2.key.isSome = true ∧
        ∀ k2, e2.key = some k2 →
          ¬((strChars heap k2).length = c.length ∧
            strHash heap k2 = hs ∧ strChars heap k2 = c)) :
    ∀ n, ∀ d, d + n = probeDist E.length hs j → ∀ fuel, n < fuel →
      tableFindStringAux heap E c hs fuel (probeSlot E.length hs d) =
        some r := by
  intro n
  induction n with
  | zero =>
    intro d hd fuel hf
    obtain ⟨fuel, rfl⟩ : ∃ m, fuel = m + 1 := ⟨fuel - 1, by omega⟩
    have hdd : d = probeDist E.length hs j := by omega
    subst hdd
    rw [probeSlot_dist hcap hj]
    simp only [tableFindStringAux, hje, hjk]
    rw [if_pos hmatch]
  | succ n ih =>
    intro d hd fuel hf
    obtain ⟨fuel, rfl⟩ : ∃ m, fuel = m + 1 := ⟨fuel - 1, by omega⟩
    have hdlt : d < probeDist E.length hs j := by omega
    have hslt : probeSlot E.length hs d < E.length := probeSlot_lt hcap hs d
    obtain ⟨e, he⟩ : ∃ e, E.get? (probeSlot E.length hs d) = some e := by
      rw [List.get?_eq_get hslt]
      exact ⟨_, rfl⟩
    obtain ⟨hkeyed, hnm⟩ := hbefore d hdlt e he
    obtain ⟨k2, hk2⟩ : ∃ k2, e.key = some k2 := by
      cases hek : e.key with
      | none => rw [hek] at hkeyed; cases hkeyed
      | some k2 => exact ⟨k2, rfl⟩
    simp only [tableFindStringAux, he, hk2]
    rw [if_neg (hnm k2 hk2), ← probeSlot_succ]
    exact ih (d + 1) (by omega) fuel (by omega)

/-- Whatever key the intern probe returns is a table key whose content
matches the query. -/
theorem findStringAux_sound (heap : Heap) (E : List Entry)
    (c : List Char) (hs : Nat) :
    ∀ fuel idx k, tableFindStringAux heap E c hs fuel idx = some k →
      (∃ j e, E.get? j = some e ∧ e.key = some k) ∧
      (strChars heap k).length = c.length ∧ strHash heap k = hs ∧
      strChars heap k = c := by
  intro fuel
  induction fuel with
  | zero =>
    intro idx k hr
    simp [tableFindStringAux] at hr
  | succ fuel ih =>
    intro idx k hr
    cases he : E.get? idx with
    | none =>
      simp only [tableFindStringAux, he] at hr
      exact Option.noConfusion hr
    | some e =>
      cases hek : e.key with
      | none =>
        simp only [tableFindStringAux, he, hek] at hr
        by_cases hv : e.val = Value.nil
        · rw [if_pos hv] at hr
          exact Option.noConfusion hr
        · rw [if_neg hv] at hr
          exact ih _ k hr
      | some k2 =>
        simp only [tableFindStringAux, he, hek] at hr
        by_cases hm : (strChars heap k2).length = c.length ∧
            strHash heap k2 = hs ∧ strChars heap k2 = c
        · rw [if_pos hm] at hr
          simp only [Option.some_inj] at hr
          subst hr
          exact ⟨⟨idx, e, he, hek⟩, hm⟩
        · rw [if_neg hm] at hr
          exact ih _ k hr

theorem strHash_append {h : Heap} {r : Nat} (l : Heap) (hr : r < h.length) :
    strHash (h ++ l) r = strHash h r := by
  unfold strHash
  rw [List.get?_append hr]

theorem strChars_append {h : Heap} {r : Nat} (l : Heap) (hr : r < h.length) :
    strChars (h ++ l) r = strChars h r := by
  unfold strChars
  rw [List.get?_append hr]

/-- The interning invariant maintained on the heap and `vm.strings`:
string objects store their FNV-1a hash, no two string objects share
content, and the intern table is a tombstone-free open-addressing table
(tableDelete is never applied to it) whose keys are exactly the heap's
string objects, each at one slot, every key lying on its probe path, with
`count` counting the keys and the load factor at most 3/4. -/
def InternInv (h : Heap) (t : Table) : Prop :=
  (∀ r1 r2 cs1 hs1 cs2 hs2, h.get? r1 = some (.str cs1 hs1) →
    h.get? r2 = some (.str cs2 hs2) → cs1 = cs2 → r1 = r2) ∧
  (∀ r cs hs, h.get? r = some (.str cs hs) → hs = hashString cs) ∧
  ((t.entries = [] ∧ t.count = 0 ∧
    ∀ r cs hs, h.get? r ≠ some (.str cs hs)) ∨
   (0 < t.entries.length ∧
    (∀ i e, t.entries.get? i = some e →
      e.key.isSome = true ∨ e = ⟨none, .nil⟩) ∧
    (∀ i e k, t.entries.get? i = some e → e.key = some k →
      ∃ cs hs, h.get? k = some (.str cs hs)) ∧
    (∀ i j ei ej kk, t.entries.get? i = some ei →
      t.entries.get? j = some ej → ei.key = some kk → ej.key = some kk →
      i = j) ∧
    (∀ j e kk, t.entries.get? j = some e → e.key = some kk →
      ∀ d, d < probeDist t.entries.length (strHash h kk) j →
        ∀ e2, t.entries.get? (probeSlot t.entries.length (strHash h kk) d)
          = some e2 → e2.key.isSome = true) ∧
    (∀ r cs hs, h.get? r = some (.str cs hs) →
      ∃ j e, t.entries.get? j = some e ∧ e.key = some r) ∧
    t.count = liveSlots t.entries ∧
    4 * t.count ≤ 3 * t.entries.length))

theorem rinv_init (hf : Nat → Nat) (capN : Nat) (hcapN : 0 < capN) :
    RInv hf capN (fun _ => none)
      ⟨0, List.replicate capN ⟨none, Value.nil⟩⟩ := by
  refine ⟨by simp, ?_, ?_, ?_, ?_, ?_⟩
  · intro i e hi
    simp only at hi
    have hl : i < capN := by
      have := (List.get?_eq_some.mp hi).1
      simpa using this
    rw [List.get?_eq_get (by simpa using hl)] at hi
    simp only [Option.some_inj] at hi
    rw [← hi, List.get_replicate]
    exact Or.inr rfl
  · intro i j ei ej kk hi hj hki hkj
    exfalso
    simp only at hi
    have hl : i < capN := by
      have := (List.get?_eq_some.mp hi).1
      simpa using this
    rw [List.get?_eq_get (by simpa using hl)] at hi
    simp only [Option.some_inj] at hi
    rw [← hi, List.get_replicate] at hki
    cases hki
  · intro j e kk hj hk d hd e2 he2
    exfalso
    simp only at hj
    have hl : j < capN := by
      have := (List.get?_eq_some.mp hj).1
      simpa using this
    rw [List.get?_eq_get (by simpa using hl)] at hj
    simp only [Option.some_inj] at hj
    rw [← hj, List.get_replicate] at hk
    cases hk
  · show 0 = liveSlots (List.replicate capN ⟨none, Value.nil⟩)
    rw [liveSlots_replicate]
  · intro kk vv
    constructor
    · rintro ⟨j, ej, hj, hk, -⟩
      exfalso
      simp only at hj
      have hl : j < capN := by
        have := (List.get?_eq_some.mp hj).1
        simpa using this
      rw [List.get?_eq_get (by simpa using hl)] at hj
      simp only [Option.some_inj] at hj
      rw [← hj, List.get_replicate] at hk
      cases hk
    · intro hh
      exact Option.noConfusion hh

/-- `adjustCapacity` as a rebuild: the result satisfies the fold
invariant, with key view `extendKeys` over the old entries. -/
theorem adjustCapacity_rinv (hf : Nat → Nat) (t : Table) (capN : Nat)
    (huniq : ∀ i j ei ej kk, t.entries.get? i = some ei →
      t.entries.get? j = some ej → ei.key = some kk → ej.key = some kk →
      i = j)
    (hlt : liveSlots t.entries < capN) :
    RInv hf capN (extendKeys (fun _ => none) t.entries)
      (adjustCapacity hf t capN) := by
  have hcapN : 0 < capN := by omega
  have hstep : adjustCapacity hf t capN =
      t.entries.foldl (fun acc e =>
        match e.key with
        | none => acc
        | some k =>
          match findEntry acc.entries k (hf k) with
          | none => acc
          | some i => ⟨acc.count + 1, acc.entries.set i ⟨some k, e.val⟩⟩)
        ⟨0, List.replicate capN ⟨none, Value.nil⟩⟩ := rfl
  rw [hstep]
  exact rebuild_fold hf capN t.entries _ _ (rinv_init hf capN hcapN)
    (by simpa using hlt) (fun e he kk hk => rfl)
    (pairwise_keys_of_uniq huniq)

theorem adjustCapacity_count_le (hf : Nat → Nat) (t : Table) (capN : Nat) :
    (adjustCapacity hf t capN).count ≤ liveSlots t.entries := by
  have h := rebuild_count hf t.entries
    ⟨0, List.replicate capN ⟨none, Value.nil⟩⟩
  have hstep : adjustCapacity hf t capN =
      t.entries.foldl (fun acc e =>
        match e.key with
        | none => acc
        | some k =>
          match findEntry acc.entries k (hf k) with
          | none => acc
          | some i => ⟨acc.count + 1, acc.entries.set i ⟨some k, e.val⟩⟩)
        ⟨0, List.replicate capN ⟨none, Value.nil⟩⟩ := rfl
  rw [hstep]
  simpa using h

/-- Inserting a fresh string (content absent from the heap) into a
tombstone-free intern table: the probe finds a truly empty slot, the
insertion preserves the interning invariant, and the content lookup then
finds the new reference. -/
theorem intern_insert_core (h : Heap) (c : List Char) (T : Table)
    (hcap : 0 < T.entries.length)
    (hshape : ∀ i e, T.entries.get? i = some e →
      e.key.isSome = true ∨ e = ⟨none, .nil⟩)
    (hkwf : ∀ i e k, T.entries.get? i = some e → e.key = some k →
      ∃ cs hs, h.get? k = some (.str cs hs))
    (huniq : ∀ i j ei ej kk, T.entries.get? i = some ei →
      T.entries.get? j = some ej → ei.key = some kk → ej.key = some kk →
      i = j)
    (hpath : ∀ j e kk, T.entries.get? j = some e → e.key = some kk →
      ∀ d, d < probeDist T.entries.length
          (strHash (h ++ [HObj.str c (hashString c)]) kk) j →
        ∀ e2, T.entries.get? (probeSlot T.entries.length
            (strHash (h ++ [HObj.str c (hashString c)]) kk) d) = some e2 →
          e2.key.isSome = true)
    (hcomp : ∀ r0 cs hs, h.get? r0 = some (.str cs hs) →
      ∃ j e, T.entries.get? j = some e ∧ e.key = some r0)
    (hcount : T.count = liveSlots T.entries)
    (hload : 4 * (T.count + 1) ≤ 3 * T.entries.length)
    (hhc : ∀ r cs hs, h.get? r = some (.str cs hs) → hs = hashString cs)
    (hcu : ∀ r1 r2 cs1 hs1 cs2 hs2, h.get? r1 = some (.str cs1 hs1) →
      h.get? r2 = some (.str cs2 hs2) → cs1 = cs2 → r1 = r2)
    (habs : ∀ r0 cs hs, h.get? r0 = some (.str cs hs) → cs ≠ c) :
    ∃ i, T.entries.get? i = some ⟨none, Value.nil⟩ ∧
      findEntry T.entries h.length
        (strHash (h ++ [HObj.str c (hashString c)]) h.length) = some i ∧
      InternInv (h ++ [HObj.str c (hashString c)])
        ⟨T.count + 1, T.entries.set i ⟨some h.length, Value.nil⟩⟩ ∧
      tableFindString (h ++ [HObj.str c (hashString c)])
        ⟨T.count + 1, T.entries.set i ⟨some h.length, Value.nil⟩⟩ c
        (hashString c) = some h.length := by
  have hgr : (h ++ [HObj.str c (hashString c)]).get? h.length =
      some (HObj.str c (hashString c)) := List.get?_concat_length h _
  have hfr : strHash (h ++ [HObj.str c (hashString c)]) h.length =
      hashString c := by
    unfold strHash
    rw [hgr]
  have hchr : strChars (h ++ [HObj.str c (hashString c)]) h.length = c := by
    unfold strChars
    rw [hgr]
  have hfresh : ∀ i e, T.entries.get? i = some e →
      e.key ≠ some h.length := by
    intro i e hi hk
    obtain ⟨cs, hs, hkr⟩ := hkwf i e h.length hi hk
    have hlt := (List.get?_eq_some.mp hkr).1
    omega
  have hlive : liveSlots T.entries < T.entries.length := by omega
  obtain ⟨idx, hidx⟩ := exists_empty_of_liveSlots_lt hshape hlive
  have hidxlt : idx < T.entries.length := (List.get?_eq_some.mp hidx).1
  have hd0 : probeSlot T.entries.length (hashString c)
      (probeDist T.entries.length (hashString c) idx) = idx :=
    probeSlot_dist hcap hidxlt
  have htot := findEntryAux_total T.entries h.length (hashString c) hcap
    T.entries.length 0 none T.entries.length
    ⟨probeDist T.entries.length (hashString c) idx,
      Nat.zero_le _,
      by have := probeDist_lt hcap (hashString c) idx; omega,
      ⟨none, Value.nil⟩, by rw [hd0]; exact hidx, Or.inl rfl⟩
    (le_refl _)
  obtain ⟨i, hfindAux⟩ := Option.isSome_iff_exists.mp htot
  have hfind : findEntry T.entries h.length
      (strHash (h ++ [HObj.str c (hashString c)]) h.length) = some i := by
    unfold findEntry
    rw [hfr]
    rw [← probeSlot_zero]
    exact hfindAux
  obtain ⟨di, -, hdilen, hieq, ⟨ei, hei, hcase⟩, hbef⟩ :=
    findEntryAux_noTomb T.entries h.length (hashString c) hcap hshape
      T.entries.length 0 i hfindAux
  have heiE : T.entries.get? i = some ⟨none, Value.nil⟩ := by
    rcases hcase with hcase | hcase
    · rw [hcase] at hei
      exact hei
    · exact absurd hcase (hfresh i ei hei)
  have hilt : i < T.entries.length := (List.get?_eq_some.mp heiE).1
  have hdieq : probeDist T.entries.length (hashString c) i = di := by
    have h1 : probeSlot T.entries.length (hashString c)
        (probeDist T.entries.length (hashString c) i) = i :=
      probeSlot_dist hcap hilt
    have h2 := probeDist_lt hcap (hashString c) i
    exact @probeSlot_inj T.entries.length hcap (hashString c)
      (probeDist T.entries.length (hashString c) i) di h2 (by omega)
      (by rw [h1, hieq])
  have hsl : (T.entries.set i ⟨some h.length, Value.nil⟩).length =
      T.entries.length := by
    rw [List.length_set]
  have hgetI : (T.entries.set i ⟨some h.length, Value.nil⟩).get? i =
      some ⟨some h.length, Value.nil⟩ := List.get?_set_eq_of_lt _ hilt
  have hgetO : ∀ j, j ≠ i →
      (T.entries.set i ⟨some h.length, Value.nil⟩).get? j =
      T.entries.get? j :=
    fun j hj => List.get?_set_ne _ _ (fun hh => hj hh.symm)
  have hcu2 : ∀ r1 r2 cs1 hs1 cs2 hs2,
      (h ++ [HObj.str c (hashString c)]).get? r1 = some (.str cs1 hs1) →
      (h ++ [HObj.str c (hashString c)]).get? r2 = some (.str cs2 hs2) →
      cs1 = cs2 → r1 = r2 := by
    intro r1 r2 cs1 hs1 cs2 hs2 hg1 hg2 hcc
    have hl1 := (List.get?_eq_some.mp hg1).1
    have hl2 := (List.get?_eq_some.mp hg2).1
    simp only [List.length_append, List.length_cons, List.length_nil]
      at hl1 hl2
    by_cases hb1 : r1 < h.length
    · rw [List.get?_append hb1] at hg1
      by_cases hb2 : r2 < h.length
      · rw [List.get?_append hb2] at hg2
        exact hcu r1 r2 cs1 hs1 cs2 hs2 hg1 hg2 hcc
      · have hr2 : r2 = h.length := by omega
        subst hr2
        rw [hgr] at hg2
        injection hg2 with hg2
        injection hg2 with hA hB
        exact absurd (hcc.trans hA.symm) (habs r1 cs1 hs1 hg1)
    · have hr1 : r1 = h.length := by omega
      subst hr1
      rw [hgr] at hg1
      injection hg1 with hg1
      injection hg1 with hA hB
      by_cases hb2 : r2 < h.length
      · rw [List.get?_append hb2] at hg2
        exact absurd (hcc.symm.trans hA.symm) (habs r2 cs2 hs2 hg2)
      · omega
  have hhc2 : ∀ r cs hs,
      (h ++ [HObj.str c (hashString c)]).get? r = some (.str cs hs) →
      hs = hashString cs := by
    intro r cs hs hg0
    by_cases hb : r < h.length
    · rw [List.get?_append hb] at hg0
      exact hhc r cs hs hg0
    · have hl := (List.get?_eq_some.mp hg0).1
      simp only [List.length_append, List.length_cons, List.length_nil]
        at hl
      have hr : r = h.length := by omega
      subst hr
      rw [hgr] at hg0
      injection hg0 with hg0
      injection hg0 with hA hB
      rw [← hA, ← hB]
  have hE1 : 0 < (T.entries.set i ⟨some h.length, Value.nil⟩).length := by
    rw [hsl]
    exact hcap
  have hshape2 : ∀ j e,
      (T.entries.set i ⟨some h.length, Value.nil⟩).get? j = some e →
      e.key.isSome = true ∨ e = ⟨none, .nil⟩ := by
    intro j e hj
    by_cases hji : j = i
    · subst hji
      rw [hgetI] at hj
      injection hj with hj
      rw [← hj]
      exact Or.inl rfl
    · rw [hgetO j hji] at hj
      exact hshape j e hj
  have hkwf2 : ∀ j e k,
      (T.entries.set i ⟨some h.length, Value.nil⟩).get? j = some e →
      e.key = some k →
      ∃ cs hs, (h ++ [HObj.str c (hashString c)]).get? k =
        some (.str cs hs) := by
    intro j e k hj hk
    by_cases hji : j = i
    · subst hji
      rw [hgetI] at hj
      injection hj with hj
      rw [← hj] at hk
      have hk2 : some h.length = some k := hk
      injection hk2 with hk2
      subst hk2
      exact ⟨c, hashString c, hgr⟩
    · rw [hgetO j hji] at hj
      obtain ⟨cs, hs, hkr⟩ := hkwf j e k hj hk
      have hb := (List.get?_eq_some.mp hkr).1
      exact ⟨cs, hs, by rw [List.get?_append hb]; exact hkr⟩
  have huniq2 : ∀ j1 j2 e1 e2 kk,
      (T.entries.set i ⟨some h.length, Value.nil⟩).get? j1 = some e1 →
      (T.entries.set i ⟨some h.length, Value.nil⟩).get? j2 = some e2 →
      e1.key = some kk → e2.key = some kk → j1 = j2 := by
    intro j1 j2 e1 e2 kk hj1 hj2 hk1 hk2
    by_cases hb1 : j1 = i
    · by_cases hb2 : j2 = i
      · omega
      · exfalso
        rw [hb1, hgetI] at hj1
        injection hj1 with hj1
        rw [hgetO j2 hb2] at hj2
        rw [← hj1] at hk1
        have hk1b : some h.length = some kk := hk1
        injection hk1b with hk1b
        exact hfresh j2 e2 hj2 (by rw [hk2, ← hk1b])
    · by_cases hb2 : j2 = i
      · exfalso
        rw [hb2, hgetI] at hj2
        injection hj2 with hj2
        rw [hgetO j1 hb1] at hj1
        rw [← hj2] at hk2
        have hk2b : some h.length = some kk := hk2
        injection hk2b with hk2b
        exact hfresh j1 e1 hj1 (by rw [hk1, ← hk2b])
      · rw [hgetO j1 hb1] at hj1
        rw [hgetO j2 hb2] at hj2
        exact huniq j1 j2 e1 e2 kk hj1 hj2 hk1 hk2
  have hpath2 : ∀ j e kk,
      (T.entries.set i ⟨some h.length, Value.nil⟩).get? j = some e →
      e.key = some kk →
      ∀ d, d < probeDist
          (T.entries.set i ⟨some h.length, Value.nil⟩).length
          (strHash (h ++ [HObj.str c (hashString c)]) kk) j →
        ∀ e2, (T.entries.set i ⟨some h.length, Value.nil⟩).get?
            (probeSlot
              (T.entries.set i ⟨some h.length, Value.nil⟩).length
              (strHash (h ++ [HObj.str c (hashString c)]) kk) d) =
            some e2 →
          e2.key.isSome = true := by
    simp only [hsl]
    intro j e kk hj hk
    by_cases hji : j = i
    · rw [hji, hgetI] at hj
      rw [hji]
      injection hj with hj
      rw [← hj] at hk
      have hk2 : some h.length = some kk := hk
      injection hk2 with hk2
      subst hk2
      rw [hfr, hdieq]
      intro d hd e2 he2
      obtain ⟨e3, k3, he3, hk3, -⟩ := hbef d (Nat.zero_le d) (by omega)
      have hne : probeSlot T.entries.length (hashString c) d ≠ i := by
        intro hh
        rw [hieq] at hh
        have := @probeSlot_inj T.entries.length hcap (hashString c) d di
          (by omega) (by omega) hh
        omega
      rw [hgetO _ hne, he3] at he2
      injection he2 with he2
      simp [← he2, hk3]
    · rw [hgetO j hji] at hj
      intro d hd e2 he2
      by_cases hslot : probeSlot T.entries.length
          (strHash (h ++ [HObj.str c (hashString c)]) kk) d = i
      · rw [hslot, hgetI] at he2
        injection he2 with he2
        simp [← he2]
      · rw [hgetO _ hslot] at he2
        exact hpath j e kk hj hk d hd e2 he2
  have hcomp2 : ∀ r0 cs hs,
      (h ++ [HObj.str c (hashString c)]).get? r0 = some (.str cs hs) →
      ∃ j e,
        (T.entries.set i ⟨some h.length, Value.nil⟩).get? j = some e ∧
        e.key = some r0 := by
    intro r0 cs hs hg0
    by_cases hb : r0 < h.length
    · rw [List.get?_append hb] at hg0
      obtain ⟨j, e, hj, hk⟩ := hcomp r0 cs hs hg0
      have hji : j ≠ i := by
        intro hh
        rw [hh, heiE] at hj
        injection hj with hj
        rw [← hj] at hk
        exact Option.noConfusion (show (none : Option Nat) = some r0 from hk)
      exact ⟨j, e, by rw [hgetO j hji]; exact hj, hk⟩
    · have hl := (List.get?_eq_some.mp hg0).1
      simp only [List.length_append, List.length_cons, List.length_nil]
        at hl
      have hr : r0 = h.length := by omega
      subst hr
      exact ⟨i, ⟨some h.length, Value.nil⟩, hgetI, rfl⟩
  have hcount2 : T.count + 1 =
      liveSlots (T.entries.set i ⟨some h.length, Value.nil⟩) := by
    rw [liveSlots_set_fresh T.entries i ⟨none, Value.nil⟩ h.length
      Value.nil heiE rfl]
    omega
  have hload2 : 4 * (T.count + 1) ≤
      3 * (T.entries.set i ⟨some h.length, Value.nil⟩).length := by
    rw [hsl]
    exact hload
  have hfsT : tableFindString (h ++ [HObj.str c (hashString c)])
      ⟨T.count + 1, T.entries.set i ⟨some h.length, Value.nil⟩⟩ c
      (hashString c) = some h.length := by
    have hkey : tableFindStringAux (h ++ [HObj.str c (hashString c)])
        (T.entries.set i ⟨some h.length, Value.nil⟩) c (hashString c)
        (T.entries.set i ⟨some h.length, Value.nil⟩).length
        ((hashString c) %
          (T.entries.set i ⟨some h.length, Value.nil⟩).length) =
        some h.length := by
      rw [← probeSlot_zero]
      refine findStringAux_reaches (h ++ [HObj.str c (hashString c)])
        (T.entries.set i ⟨some h.length, Value.nil⟩) c (hashString c) i
        h.length (by rw [hsl]; exact hcap) (by rw [hsl]; exact hilt)
        ⟨some h.length, Value.nil⟩ hgetI rfl
        ⟨by rw [hchr], hfr, hchr⟩ ?_ _ 0 (Nat.zero_add _) _ ?_
      · intro d hd e2 he2
        rw [hsl] at hd he2
        rw [hdieq] at hd
        obtain ⟨e3, k3, he3, hk3, -⟩ := hbef d (Nat.zero_le d) (by omega)
        have hne : probeSlot T.entries.length (hashString c) d ≠ i := by
          intro hh
          rw [hieq] at hh
          have := @probeSlot_inj T.entries.length hcap (hashString c) d di
            (by omega) (by omega) hh
          omega
        rw [hgetO _ hne, he3] at he2
        injection he2 with he2
        subst he2
        refine ⟨by simp [hk3], ?_⟩
        intro k2 hk2e
        rw [hk3] at hk2e
        injection hk2e with hk2e
        subst hk2e
        rintro ⟨-, -, hcc⟩
        obtain ⟨cs3, hs3, hg3⟩ := hkwf _ e3 k3 he3 hk3
        have hb3 := (List.get?_eq_some.mp hg3).1
        rw [strChars_append _ hb3] at hcc
        have hchars3 : strChars h k3 = cs3 := by
          unfold strChars
          rw [hg3]
        exact habs k3 cs3 hs3 hg3 (by rw [← hchars3, hcc])
      · exact probeDist_lt (by rw [hsl]; exact hcap) _ _
    show (if T.count + 1 = 0 then none
      else tableFindStringAux (h ++ [HObj.str c (hashString c)])
        (T.entries.set i ⟨some h.length, Value.nil⟩) c (hashString c)
        (T.entries.set i ⟨some h.length, Value.nil⟩).length
        ((hashString c) %
          (T.entries.set i ⟨some h.length, Value.nil⟩).length)) =
      some h.length
    rw [if_neg (Nat.succ_ne_zero _)]
    exact hkey
  exact ⟨i, heiE, hfind,
    ⟨hcu2, hhc2, Or.inr ⟨hE1, hshape2, hkwf2, huniq2, hpath2, hcomp2,
      hcount2, hload2⟩⟩, hfsT⟩

/-- `allocateString` on content absent from the heap: the new object is
appended, registered in the intern table, preserving the interning
invariant, and subsequently found by the content lookup. -/
theorem allocateString_inv (h : Heap) (t : Table) (c : List Char)
    (hinv : InternInv h t)
    (habs : ∀ r0 cs hs, h.get? r0 = some (HObj.str cs hs) → cs ≠ c) :
    ∃ t1, allocateString h t c (hashString c) =
      (h.length, h ++ [HObj.str c (hashString c)], t1) ∧
      InternInv (h ++ [HObj.str c (hashString c)]) t1 ∧
      tableFindString (h ++ [HObj.str c (hashString c)]) t1 c
        (hashString c) = some h.length := by
  obtain ⟨hcu, hhc, hdisj⟩ := hinv
  have huniq0 : ∀ i j ei ej kk, t.entries.get? i = some ei →
      t.entries.get? j = some ej → ei.key = some kk → ej.key = some kk →
      i = j := by
    rcases hdisj with ⟨hnil, -, -⟩ | ⟨-, -, -, hu, -⟩
    · intro i j ei ej kk hi
      rw [hnil] at hi
      simp at hi
    · exact hu
  have hkwf0 : ∀ i e k, t.entries.get? i = some e → e.key = some k →
      ∃ cs hs, h.get? k = some (HObj.str cs hs) := by
    rcases hdisj with ⟨hnil, -, -⟩ | ⟨-, -, hk, -⟩
    · intro i e k hi
      rw [hnil] at hi
      simp at hi
    · exact hk
  have hcomp0 : ∀ r0 cs hs, h.get? r0 = some (HObj.str cs hs) →
      ∃ j e, t.entries.get? j = some e ∧ e.key = some r0 := by
    rcases hdisj with ⟨-, -, hns⟩ | ⟨-, -, -, -, -, hc2, -⟩
    · intro r0 cs hs hg0
      exact absurd hg0 (hns r0 cs hs)
    · exact hc2
  have hcount0 : t.count = liveSlots t.entries := by
    rcases hdisj with ⟨hnil, hc0, -⟩ | ⟨-, -, -, -, -, -, hc2, -⟩
    · rw [hnil, hc0]
      rfl
    · exact hc2
  have hload0 : 4 * t.count ≤ 3 * t.entries.length := by
    rcases hdisj with ⟨hnil, hc0, -⟩ | ⟨-, -, -, -, -, -, -, hl⟩
    · rw [hnil, hc0]
      simp
    · exact hl
  have h3 : t.capacity = t.entries.length := rfl
  by_cases hg : 4 * (t.count + 1) > 3 * t.capacity
  · have hlt : liveSlots t.entries < growCapacity t.capacity := by
      have h1 : liveSlots t.entries ≤ t.entries.length :=
        List.length_filter_le _ _
      have h2 := growCapacity_gt t.capacity
      omega
    obtain ⟨hTlen, hTshape, hTuniq, hTpath, hTcount, hTview⟩ :=
      adjustCapacity_rinv (strHash (h ++ [HObj.str c (hashString c)])) t
        (growCapacity t.capacity) huniq0 hlt
    have hpw := pairwise_keys_of_uniq huniq0
    have hTkwf : ∀ i e k,
        (adjustCapacity (strHash (h ++ [HObj.str c (hashString c)])) t
          (growCapacity t.capacity)).entries.get? i = some e →
        e.key = some k → ∃ cs hs, h.get? k = some (HObj.str cs hs) := by
      intro i e k hi hk
      have hv := (hTview k e.val).mp ⟨i, e, hi, hk, rfl⟩
      rw [extendKeys_spec t.entries (fun _ => none) hpw
        (fun e2 he2 kk hkk => rfl) k e.val] at hv
      rcases hv with ⟨e2, hmem, hk2, -⟩ | hv
      · obtain ⟨j0, hj0⟩ := List.get?_of_mem hmem
        exact hkwf0 j0 e2 k hj0 hk2
      · exact Option.noConfusion hv
    have hTcomp : ∀ r0 cs hs, h.get? r0 = some (HObj.str cs hs) →
        ∃ j e,
          (adjustCapacity (strHash (h ++ [HObj.str c (hashString c)])) t
            (growCapacity t.capacity)).entries.get? j = some e ∧
          e.key = some r0 := by
      intro r0 cs hs hg0
      obtain ⟨j, e, hj, hk⟩ := hcomp0 r0 cs hs hg0
      have hmem : e ∈ t.entries := List.get?_mem hj
      have hv : extendKeys (fun _ => none) t.entries r0 = some e.val := by
        rw [extendKeys_spec t.entries (fun _ => none) hpw
          (fun e2 he2 kk hkk => rfl) r0 e.val]
        exact Or.inl ⟨e, hmem, hk, rfl⟩
      obtain ⟨j2, e2, hj2, hk2, -⟩ := (hTview r0 e.val).mpr hv
      exact ⟨j2, e2, hj2, hk2⟩
    have hrc := adjustCapacity_count_le
      (strHash (h ++ [HObj.str c (hashString c)])) t (growCapacity t.capacity)
    have hTload : 4 *
        ((adjustCapacity (strHash (h ++ [HObj.str c (hashString c)])) t
          (growCapacity t.capacity)).count + 1) ≤ 3 *
        (adjustCapacity (strHash (h ++ [HObj.str c (hashString c)])) t
          (growCapacity t.capacity)).entries.length := by
      rw [hTlen]
      set Tc := (adjustCapacity (strHash (h ++ [HObj.str c (hashString c)]))
        t (growCapacity t.capacity)).count with hTc
      have hgc : growCapacity t.capacity =
          if t.capacity < 8 then 8 else t.capacity * 2 := rfl
      by_cases hc8 : t.capacity < 8
      · rw [hgc, if_pos hc8]
        omega
      · rw [hgc, if_neg hc8]
        omega
    have hTpath2 : ∀ j e kk,
        (adjustCapacity (strHash (h ++ [HObj.str c (hashString c)])) t
          (growCapacity t.capacity)).entries.get? j = some e →
        e.key = some kk →
        ∀ d, d < probeDist
            (adjustCapacity (strHash (h ++ [HObj.str c (hashString c)])) t
              (growCapacity t.capacity)).entries.length
            (strHash (h ++ [HObj.str c (hashString c)]) kk) j →
          ∀ e2,
            (adjustCapacity (strHash (h ++ [HObj.str c (hashString c)])) t
              (growCapacity t.capacity)).entries.get?
              (probeSlot
                (adjustCapacity (strHash (h ++ [HObj.str c (hashString c)]))
                  t (growCapacity t.capacity)).entries.length
                (strHash (h ++ [HObj.str c (hashString c)]) kk) d) =
              some e2 →
            e2.key.isSome = true := by
      simp only [hTlen]
      intro j e kk hj hk d hd e2 he2
      rcases hTshape _ e2 he2 with hs2 | hs2
      · exact hs2
      · exact absurd hs2 (hTpath j e kk hj hk d hd e2 he2)
    have hTcap : 0 <
        (adjustCapacity (strHash (h ++ [HObj.str c (hashString c)])) t
          (growCapacity t.capacity)).entries.length := by
      rw [hTlen]
      have := growCapacity_gt t.capacity
      omega
    obtain ⟨i, hiE, hfind, hInv, hfsT⟩ := intern_insert_core h c
      (adjustCapacity (strHash (h ++ [HObj.str c (hashString c)])) t
        (growCapacity t.capacity))
      hTcap hTshape hTkwf hTuniq hTpath2 hTcomp hTcount hTload hhc hcu habs
    refine ⟨⟨(adjustCapacity (strHash (h ++ [HObj.str c (hashString c)])) t
        (growCapacity t.capacity)).count + 1,
      (adjustCapacity (strHash (h ++ [HObj.str c (hashString c)])) t
        (growCapacity t.capacity)).entries.set i
        ⟨some h.length, Value.nil⟩⟩, ?_, hInv, hfsT⟩
    have hset : tableSet (strHash (h ++ [HObj.str c (hashString c)])) t
        h.length Value.nil =
        (⟨(adjustCapacity (strHash (h ++ [HObj.str c (hashString c)])) t
            (growCapacity t.capacity)).count + 1,
          (adjustCapacity (strHash (h ++ [HObj.str c (hashString c)])) t
            (growCapacity t.capacity)).entries.set i
            ⟨some h.length, Value.nil⟩⟩, true) := by
      unfold tableSet
      rw [if_pos hg]
      simp only [hfind, hiE]
      simp
    simp only [allocateString, allocObj, hset]
  · rcases hdisj with ⟨hnil, hc0, -⟩ |
      ⟨hlen2, hshapeT, hkwfT, huniqT, hpathT, hcompT, hcountT, hloadT⟩
    · exfalso
      rw [hnil] at h3
      simp at h3
      omega
    · have hpath1 : ∀ j e kk, t.entries.get? j = some e →
          e.key = some kk →
          ∀ d, d < probeDist t.entries.length
              (strHash (h ++ [HObj.str c (hashString c)]) kk) j →
            ∀ e2, t.entries.get? (probeSlot t.entries.length
                (strHash (h ++ [HObj.str c (hashString c)]) kk) d) =
              some e2 → e2.key.isSome = true := by
        intro j e kk hj hk
        obtain ⟨cs, hs, hkr⟩ := hkwfT j e kk hj hk
        have hb := (List.get?_eq_some.mp hkr).1
        rw [strHash_append _ hb]
        exact hpathT j e kk hj hk
      have hload1 : 4 * (t.count + 1) ≤ 3 * t.entries.length := by omega
      obtain ⟨i, hiE, hfind, hInv, hfsT⟩ := intern_insert_core h c t
        hlen2 hshapeT hkwfT huniqT hpath1 hcompT hcountT hload1 hhc hcu habs
      refine ⟨⟨t.count + 1, t.entries.set i ⟨some h.length, Value.nil⟩⟩,
        ?_, hInv, hfsT⟩
      have hset : tableSet (strHash (h ++ [HObj.str c (hashString c)])) t
          h.length Value.nil =
          (⟨t.count + 1, t.entries.set i ⟨some h.length, Value.nil⟩⟩,
            true) := by
        unfold tableSet
        rw [if_neg hg]
        simp only [hfind, hiE]
        simp
      simp only [allocateString, allocObj, hset]

/-- C6: string interning through `copyString` (object.c / tableFindString).
Under the interning invariant, `copyString` returns a reference to a
string object holding exactly the requested content and hash, preserves
the invariant, and calling `copyString` again with the same content on the
resulting state returns the very same reference with heap and intern table
unchanged — reference equality for equal byte sequences.  Moreover no two
distinct string objects share byte content, `valuesEqual` on string
values — though it compares references — holds iff the contents are equal,
and every string object is a key of the intern table at exactly one
slot. -/
theorem c6_string_interning (h : Heap) (t : Table) (c : List Char)
    (hinv : InternInv h t) :
    InternInv (copyString h t c).2.1 (copyString h t c).2.2 ∧
    (copyString h t c).2.1.get? (copyString h t c).1 =
      some (HObj.str c (hashString c)) ∧
    copyString (copyString h t c).2.1 (copyString h t c).2.2 c =
      ((copyString h t c).1, (copyString h t c).2.1,
        (copyString h t c).2.2) ∧
    (∀ r1 r2 cs1 hs1 cs2 hs2, h.get? r1 = some (HObj.str cs1 hs1) →
      h.get? r2 = some (HObj.str cs2 hs2) →
      (valuesEqual (Value.obj r1) (Value.obj r2) = true ↔ cs1 = cs2)) ∧
    (∀ r cs hs, h.get? r = some (HObj.str cs hs) →
      ∃ j e, t.entries.get? j = some e ∧ e.key = some r ∧
        ∀ j2 e2, t.entries.get? j2 = some e2 → e2.key = some r →
          j2 = j) := by
  have hinv0 := hinv
  obtain ⟨hcu, hhc, hdisj⟩ := hinv
  have hlast : ∀ r cs hs, h.get? r = some (HObj.str cs hs) →
      ∃ j e, t.entries.get? j = some e ∧ e.key = some r ∧
        ∀ j2 e2, t.entries.get? j2 = some e2 → e2.key = some r →
          j2 = j := by
    intro r cs hs hg0
    rcases hdisj with ⟨-, -, hns⟩ | ⟨-, -, -, huT, -, hcompT, -⟩
    · exact absurd hg0 (hns r cs hs)
    · obtain ⟨j, e, hj, hk⟩ := hcompT r cs hs hg0
      exact ⟨j, e, hj, hk,
        fun j2 e2 hj2 hk2 => huT j2 j e2 e r hj2 hj hk2 hk⟩
  have hveq : ∀ r1 r2 cs1 hs1 cs2 hs2,
      h.get? r1 = some (HObj.str cs1 hs1) →
      h.get? r2 = some (HObj.str cs2 hs2) →
      (valuesEqual (Value.obj r1) (Value.obj r2) = true ↔ cs1 = cs2) := by
    intro r1 r2 cs1 hs1 cs2 hs2 hg1 hg2
    constructor
    · intro hv
      have hr : r1 = r2 := by
        simpa [valuesEqual] using hv
      rw [hr, hg2] at hg1
      injection hg1 with hg1
      injection hg1 with hA hB
      exact hA.symm
    · intro hcc
      have hr := hcu r1 r2 cs1 hs1 cs2 hs2 hg1 hg2 hcc
      simp [valuesEqual, hr]
  rcases hfs : tableFindString h t c (hashString c) with _ | r
  · -- miss: the content is fresh; allocateString registers it
    have habs : ∀ r0 cs hs, h.get? r0 = some (HObj.str cs hs) →
        cs ≠ c := by
      intro r0 cs hs hg0 hcc
      rcases hdisj with ⟨-, -, hns⟩ |
        ⟨hlenT, hshapeT, hkwfT, huniqT, hpathT, hcompT, hcountT, -⟩
      · exact absurd hg0 (hns r0 cs hs)
      · obtain ⟨j, e, hj, hk⟩ := hcompT r0 cs hs hg0
        have hchr0 : strChars h r0 = cs := by
          unfold strChars
          rw [hg0]
        have hhs0 : strHash h r0 = hs := by
          unfold strHash
          rw [hg0]
        have hhscs : hs = hashString cs := hhc r0 cs hs hg0
        have hjlt : j < t.entries.length := (List.get?_eq_some.mp hj).1
        have hhr0 : strHash h r0 = hashString c := by
          rw [hhs0, hhscs, hcc]
        have hmatch : (strChars h r0).length = c.length ∧
            strHash h r0 = hashString c ∧ strChars h r0 = c :=
          ⟨by rw [hchr0, hcc], hhr0, by rw [hchr0, hcc]⟩
        have hpathc : ∀ d,
            d < probeDist t.entries.length (hashString c) j →
            ∀ e2, t.entries.get?
                (probeSlot t.entries.length (hashString c) d) = some e2 →
              e2.key.isSome = true ∧ ∀ k2, e2.key = some k2 →
                ¬((strChars h k2).length = c.length ∧
                  strHash h k2 = hashString c ∧ strChars h k2 = c) := by
          intro d hd e2 he2
          have hkeyed := hpathT j e r0 hj hk d (by rw [hhr0]; exact hd) e2
            (by rw [hhr0]; exact he2)
          refine ⟨hkeyed, ?_⟩
          intro k2 hk2
          rintro ⟨-, -, hcc2⟩
          obtain ⟨cs2, hs2, hg2⟩ := hkwfT _ e2 k2 he2 hk2
          have hchr2 : strChars h k2 = cs2 := by
            unfold strChars
            rw [hg2]
          have hk2r0 : k2 = r0 := hcu k2 r0 cs2 hs2 cs hs hg2 hg0
            (by rw [← hchr2, hcc2, hcc])
          have hsj := huniqT _ j e2 e r0 he2 hj
            (by rw [hk2, hk2r0]) hk
          have hpd := probeDist_lt hlenT (hashString c) j
          have h1 : probeSlot t.entries.length (hashString c)
              (probeDist t.entries.length (hashString c) j) = j :=
            probeSlot_dist hlenT hjlt
          have hdj := @probeSlot_inj t.entries.length hlenT (hashString c)
            d (probeDist t.entries.length (hashString c) j) (by omega)
            hpd (by rw [hsj, h1])
          omega
        have hreach := findStringAux_reaches h t.entries c (hashString c)
          j r0 hlenT hjlt e hj hk hmatch hpathc
          (probeDist t.entries.length (hashString c) j) 0 (Nat.zero_add _)
          t.entries.length (probeDist_lt hlenT _ _)
        have hcnt : ¬ t.count = 0 := by
          have h5 := liveSlots_pos_of_live hj (by rw [hk]; rfl)
          omega
        unfold tableFindString at hfs
        rw [if_neg hcnt] at hfs
        rw [probeSlot_zero] at hreach
        rw [hreach] at hfs
        exact Option.noConfusion hfs
    obtain ⟨t1, halloc, hinv1, hfs1⟩ := allocateString_inv h t c hinv0 habs
    have hcs : copyString h t c =
        (h.length, h ++ [HObj.str c (hashString c)], t1) := by
      simp only [copyString, hfs]
      exact halloc
    rw [hcs]
    refine ⟨hinv1, List.get?_concat_length h _, ?_, hveq, hlast⟩
    show copyString (h ++ [HObj.str c (hashString c)]) t1 c =
      (h.length, h ++ [HObj.str c (hashString c)], t1)
    simp only [copyString, hfs1]
  · -- hit: the existing reference is returned and nothing changes
    have hcs : copyString h t c = (r, h, t) := by
      simp only [copyString, hfs]
    have hcnt : ¬ t.count = 0 := by
      intro hc0
      unfold tableFindString at hfs
      rw [if_pos hc0] at hfs
      exact Option.noConfusion hfs
    have hfs2 : tableFindStringAux h t.entries c (hashString c)
        t.entries.length ((hashString c) % t.entries.length) = some r := by
      unfold tableFindString at hfs
      rw [if_neg hcnt] at hfs
      exact hfs
    obtain ⟨⟨j, e, hj, hk⟩, -, -, hchr⟩ :=
      findStringAux_sound h t.entries c (hashString c) _ _ r hfs2
    have hgr2 : h.get? r = some (HObj.str c (hashString c)) := by
      rcases hdisj with ⟨hnil, hc0, -⟩ | ⟨-, -, hkwfT, -⟩
      · exact absurd hc0 hcnt
      · obtain ⟨cs, hs, hgr⟩ := hkwfT j e r hj hk
        have hcsr : strChars h r = cs := by
          unfold strChars
          rw [hgr]
        have hcsc : cs = c := hcsr.symm.trans hchr
        have hhsr : hs = hashString cs := hhc r cs hs hgr
        rw [hcsc] at hhsr
        rw [hcsc, hhsr] at hgr
        exact hgr
    rw [hcs]
    exact ⟨hinv0, hgr2, hcs, hveq, hlast⟩

theorem c6_string_interning_witness :
    InternInv [] ⟨0, []⟩ ∧
    (copyString [] ⟨0, []⟩ ['a']).2.1.get?
      (copyString [] ⟨0, []⟩ ['a']).1 =
      some (HObj.str ['a'] (hashString ['a'])) ∧
    copyString (copyString [] ⟨0, []⟩ ['a']).2.1
      (copyString [] ⟨0, []⟩ ['a']).2.2 ['a'] =
      ((copyString [] ⟨0, []⟩ ['a']).1,
        (copyString [] ⟨0, []⟩ ['a']).2.1,
        (copyString [] ⟨0, []⟩ ['a']).2.2) := by
  have hI : InternInv [] ⟨0, []⟩ := by
    refine ⟨?_, ?_, Or.inl ⟨rfl, rfl, ?_⟩⟩
    · intro r1 r2 cs1 hs1 cs2 hs2 hg1 hg2 hcc
      simp at hg1
    · intro r cs hs hg
      simp at hg
    · intro r cs hs hg
      simp at hg
  have hmain := c6_string_interning [] ⟨0, []⟩ ['a'] hI
  exact ⟨hI, hmain.2.1, hmain.2.2.1⟩

/-- Lift a state predicate over the result of one VM step. -/
def StepResSt (r : StepRes) (P : VMSt → Prop) : Prop :=
  match r with
  | .next s => P s
  | .halted s => P s
  | .err s _ => P s
  | .stuck => True

/-- Lift a state predicate over the result of a call helper. -/
def CallResSt (r : CallRes) (P : VMSt → Prop) : Prop :=
  match r with
  | .ok s => P s
  | .failure s _ => P s
  | .noRes => True

theorem CallResSt_ok {r : CallRes} {P : VMSt → Prop} {t : VMSt}
    (h : CallResSt r P) (he : r = .ok t) : P t := by
  subst he; exact h

theorem CallResSt_failure {r : CallRes} {P : VMSt → Prop} {t : VMSt}
    {e : RErr} (h : CallResSt r P) (he : r = .failure t e) : P t := by
  subst he; exact h

theorem upLoc_none_of_get {h : Heap} {r : Nat} {o : HObj}
    (hg : h.get? r = some o)
    (ho : ∀ i cv, o ≠ .upvalue (.stackIdx i) cv) : upLoc h r = none := by
  unfold upLoc
  rw [hg]
  cases o with
  | upvalue loc cv =>
    cases loc with
    | stackIdx i => exact absurd rfl (ho i cv)
    | ownClosed => rfl
  | str a b => rfl
  | fn a b c d => rfl
  | native => rfl
  | closure a b => rfl
  | cls a b => rfl
  | inst a b => rfl
  | boundMethod a b => rfl

theorem UpInv_set_closed {h : Heap} {l : List Nat} {ur : Nat} {cv v : Value}
    (hg : h.get? ur = some (.upvalue .ownClosed cv))
    (hi : UpInv h l) : UpInv (h.set ur (.upvalue .ownClosed v)) l :=
  UpInv_set_of_upLoc_none (upLoc_none_of_get hg (by intro i c h; cases h)) hi

theorem UpInv_set_inst {h : Heap} {l : List Nat} {r k : Nat} {f : Table}
    {v : HObj} (hg : h.get? r = some (.inst k f)) (hi : UpInv h l) :
    UpInv (h.set r v) l :=
  UpInv_set_of_upLoc_none (upLoc_none_of_get hg (by intro i c h; cases h)) hi

theorem UpInv_set_cls {h : Heap} {l : List Nat} {r n : Nat} {m : Table}
    {v : HObj} (hg : h.get? r = some (.cls n m)) (hi : UpInv h l) :
    UpInv (h.set r v) l :=
  UpInv_set_of_upLoc_none (upLoc_none_of_get hg (by intro i c h; cases h)) hi

theorem UpInv_allocObj {h : Heap} {o : HObj} {r : Nat} {h' : Heap}
    {l : List Nat} (heq : allocObj h o = (r, h')) (hi : UpInv h l) :
    UpInv h' l := by
  unfold allocObj at heq
  simp only [Prod.mk.injEq] at heq
  rw [← heq.2]
  exact UpInv_append_heap hi

theorem UpInv_takeString {h : Heap} {t : Table} {c : List Char} {r : Nat}
    {h' : Heap} {t' : Table} {l : List Nat}
    (heq : takeString h t c = (r, h', t')) (hi : UpInv h l) : UpInv h' l := by
  rcases hf : tableFindString h t c (hashString c) with _ | w
  · obtain ⟨t2, b2, hts⟩ :
        ∃ a b, tableSet (strHash (h ++ [HObj.str c (hashString c)])) t
          h.length Value.nil = (a, b) := ⟨_, _, rfl⟩
    simp only [takeString, copyString, hf, allocateString, allocObj, hts,
      Prod.mk.injEq] at heq
    obtain ⟨-, he, -⟩ := heq
    rw [← he]
    exact UpInv_append_heap hi
  · simp only [takeString, copyString, hf, Prod.mk.injEq] at heq
    obtain ⟨-, he, -⟩ := heq
    rw [← he]
    exact hi

theorem closeUpvalues_UpInv {h : Heap} {l : List Nat} {stk : List Value}
    {last : Nat} {h' : Heap} {l' : List Nat}
    (heq : closeUpvalues h l stk last = (h', l')) (hi : UpInv h l) :
    UpInv h' l' :=
  (closeUpvalues_spec l h stk last hi h' l' heq).1

theorem captureUpvalue_UpInv {h : Heap} {l : List Nat} {i r : Nat}
    {l' : List Nat} {h' : Heap}
    (heq : captureUpvalue h l i = (r, l', h')) (hi : UpInv h l) :
    UpInv h' l' :=
  (captureUpvalue_spec l h i hi r l' h' heq).1.1

/-- `captureUpvalue` only ever appends to the heap. -/
theorem captureUpvalue_heap_ext :
    ∀ (l : List Nat) (h : Heap) (i : Nat),
    ∃ ext, (captureUpvalue h l i).2.2 = h ++ ext := by
  intro l
  induction l with
  | nil => intro h i; exact ⟨_, rfl⟩
  | cons u rest ih =>
    intro h i
    unfold captureUpvalue
    cases hu : upLoc h u with
    | none => exact ⟨_, rfl⟩
    | some lu =>
      by_cases hlt : i < lu
      · simp only [hlt, if_pos]
        exact ih h i
      · by_cases heq : lu = i
        · simp only [hlt, if_neg, heq, if_pos, not_false_iff]
          exact ⟨[], by simp⟩
        · simp only [hlt, heq, if_neg, not_false_iff]
          exact ⟨_, rfl⟩

/-- The OP_CLOSURE operand loop preserves the invariant and only appends
to the heap. -/
theorem readUpvaluePairs_pres (code : List Nat) (frSlots : Nat)
    (enclUps : List Nat) :
    ∀ (n pos : Nat) (opens : List Nat) (heap : Heap),
    UpInv heap opens →
    ∀ ups opens' heap',
      readUpvaluePairs code frSlots enclUps n pos opens heap =
        some (ups, opens', heap') →
      UpInv heap' opens' ∧ ∃ ext, heap' = heap ++ ext := by
  intro n
  induction n with
  | zero =>
    intro pos opens heap hi ups opens' heap' heq
    simp only [readUpvaluePairs, Option.some_inj, Prod.mk.injEq] at heq
    obtain ⟨-, rfl, rfl⟩ := heq
    exact ⟨hi, [], by simp⟩
  | succ n ih =>
    intro pos opens heap hi ups opens' heap' heq
    unfold readUpvaluePairs at heq
    cases h1 : code.get? pos with
    | none => simp only [h1] at heq; exact Option.noConfusion heq
    | some isLocal =>
      cases h2 : code.get? (pos + 1) with
      | none => simp only [h1, h2] at heq; exact Option.noConfusion heq
      | some index =>
        simp only [h1, h2] at heq
        by_cases hl : isLocal ≠ 0
        · rw [if_pos hl] at heq
          obtain ⟨r0, opens0, heap0, hcap⟩ :
              ∃ a b c,
                captureUpvalue heap opens (frSlots + index) = (a, b, c) :=
            ⟨_, _, _, rfl⟩
          simp only [hcap] at heq
          have hinv0 := captureUpvalue_UpInv hcap hi
          obtain ⟨ext0, hext0⟩ := captureUpvalue_heap_ext opens heap
            (frSlots + index)
          rw [hcap] at hext0
          have hext0b : heap0 = heap ++ ext0 := by simpa using hext0
          cases hrec : readUpvaluePairs code frSlots enclUps n (pos + 2)
              opens0 heap0 with
          | none => simp only [hrec] at heq; exact Option.noConfusion heq
          | some res =>
            obtain ⟨ups1, opens1, heap1⟩ := res
            simp only [hrec, Option.some_inj, Prod.mk.injEq] at heq
            obtain ⟨-, rfl, rfl⟩ := heq
            obtain ⟨hie, ext1, hext1⟩ := ih (pos + 2) opens0 heap0 hinv0
              ups1 _ _ hrec
            exact ⟨hie, ext0 ++ ext1,
              by rw [hext1, hext0b, List.append_assoc]⟩
        · rw [if_neg hl] at heq
          cases h3 : enclUps.get? index with
          | none => simp only [h3] at heq; exact Option.noConfusion heq
          | some r0 =>
            simp only [h3] at heq
            cases hrec : readUpvaluePairs code frSlots enclUps n (pos + 2)
                opens heap with
            | none => simp only [hrec] at heq; exact Option.noConfusion heq
            | some res =>
              obtain ⟨ups1, opens1, heap1⟩ := res
              simp only [hrec, Option.some_inj, Prod.mk.injEq] at heq
              obtain ⟨-, rfl, rfl⟩ := heq
              exact ih (pos + 2) opens heap hi ups1 _ _ hrec

theorem upLoc_closure_slot (h : Heap) (fnR : Nat) (ups0 : List Nat)
    (ext : Heap) :
    upLoc ((h ++ [HObj.closure fnR ups0]) ++ ext) h.length = none := by
  unfold upLoc
  rw [List.get?_append (by simp), List.get?_concat_length]

/-- The OP_CLOSURE step as a whole preserves the invariant: allocate the
closure, run the operand loop, then overwrite the (non-upvalue) closure
cell with its final upvalue array. -/
theorem closure_step_UpInv {h0 : Heap} {fnR closRef : Nat} {heap1 : Heap}
    (hnc : newClosure h0 fnR = (closRef, heap1))
    {code : List Nat} {frSlots : Nat} {enclUps : List Nat} {upc pos : Nat}
    {opens ups opens' : List Nat} {heap' : Heap} {v : HObj}
    (hrup : readUpvaluePairs code frSlots enclUps upc pos opens heap1 =
      some (ups, opens', heap'))
    (hinv : UpInv h0 opens) :
    UpInv (heap'.set closRef v) opens' := by
  simp only [newClosure, allocObj, Prod.mk.injEq] at hnc
  obtain ⟨hr, hh⟩ := hnc
  subst hh
  obtain ⟨hie, ext, hext⟩ := readUpvaluePairs_pres code frSlots enclUps upc
    pos opens _ (UpInv_append_heap hinv) ups opens' heap' hrup
  refine UpInv_set_of_upLoc_none ?_ hie
  rw [hext, ← hr]
  exact upLoc_closure_slot h0 fnR _ ext

theorem UpInv_takeString2 {h : Heap} {t : Table} {c : List Char}
    {l : List Nat} (hi : UpInv h l) : UpInv (takeString h t c).2.1 l :=
  UpInv_takeString
    (show takeString h t c =
      ((takeString h t c).1, (takeString h t c).2.1,
        (takeString h t c).2.2) from rfl) hi

theorem closeUpvalues_UpInv2 {h : Heap} {l : List Nat} {stk : List Value}
    {last : Nat} (hi : UpInv h l) :
    UpInv (closeUpvalues h l stk last).1 (closeUpvalues h l stk last).2 :=
  closeUpvalues_UpInv
    (show closeUpvalues h l stk last =
      ((closeUpvalues h l stk last).1, (closeUpvalues h l stk last).2)
      from rfl) hi

theorem closure_step_UpInv2 {h0 : Heap} {fnR : Nat}
    {code : List Nat} {frSlots : Nat} {enclUps : List Nat} {upc pos : Nat}
    {opens ups opens' : List Nat} {heap' : Heap} {v : HObj}
    (hrup : readUpvaluePairs code frSlots enclUps upc pos opens
      (newClosure h0 fnR).2 = some (ups, opens', heap'))
    (hinv : UpInv h0 opens) :
    UpInv (heap'.set (newClosure h0 fnR).1 v) opens' :=
  closure_step_UpInv
    (show newClosure h0 fnR =
      ((newClosure h0 fnR).1, (newClosure h0 fnR).2) from rfl) hrup hinv

theorem callClosure_UpInv (s : VMSt) (r argc : Nat)
    (h : UpInv s.heap s.openUpvalues) :
    CallResSt (callClosure s r argc)
      (fun t => UpInv t.heap t.openUpvalues) := by
  unfold callClosure
  repeat' split
  all_goals simp only [CallResSt]
  all_goals simpa using h

theorem callValue_UpInv (s : VMSt) (callee : Value) (argc : Nat)
    (h : UpInv s.heap s.openUpvalues) :
    CallResSt (callValue s callee argc)
      (fun t => UpInv t.heap t.openUpvalues) := by
  unfold callValue
  cases hinit : s.initString
  all_goals repeat' split
  all_goals simp only [CallResSt]
  all_goals repeat' split
  all_goals try trivial
  all_goals try
    (refine CallResSt_ok (callClosure_UpInv ?_ ?_ ?_ ?_) ?_
     on_goal 5 => assumption
     all_goals
       first
       | exact h
       | exact UpInv_allocObj (by assumption) h
       | simpa using h
     done)
  all_goals try
    (refine @CallResSt_failure _ _ _ ?_ (callClosure_UpInv ?_ ?_ ?_ ?_) ?_
     on_goal 6 => assumption
     all_goals
       first
       | exact h
       | exact UpInv_allocObj (by assumption) h
       | simpa using h
     done)
  all_goals try
    (rename_i heqM
     split at heqM
     all_goals
       first
       | exact CallRes.noConfusion heqM
       | (refine CallResSt_ok (callClosure_UpInv ?_ ?_ ?_ ?_) ?_
          on_goal 5 => exact heqM
          all_goals exact UpInv_allocObj (by assumption) h)
       | (refine @CallResSt_failure _ _ _ ?_ (callClosure_UpInv ?_ ?_ ?_ ?_) ?_
          on_goal 6 => exact heqM
          all_goals exact UpInv_allocObj (by assumption) h)
       | (injection heqM with hI hJ
          subst hI
          simpa using UpInv_allocObj (by assumption) h)
       | (injection heqM with hI
          subst hI
          simpa using UpInv_allocObj (by assumption) h)
     done)
  all_goals try (simpa [VMSt.push] using h)
  all_goals try (simpa [VMSt.push] using UpInv_allocObj (by assumption) h)

theorem invokeFromClass_UpInv (s : VMSt) (klass name argc : Nat)
    (h : UpInv s.heap s.openUpvalues) :
    CallResSt (invokeFromClass s klass name argc)
      (fun t => UpInv t.heap t.openUpvalues) := by
  unfold invokeFromClass
  repeat' split
  all_goals simp only [CallResSt]
  all_goals repeat' split
  all_goals try trivial
  all_goals try
    (refine CallResSt_ok (callClosure_UpInv ?_ ?_ ?_ ?_) ?_
     on_goal 5 => assumption
     all_goals
       first
       | exact h
       | exact UpInv_allocObj (by assumption) h
       | simpa using h
     done)
  all_goals try
    (refine @CallResSt_failure _ _ _ ?_ (callClosure_UpInv ?_ ?_ ?_ ?_) ?_
     on_goal 6 => assumption
     all_goals
       first
       | exact h
       | exact UpInv_allocObj (by assumption) h
       | simpa using h
     done)
  all_goals try (simpa using h)

theorem invoke_UpInv (s : VMSt) (name argc : Nat)
    (h : UpInv s.heap s.openUpvalues) :
    CallResSt (invoke s name argc)
      (fun t => UpInv t.heap t.openUpvalues) := by
  unfold invoke
  repeat' split
  all_goals simp only [CallResSt]
  all_goals repeat' split
  all_goals try trivial
  all_goals try
    (refine CallResSt_ok (callValue_UpInv ?_ ?_ ?_ ?_) ?_
     on_goal 5 => assumption
     all_goals
       first
       | exact h
       | exact UpInv_allocObj (by assumption) h
       | simpa using h
     done)
  all_goals try
    (refine @CallResSt_failure _ _ _ ?_ (callValue_UpInv ?_ ?_ ?_ ?_) ?_
     on_goal 6 => assumption
     all_goals
       first
       | exact h
       | exact UpInv_allocObj (by assumption) h
       | simpa using h
     done)
  all_goals try
    (refine CallResSt_ok (invokeFromClass_UpInv ?_ ?_ ?_ ?_ ?_) ?_
     on_goal 6 => assumption
     all_goals
       first
       | exact h
       | exact UpInv_allocObj (by assumption) h
       | simpa using h
     done)
  all_goals try
    (refine @CallResSt_failure _ _ _ ?_ (invokeFromClass_UpInv ?_ ?_ ?_ ?_ ?_) ?_
     on_goal 7 => assumption
     all_goals
       first
       | exact h
       | exact UpInv_allocObj (by assumption) h
       | simpa using h
     done)
  all_goals try
    (rename_i heqM
     split at heqM
     all_goals
       first
       | exact CallRes.noConfusion heqM
       | (refine CallResSt_ok (callValue_UpInv ?_ ?_ ?_ ?_) ?_
          on_goal 5 => exact heqM
          all_goals exact UpInv_allocObj (by assumption) h)
       | (refine @CallResSt_failure _ _ _ ?_ (callValue_UpInv ?_ ?_ ?_ ?_) ?_
          on_goal 6 => exact heqM
          all_goals exact UpInv_allocObj (by assumption) h)
       | (injection heqM with hI hJ
          subst hI
          simpa using UpInv_allocObj (by assumption) h)
       | (injection heqM with hI
          subst hI
          simpa using UpInv_allocObj (by assumption) h)
     done)
  all_goals try
    (rename_i heqM
     split at heqM
     all_goals
       first
       | exact CallRes.noConfusion heqM
       | (refine CallResSt_ok (invokeFromClass_UpInv ?_ ?_ ?_ ?_ ?_) ?_
          on_goal 6 => exact heqM
          all_goals exact UpInv_allocObj (by assumption) h)
       | (refine @CallResSt_failure _ _ _ ?_ (invokeFromClass_UpInv ?_ ?_ ?_ ?_ ?_) ?_
          on_goal 7 => exact heqM
          all_goals exact UpInv_allocObj (by assumption) h)
       | (injection heqM with hI hJ
          subst hI
          simpa using UpInv_allocObj (by assumption) h)
       | (injection heqM with hI
          subst hI
          simpa using UpInv_allocObj (by assumption) h)
     done)
  all_goals try (simpa using h)

theorem bindMethod_UpInv (s : VMSt) (klass name : Nat)
    (h : UpInv s.heap s.openUpvalues) :
    CallResSt (bindMethod s klass name)
      (fun t => UpInv t.heap t.openUpvalues) := by
  unfold bindMethod VMSt.popV
  simp only [VMSt.push]
  repeat' split
  all_goals simp only [CallResSt]
  all_goals repeat' split
  all_goals try trivial
  all_goals try (simpa [VMSt.push] using h)
  all_goals try (simpa [VMSt.push] using UpInv_allocObj (by assumption) h)
  all_goals try
    (rename_i heqM
     split at heqM
     all_goals
       first
       | exact Option.noConfusion heqM
       | (simp only [Option.some_inj, Prod.mk.injEq] at heqM
          obtain ⟨h1M, h2M⟩ := heqM
          subst h2M
          simpa [VMSt.push, allocObj] using UpInv_append_heap h)
     done)

set_option maxHeartbeats 4000000 in
/-- C7, part 3: one VM step — whatever the dispatched opcode — preserves
the open-upvalue-list invariant. -/
theorem vmStep_preserves_UpInv (s : VMSt)
    (hinv : UpInv s.heap s.openUpvalues) :
    StepResSt (vmStep s) (fun t => UpInv t.heap t.openUpvalues) := by
  unfold vmStep VMSt.popV
  simp only [VMSt.push]
  repeat' split
  all_goals try
    (rename_i k hk
     by_cases hc0 : k = opConstant
     on_goal 1 => rw [if_pos hc0]
     rotate_left 1
     rw [if_neg hc0]
     by_cases hc1 : k = opNil
     on_goal 1 => rw [if_pos hc1]
     rotate_left 1
     rw [if_neg hc1]
     by_cases hc2 : k = opTrue
     on_goal 1 => rw [if_pos hc2]
     rotate_left 1
     rw [if_neg hc2]
     by_cases hc3 : k = opFalse
     on_goal 1 => rw [if_pos hc3]
     rotate_left 1
     rw [if_neg hc3]
     by_cases hc4 : k = opPop
     on_goal 1 => rw [if_pos hc4]
     rotate_left 1
     rw [if_neg hc4]
     by_cases hc5 : k = opGetLocal
     on_goal 1 => rw [if_pos hc5]
     rotate_left 1
     rw [if_neg hc5]
     by_cases hc6 : k = opSetLocal
     on_goal 1 => rw [if_pos hc6]
     rotate_left 1
     rw [if_neg hc6]
     by_cases hc7 : k = opGetGlobal
     on_goal 1 => rw [if_pos hc7]
     rotate_left 1
     rw [if_neg hc7]
     by_cases hc8 : k = opDefineGlobal
     on_goal 1 => rw [if_pos hc8]
     rotate_left 1
     rw [if_neg hc8]
     by_cases hc9 : k = opSetGlobal
     on_goal 1 => rw [if_pos hc9]
     rotate_left 1
     rw [if_neg hc9]
     by_cases hc10 : k = opSetUpvalue
     on_goal 1 => rw [if_pos hc10]
     rotate_left 1
     rw [if_neg hc10]
     by_cases hc11 : k = opGetUpvalue
     on_goal 1 => rw [if_pos hc11]
     rotate_left 1
     rw [if_neg hc11]
     by_cases hc12 : k = opGetProperty
     on_goal 1 => rw [if_pos hc12]
     rotate_left 1
     rw [if_neg hc12]
     by_cases hc13 : k = opSetProperty
     on_goal 1 => rw [if_pos hc13]
     rotate_left 1
     rw [if_neg hc13]
     by_cases hc14 : k = opGetSuper
     on_goal 1 => rw [if_pos hc14]
     rotate_left 1
     rw [if_neg hc14]
     by_cases hc15 : k = opEqual
     on_goal 1 => rw [if_pos hc15]
     rotate_left 1
     rw [if_neg hc15]
     by_cases hc16 : k = opGreater
     on_goal 1 => rw [if_pos hc16]
     rotate_left 1
     rw [if_neg hc16]
     by_cases hc17 : k = opLess
     on_goal 1 => rw [if_pos hc17]
     rotate_left 1
     rw [if_neg hc17]
     by_cases hc18 : k = opAdd
     on_goal 1 => rw [if_pos hc18]
     rotate_left 1
     rw [if_neg hc18]
     by_cases hc19 : k = opSubtract
     on_goal 1 => rw [if_pos hc19]
     rotate_left 1
     rw [if_neg hc19]
     by_cases hc20 : k = opMultiply
     on_goal 1 => rw [if_pos hc20]
     rotate_left 1
     rw [if_neg hc20]
     by_cases hc21 : k = opDivide
     on_goal 1 => rw [if_pos hc21]
     rotate_left 1
     rw [if_neg hc21]
     by_cases hc22 : k = opNot
     on_goal 1 => rw [if_pos hc22]
     rotate_left 1
     rw [if_neg hc22]
     by_cases hc23 : k = opNegate
     on_goal 1 => rw [if_pos hc23]
     rotate_left 1
     rw [if_neg hc23]
     by_cases hc24 : k = opPrint
     on_goal 1 => rw [if_pos hc24]
     rotate_left 1
     rw [if_neg hc24]
     by_cases hc25 : k = opJump
     on_goal 1 => rw [if_pos hc25]
     rotate_left 1
     rw [if_neg hc25]
     by_cases hc26 : k = opJumpIfFalse
     on_goal 1 => rw [if_pos hc26]
     rotate_left 1
     rw [if_neg hc26]
     by_cases hc27 : k = opLoop
     on_goal 1 => rw [if_pos hc27]
     rotate_left 1
     rw [if_neg hc27]
     by_cases hc28 : k = opCall
     on_goal 1 => rw [if_pos hc28]
     rotate_left 1
     rw [if_neg hc28]
     by_cases hc29 : k = opInvoke
     on_goal 1 => rw [if_pos hc29]
     rotate_left 1
     rw [if_neg hc29]
     by_cases hc30 : k = opSuperInvoke
     on_goal 1 => rw [if_pos hc30]
     rotate_left 1
     rw [if_neg hc30]
     by_cases hc31 : k = opClosure
     on_goal 1 => rw [if_pos hc31]
     rotate_left 1
     rw [if_neg hc31]
     by_cases hc32 : k = opCloseUpvalue
     on_goal 1 => rw [if_pos hc32]
     rotate_left 1
     rw [if_neg hc32]
     by_cases hc33 : k = opReturn
     on_goal 1 => rw [if_pos hc33]
     rotate_left 1
     rw [if_neg hc33]
     by_cases hc34 : k = opClass
     on_goal 1 => rw [if_pos hc34]
     rotate_left 1
     rw [if_neg hc34]
     by_cases hc35 : k = opInherit
     on_goal 1 => rw [if_pos hc35]
     rotate_left 1
     rw [if_neg hc35]
     by_cases hc36 : k = opMethod
     on_goal 1 => rw [if_pos hc36]
     rotate_left 1
     rw [if_neg hc36])
  all_goals simp only [StepResSt]
  all_goals repeat' split
  all_goals try trivial
  all_goals try (simpa [VMSt.push] using hinv)
  all_goals try (simpa [VMSt.push] using UpInv_append_heap hinv)
  all_goals try
    (refine CallResSt_ok (callValue_UpInv ?_ ?_ ?_ ?_) ?_
     on_goal 5 => assumption
     all_goals
       first
       | exact hinv
       | exact UpInv_allocObj (by assumption) hinv
       | simpa using hinv
     done)
  all_goals try
    (refine @CallResSt_failure _ _ _ ?_ (callValue_UpInv ?_ ?_ ?_ ?_) ?_
     on_goal 6 => assumption
     all_goals
       first
       | exact hinv
       | exact UpInv_allocObj (by assumption) hinv
       | simpa using hinv
     done)
  all_goals try
    (refine CallResSt_ok (invoke_UpInv ?_ ?_ ?_ ?_) ?_
     on_goal 5 => assumption
     all_goals
       first
       | exact hinv
       | exact UpInv_allocObj (by assumption) hinv
       | simpa using hinv
     done)
  all_goals try
    (refine @CallResSt_failure _ _ _ ?_ (invoke_UpInv ?_ ?_ ?_ ?_) ?_
     on_goal 6 => assumption
     all_goals
       first
       | exact hinv
       | exact UpInv_allocObj (by assumption) hinv
       | simpa using hinv
     done)
  all_goals try
    (refine CallResSt_ok (invokeFromClass_UpInv ?_ ?_ ?_ ?_ ?_) ?_
     on_goal 6 => assumption
     all_goals
       first
       | exact hinv
       | exact UpInv_allocObj (by assumption) hinv
       | simpa using hinv
     done)
  all_goals try
    (refine @CallResSt_failure _ _ _ ?_ (invokeFromClass_UpInv ?_ ?_ ?_ ?_ ?_) ?_
     on_goal 7 => assumption
     all_goals
       first
       | exact hinv
       | exact UpInv_allocObj (by assumption) hinv
       | simpa using hinv
     done)
  all_goals try
    (refine CallResSt_ok (bindMethod_UpInv ?_ ?_ ?_ ?_) ?_
     on_goal 5 => assumption
     all_goals
       first
       | exact hinv
       | exact UpInv_allocObj (by assumption) hinv
       | simpa using hinv
     done)
  all_goals try
    (refine @CallResSt_failure _ _ _ ?_ (bindMethod_UpInv ?_ ?_ ?_ ?_) ?_
     on_goal 6 => assumption
     all_goals
       first
       | exact hinv
       | exact UpInv_allocObj (by assumption) hinv
       | simpa using hinv
     done)
  all_goals try
    (simpa [VMSt.push] using UpInv_set_closed (by assumption) hinv)
  all_goals try
    (simpa [VMSt.push] using UpInv_set_inst (by assumption) hinv)
  all_goals try
    (simpa [VMSt.push] using UpInv_set_cls (by assumption) hinv)
  all_goals try
    (simpa [VMSt.push] using UpInv_takeString (by assumption) hinv)
  all_goals try
    (simpa [VMSt.push] using UpInv_allocObj (by assumption) hinv)
  all_goals try
    (simpa [VMSt.push] using closeUpvalues_UpInv (by assumption) hinv)
  all_goals try
    (simpa [VMSt.push] using closure_step_UpInv (by assumption)
      (by assumption) hinv)
  all_goals try
    (rename_i heqM
     repeat' split at heqM
     all_goals
       first
       | exact StepRes.noConfusion heqM
       | (injection heqM with hI
          subst hI
          first
                 | simpa [VMSt.push] using hinv
                 | simpa [VMSt.push, allocObj] using UpInv_append_heap hinv
                 | simpa [VMSt.push] using UpInv_set_closed (by assumption) hinv
                 | simpa [VMSt.push] using UpInv_set_inst (by assumption) hinv
                 | simpa [VMSt.push] using UpInv_set_cls (by assumption) hinv
                 | simpa [VMSt.push] using UpInv_takeString2 hinv
                 | simpa [VMSt.push] using UpInv_allocObj (by assumption) hinv
                 | simpa [VMSt.push] using closeUpvalues_UpInv2 hinv
                 | simpa [VMSt.push] using closeUpvalues_UpInv (by assumption) hinv
                 | simpa [VMSt.push] using closure_step_UpInv2 (by assumption) hinv
                 | simpa [VMSt.push] using closure_step_UpInv (by assumption)
                     (by assumption) hinv
                 | (refine CallResSt_ok (callValue_UpInv ?_ ?_ ?_ ?_) ?_
                    on_goal 5 => assumption
                    all_goals exact hinv)
                 | (refine @CallResSt_failure _ _ _ ?_ (callValue_UpInv ?_ ?_ ?_ ?_) ?_
                    on_goal 6 => assumption
                    all_goals exact hinv)
                 | (refine CallResSt_ok (invoke_UpInv ?_ ?_ ?_ ?_) ?_
                    on_goal 5 => assumption
                    all_goals exact hinv)
                 | (refine @CallResSt_failure _ _ _ ?_ (invoke_UpInv ?_ ?_ ?_ ?_) ?_
                    on_goal 6 => assumption
                    all_goals exact hinv)
                 | (refine CallResSt_ok (invokeFromClass_UpInv ?_ ?_ ?_ ?_ ?_) ?_
                    on_goal 6 => assumption
                    all_goals exact hinv)
                 | (refine @CallResSt_failure _ _ _ ?_ (invokeFromClass_UpInv ?_ ?_ ?_ ?_ ?_) ?_
                    on_goal 7 => assumption
                    all_goals exact hinv)
                 | (refine CallResSt_ok (bindMethod_UpInv ?_ ?_ ?_ ?_) ?_
                    on_goal 5 => assumption
                    all_goals exact hinv)
                 | (refine @CallResSt_failure _ _ _ ?_ (bindMethod_UpInv ?_ ?_ ?_ ?_) ?_
                    on_goal 6 => assumption
                    all_goals exact hinv))
       | (injection heqM with hI hJ
          subst hI
          first
                 | simpa [VMSt.push] using hinv
                 | simpa [VMSt.push, allocObj] using UpInv_append_heap hinv
                 | simpa [VMSt.push] using UpInv_set_closed (by assumption) hinv
                 | simpa [VMSt.push] using UpInv_set_inst (by assumption) hinv
                 | simpa [VMSt.push] using UpInv_set_cls (by assumption) hinv
                 | simpa [VMSt.push] using UpInv_takeString2 hinv
                 | simpa [VMSt.push] using UpInv_allocObj (by assumption) hinv
                 | simpa [VMSt.push] using closeUpvalues_UpInv2 hinv
                 | simpa [VMSt.push] using closeUpvalues_UpInv (by assumption) hinv
                 | simpa [VMSt.push] using closure_step_UpInv2 (by assumption) hinv
                 | simpa [VMSt.push] using closure_step_UpInv (by assumption)
                     (by assumption) hinv
                 | (refine CallResSt_ok (callValue_UpInv ?_ ?_ ?_ ?_) ?_
                    on_goal 5 => assumption
                    all_goals exact hinv)
                 | (refine @CallResSt_failure _ _ _ ?_ (callValue_UpInv ?_ ?_ ?_ ?_) ?_
                    on_goal 6 => assumption
                    all_goals exact hinv)
                 | (refine CallResSt_ok (invoke_UpInv ?_ ?_ ?_ ?_) ?_
                    on_goal 5 => assumption
                    all_goals exact hinv)
                 | (refine @CallResSt_failure _ _ _ ?_ (invoke_UpInv ?_ ?_ ?_ ?_) ?_
                    on_goal 6 => assumption
                    all_goals exact hinv)
                 | (refine CallResSt_ok (invokeFromClass_UpInv ?_ ?_ ?_ ?_ ?_) ?_
                    on_goal 6 => assumption
                    all_goals exact hinv)
                 | (refine @CallResSt_failure _ _ _ ?_ (invokeFromClass_UpInv ?_ ?_ ?_ ?_ ?_) ?_
                    on_goal 7 => assumption
                    all_goals exact hinv)
                 | (refine CallResSt_ok (bindMethod_UpInv ?_ ?_ ?_ ?_) ?_
                    on_goal 5 => assumption
                    all_goals exact hinv)
                 | (refine @CallResSt_failure _ _ _ ?_ (bindMethod_UpInv ?_ ?_ ?_ ?_) ?_
                    on_goal 6 => assumption
                    all_goals exact hinv))
     done)
  all_goals try
    (rename_i heqM
     repeat' split at heqM
     all_goals try (exact StepRes.noConfusion heqM)
     all_goals try (injection heqM with hI hJ; subst hI)
     all_goals try (injection heqM with hI; subst hI)
     all_goals repeat'
       (first
        | (rename_i hT1
           split at hT1
           all_goals try (exact Option.noConfusion hT1)
           all_goals try
             (simp only [Option.some_inj, Prod.mk.injEq] at hT1
              obtain ⟨hpa, hpb⟩ := hT1
              subst hpb))
        | (rename_i hT1 hS0
           split at hT1
           all_goals try (exact Option.noConfusion hT1)
           all_goals try
             (simp only [Option.some_inj, Prod.mk.injEq] at hT1
              obtain ⟨hpa, hpb⟩ := hT1
              subst hpb))
        | (rename_i hT1 hS0 hS1
           split at hT1
           all_goals try (exact Option.noConfusion hT1)
           all_goals try
             (simp only [Option.some_inj, Prod.mk.injEq] at hT1
              obtain ⟨hpa, hpb⟩ := hT1
              subst hpb))
        | (rename_i hT1 hS0 hS1 hS2
           split at hT1
           all_goals try (exact Option.noConfusion hT1)
           all_goals try
             (simp only [Option.some_inj, Prod.mk.injEq] at hT1
              obtain ⟨hpa, hpb⟩ := hT1
              subst hpb))
        | (rename_i hT1 hS0 hS1 hS2 hS3
           split at hT1
           all_goals try (exact Option.noConfusion hT1)
           all_goals try
             (simp only [Option.some_inj, Prod.mk.injEq] at hT1
              obtain ⟨hpa, hpb⟩ := hT1
              subst hpb))
        | (rename_i hT1 hS0 hS1 hS2 hS3 hS4
           split at hT1
           all_goals try (exact Option.noConfusion hT1)
           all_goals try
             (simp only [Option.some_inj, Prod.mk.injEq] at hT1
              obtain ⟨hpa, hpb⟩ := hT1
              subst hpb))
        | (rename_i hT1 hS0 hS1 hS2 hS3 hS4 hS5
           split at hT1
           all_goals try (exact Option.noConfusion hT1)
           all_goals try
             (simp only [Option.some_inj, Prod.mk.injEq] at hT1
              obtain ⟨hpa, hpb⟩ := hT1
              subst hpb))
        | (rename_i hT1 hS0 hS1 hS2 hS3 hS4 hS5 hS6
           split at hT1
           all_goals try (exact Option.noConfusion hT1)
           all_goals try
             (simp only [Option.some_inj, Prod.mk.injEq] at hT1
              obtain ⟨hpa, hpb⟩ := hT1
              subst hpb)))
     all_goals
       (first
        | simpa [VMSt.push] using hinv
        | simpa [VMSt.push, allocObj] using UpInv_append_heap hinv
        | simpa [VMSt.push] using UpInv_set_closed (by assumption) hinv
        | simpa [VMSt.push] using UpInv_set_inst (by assumption) hinv
        | simpa [VMSt.push] using UpInv_set_cls (by assumption) hinv
        | simpa [VMSt.push] using UpInv_takeString2 hinv
        | simpa [VMSt.push] using UpInv_allocObj (by assumption) hinv
        | simpa [VMSt.push] using closeUpvalues_UpInv2 hinv
        | simpa [VMSt.push] using closeUpvalues_UpInv (by assumption) hinv
        | simpa [VMSt.push] using closure_step_UpInv2 (by assumption) hinv
        | simpa [VMSt.push] using closure_step_UpInv (by assumption)
            (by assumption) hinv
        | (refine CallResSt_ok (callValue_UpInv ?_ ?_ ?_ ?_) ?_
           on_goal 5 => assumption
           all_goals
             first
             | exact hinv
             | simpa [VMSt.push] using hinv)
        | (refine @CallResSt_failure _ _ _ ?_ (callValue_UpInv ?_ ?_ ?_ ?_) ?_
           on_goal 6 => assumption
           all_goals
             first
             | exact hinv
             | simpa [VMSt.push] using hinv)
        | (refine CallResSt_ok (invoke_UpInv ?_ ?_ ?_ ?_) ?_
           on_goal 5 => assumption
           all_goals
             first
             | exact hinv
             | simpa [VMSt.push] using hinv)
        | (refine @CallResSt_failure _ _ _ ?_ (invoke_UpInv ?_ ?_ ?_ ?_) ?_
           on_goal 6 => assumption
           all_goals
             first
             | exact hinv
             | simpa [VMSt.push] using hinv)
        | (refine CallResSt_ok (invokeFromClass_UpInv ?_ ?_ ?_ ?_ ?_) ?_
           on_goal 6 => assumption
           all_goals
             first
             | exact hinv
             | simpa [VMSt.push] using hinv)
        | (refine @CallResSt_failure _ _ _ ?_ (invokeFromClass_UpInv ?_ ?_ ?_ ?_ ?_) ?_
           on_goal 7 => assumption
           all_goals
             first
             | exact hinv
             | simpa [VMSt.push] using hinv)
        | (refine CallResSt_ok (bindMethod_UpInv ?_ ?_ ?_ ?_) ?_
           on_goal 5 => assumption
           all_goals
             first
             | exact hinv
             | simpa [VMSt.push] using hinv)
        | (refine @CallResSt_failure _ _ _ ?_ (bindMethod_UpInv ?_ ?_ ?_ ?_) ?_
           on_goal 6 => assumption
           all_goals
             first
             | exact hinv
             | simpa [VMSt.push] using hinv))
     done)

/-- C7: the VM open-upvalue list invariant (`UpInv`: strictly descending
stack locations, hence at most one open upvalue per slot) holds after any
single VM step whenever it held before; `captureUpvalue` returns the
existing upvalue when one is already open for the requested slot (heap and
list untouched) and otherwise allocates a fresh open upvalue and splices it
at the unique position preserving the descending order; `closeUpvalues`
removes exactly the upvalues whose location is at or above the boundary,
storing the corresponding stack value into the closed cell and leaving all
other heap cells and the surviving (strictly below-boundary) upvalues
unchanged. -/
theorem c7_open_upvalue_invariant (s : VMSt)
    (hinv : UpInv s.heap s.openUpvalues) :
    StepResSt (vmStep s) (fun t => UpInv t.heap t.openUpvalues) ∧
    (∀ (l : List Nat) (h : Heap) (i : Nat), UpInv h l →
      ∀ r l' h', captureUpvalue h l i = (r, l', h') →
      (UpInv h' l' ∧ upLoc h' r = some i) ∧
      ((∃ u ∈ l, upLoc h u = some i) →
        h' = h ∧ l' = l ∧ r ∈ l ∧ upLoc h r = some i) ∧
      ((∀ u ∈ l, upLoc h u ≠ some i) →
        h' = h ++ [.upvalue (.stackIdx i) .nil] ∧ r = h.length ∧
        ∃ l1 l2, l = l1 ++ l2 ∧ l' = l1 ++ r :: l2 ∧
          (∀ u ∈ l1, ∃ lu, upLoc h u = some lu ∧ i < lu) ∧
          (∀ u ∈ l2, ∃ lu, upLoc h u = some lu ∧ lu < i))) ∧
    (∀ (l : List Nat) (h : Heap) (stk : List Value) (last : Nat),
      UpInv h l → ∀ h' l', closeUpvalues h l stk last = (h', l') →
      UpInv h' l' ∧
      ∃ pre, l = pre ++ l' ∧
        (∀ u ∈ pre, ∃ lc, upLoc h u = some lc ∧ last ≤ lc ∧
          h'.get? u = some (.upvalue .ownClosed (stk.getD lc .nil))) ∧
        (∀ u ∈ l', upLoc h' u = upLoc h u ∧
          ∃ lc, upLoc h u = some lc ∧ lc < last) ∧
        (∀ r, r ∉ pre → h'.get? r = h.get? r)) :=
  ⟨vmStep_preserves_UpInv s hinv, captureUpvalue_spec, closeUpvalues_spec⟩

theorem c7_open_upvalue_invariant_witness :
    UpInv initVMState.heap initVMState.openUpvalues ∧
    StepResSt (vmStep initVMState)
      (fun t => UpInv t.heap t.openUpvalues) :=
  have h : UpInv initVMState.heap initVMState.openUpvalues := by
    constructor
    · intro u hu
      rw [show initVMState.openUpvalues = [] from rfl] at hu
      cases hu
    · rw [show initVMState.openUpvalues = [] from rfl]
      exact List.Pairwise.nil
  ⟨h, (c7_open_upvalue_invariant initVMState h).1⟩

theorem c10_exit_codes_witness :
    cloxMain c10Interp c10Fs ["a.lox", "b.lox"] = some 64 ∧
    cloxMain c10Interp c10Fs ["missing.lox"] = some 74 ∧
    cloxMain c10Interp c10Fs ["cerr.lox"] = some 65 ∧
    cloxMain c10Interp c10Fs ["rerr.lox"] = some 70 ∧
    cloxMain c10Interp c10Fs ["ok.lox"] = some 0 := by
  obtain ⟨h64, h74, h65, h70, h0⟩ := c10_exit_codes c10Interp c10Fs
  refine ⟨h64 _ _ _, h74 _ rfl, h65 _ ")" rfl (by decide),
    h70 _ "print a;" rfl (by decide), h0 _ "1;" rfl (by decide)⟩

end Clox
